import Mathlib

/-!
Backtracking labelings: a shallow embedding.

Lean model of the C++ programs of the repository

* `All_subsets/allSubsets.cpp`
* `Graceful_labeling/graceful_labeling.cpp`
* `Graceful_labeling/graceful_labeling_wheels_with_0_at_central_vertex.cpp`
* `L321_labeling/L321-labeling-v1.cpp`, `L321_labeling/L321-labeling-v2.cpp`

Conventions.

* `Graph` (`unordered_map<int, list<int>>` with dense keys `0..n-1`) is the list of the
  adjacency lists in key order; `G.size()` is `G.length` and `G[v]` is `adj G v`
  (the empty list for an absent key, as `operator[]` gives).
* `vector<int>` labelings are `List Int`, the sentinel `-1` meaning "unset";
  `labeling[i]` is `labeling.getD i (-1)` and `labeling[i] = x` is `labeling.set i x`.
  Reading or writing outside the vector is undefined in C++; the theorems assume
  well-formed graphs, for which it does not happen.
* `std::set<int>` is a strictly increasing `List Int` (`setInsert`, `setErase`,
  `List.contains` for `count(x) > 0`).
* `cout` (or the vector the wheel program saves into) is the field `out`, the list of
  label vectors emitted so far, in order. `print_solution` is modelled by the vector it
  is given. The C++ function ends with a read of `labeling[labeling.size()-1]`, which is
  outside an empty vector, so the model follows the programs when the vector has at least
  one slot, that is, on a graph with at least one vertex; on the empty graph the model
  emits the empty vector where the program's read is out of bounds.
* The `int` result of the graceful `backtrack` is kept although no caller uses it.
* Recursion depth is bounded by a fuel argument; running out of fuel gives `none`.
-/

/-! ## Graphs -/

/-- Adjacency lists of the vertices `0..n-1`, in key order. -/
abbrev Graph := List (List Nat)

/-- The adjacency list `G[v]`. -/
def adj (G : Graph) (v : Nat) : List Nat := G.getD v []

/-- Simple undirected graph on `0..n-1`: neighbours are vertices, no loops, symmetric
adjacency lists, no repeated edges. -/
def IsSimple (G : Graph) : Prop :=
  ∀ v ∈ List.range G.length,
    (∀ w ∈ adj G v, w < G.length ∧ w ≠ v ∧ v ∈ adj G w) ∧ (adj G v).Nodup

instance (G : Graph) : Decidable (IsSimple G) := by
  unfold IsSimple
  infer_instance

/-- The edges `{u,v}` of `G`, each listed once as `(u, v)` with `u < v`, grouped by the
larger endpoint. -/
def edges (G : Graph) : List (Nat × Nat) :=
  (List.range G.length).flatMap fun v => ((adj G v).filter (fun u => decide (u < v))).map fun u => (u, v)

/-- Number of edges of `G`. -/
def edge_count (G : Graph) : Nat := (edges G).length

/-- Is there a walk with exactly `k` steps from `u` to `v`? -/
def reach (G : Graph) : Nat → Nat → Nat → Bool
  | 0, u, v => decide (u = v)
  | k + 1, u, v => (adj G u).any fun w => reach G k w v

/-- The graph distance between `u` and `v` is `d`: a walk of `d` steps exists and no
shorter one does. -/
def distIs (G : Graph) (d u v : Nat) : Prop :=
  reach G d u v = true ∧ ∀ k, k < d → reach G k u v = false

instance (G : Graph) (d u v : Nat) : Decidable (distIs G d u v) := by
  unfold distIs
  infer_instance

/-- The test `is_a_solution` of the labeling programs: no slot holds `-1`. -/
def is_a_solution (labeling : List Int) : Bool :=
  labeling.all fun v => v != -1

/-- The values of `for(int l = 0; l <= bound; ++l)`, in order. -/
def candidates (bound : Int) : List Int :=
  (List.range (bound + 1).toNat).map Int.ofNat

/-! ## `std::set<int>` -/

/-- Insert of `std::set<int>::insert` on a strictly increasing list. -/
def setInsert (x : Int) : List Int → List Int
  | [] => [x]
  | y :: ys => if x < y then x :: y :: ys else if x = y then y :: ys else y :: setInsert x ys

/-- Erase of `std::set<int>::erase(value)`. -/
def setErase (x : Int) (s : List Int) : List Int := s.filter fun y => y != x

/-! ## L(3,2,1)-labelings (`L321-labeling-v1.cpp`, `L321-labeling-v2.cpp`) -/

namespace L321

/-- State of the search: the solution vector and what has been printed. -/
structure St where
  labeling : List Int
  out : List (List Int)
deriving DecidableEq

/-- The function `label_is_safe` (identical in v1 and v2): the three nested loops over the
neighbours; every `return false` is a failed conjunct. -/
def label_is_safe (l : Int) (G : Graph) (index : Nat) (labeling : List Int) : Bool :=
  (adj G index).all fun neighbor_1 =>
    !(labeling.getD neighbor_1 (-1) != -1 &&
        decide ((l - labeling.getD neighbor_1 (-1)).natAbs < 3)) &&
    (adj G neighbor_1).all fun neighbor_2 =>
      !(labeling.getD neighbor_2 (-1) != -1 &&
          decide ((l - labeling.getD neighbor_2 (-1)).natAbs < 2)) &&
      (adj G neighbor_2).all fun neighbor_3 =>
        !(labeling.getD neighbor_3 (-1) != -1 &&
            decide ((l - labeling.getD neighbor_3 (-1)).natAbs < 1))

namespace V1

/-- The `for` loop of v1's `backtrack` over the remaining candidates; `rec` is the
recursive call at `index + 1`. -/
def loop (G : Graph) (index : Nat) (rec : St → Option St) : List Int → St → Option St
  | [], st => some st
  | l :: ls, st =>
    if label_is_safe l G index st.labeling then
      match rec { st with labeling := st.labeling.set index l } with
      | none => none
      | some st1 => loop G index rec ls { st1 with labeling := st1.labeling.set index (-1) }
    else loop G index rec ls st

/-- The function `backtrack` of v1. `print_solution(labeling)` appends the vector to `out`;
the C++ function reads `labeling[labeling.size()-1]`, so model and program agree when the
vector has at least one slot. -/
def backtrack (G : Graph) (maxLabel : Int) : Nat → Nat → St → Option St
  | 0, _, _ => none
  | fuel + 1, index, st =>
    if is_a_solution st.labeling then some { st with out := st.out ++ [st.labeling] }
    else loop G index (backtrack G maxLabel fuel (index + 1)) (candidates maxLabel) st

/-- The function `generate_labeling` of v1; the result is what was printed. -/
def generate_labeling (G : Graph) (maxLabel : Int) : Option (List (List Int)) :=
  (backtrack G maxLabel (G.length + 1) 0 ⟨List.replicate G.length (-1), []⟩).map St.out

end V1

namespace V2

/-- The `for` loop of v2's `backtrack`: a successful recursive call returns at once,
leaving the label in place. -/
def loop (G : Graph) (index : Nat) (rec : St → Option (Bool × St)) :
    List Int → St → Option (Bool × St)
  | [], st => some (false, st)
  | l :: ls, st =>
    if label_is_safe l G index st.labeling then
      match rec { st with labeling := st.labeling.set index l } with
      | none => none
      | some (true, st1) => some (true, st1)
      | some (false, st1) =>
        loop G index rec ls { st1 with labeling := st1.labeling.set index (-1) }
    else loop G index rec ls st

/-- The function `backtrack` of v2. `print_solution(labeling)` appends the vector to `out`;
the C++ function reads `labeling[labeling.size()-1]`, so model and program agree when the
vector has at least one slot. -/
def backtrack (G : Graph) (maxLabel : Int) : Nat → Nat → St → Option (Bool × St)
  | 0, _, _ => none
  | fuel + 1, index, st =>
    if is_a_solution st.labeling then some (true, { st with out := st.out ++ [st.labeling] })
    else loop G index (backtrack G maxLabel fuel (index + 1)) (candidates maxLabel) st

/-- The function `generate_labeling` of v2, started with `out` already printed. -/
def generate_labeling (G : Graph) (maxLabel : Int) (out : List (List Int)) :
    Option (Bool × St) :=
  backtrack G maxLabel (G.length + 1) 0 ⟨List.replicate G.length (-1), out⟩

/-- The function `maximum_degree`: the largest `G[i].size()` for `i` in `0..G.size()-1`. -/
def maximum_degree (G : Graph) : Nat :=
  (List.range' 1 (G.length - 1)).foldl
    (fun max i => if max < (adj G i).length then (adj G i).length else max) (adj G 0).length

/-- The `while(true)` loop of v2's `main` from the bound `maximum_label` on; `fuel` bounds
the number of bounds tried. The result is the bound that succeeded and the final state. -/
def main_loop (G : Graph) : Nat → Int → List (List Int) → Option (Int × St)
  | 0, _, _ => none
  | fuel + 1, maximum_label, out =>
    match generate_labeling G maximum_label out with
    | none => none
    | some (true, st) => some (maximum_label, st)
    | some (false, st) => main_loop G fuel (maximum_label + 1) st.out

/-- The body of v2's `main` after the graph is read. -/
def main (G : Graph) (fuel : Nat) : Option (Int × St) :=
  main_loop G fuel (2 * (maximum_degree G : Int) + 1) []

end V2

/-- An L(3,2,1)-labeling of `G`: one label per vertex, and labels at distance 1, 2, 3
differ by at least 3, 2, 1. -/
def IsL321 (G : Graph) (lab : List Int) : Prop :=
  lab.length = G.length ∧
  ∀ u, u < G.length → ∀ v, v < G.length → ∀ d, d ≤ 3 → 1 ≤ d → distIs G d u v →
    4 - d ≤ (lab.getD u (-1) - lab.getD v (-1)).natAbs

/-- All labels lie in `[0, maxLabel]`. -/
def LabelsIn (maxLabel : Int) (lab : List Int) : Prop :=
  ∀ x ∈ lab, 0 ≤ x ∧ x ≤ maxLabel

instance (G : Graph) (lab : List Int) : Decidable (IsL321 G lab) := by
  unfold IsL321
  infer_instance

instance (maxLabel : Int) (lab : List Int) : Decidable (LabelsIn maxLabel lab) := by
  unfold LabelsIn
  infer_instance

end L321

/-! ## Graceful labelings (`graceful_labeling.cpp`) -/

namespace Graceful

/-- State of the search: the solution vector, the set `edgeLabels`, and what has been
printed (or saved, in the wheel program). -/
structure St where
  labeling : List Int
  edgeLabels : List Int
  out : List (List Int)
deriving DecidableEq

/-- The second loop of `label_is_safe`, over the remaining neighbours, with `auxList`. -/
def label_is_safe_nbrs (l : Int) (labeling edgeLabels : List Int) :
    List Nat → List Int → Bool
  | [], _ => true
  | neighbor :: rest, auxList =>
    if labeling.getD neighbor (-1) != -1 then
      if edgeLabels.contains ((l - labeling.getD neighbor (-1)).natAbs : Int) ||
          auxList.contains ((l - labeling.getD neighbor (-1)).natAbs : Int) then false
      else label_is_safe_nbrs l labeling edgeLabels rest
        (setInsert ((l - labeling.getD neighbor (-1)).natAbs : Int) auxList)
    else label_is_safe_nbrs l labeling edgeLabels rest auxList

/-- The function `label_is_safe`: the label is not yet in the vector, and the differences
to the labeled neighbours are new and pairwise different. -/
def label_is_safe (l : Int) (G : Graph) (index : Nat) (labeling edgeLabels : List Int) : Bool :=
  if labeling.contains l then false
  else label_is_safe_nbrs l labeling edgeLabels (adj G index) []

/-- The insert loop of `backtrack`, run after `labeling[index] = l`. -/
def insert_edge_labels (labeling : List Int) (index : Nat) : List Nat → List Int → List Int
  | [], edgeLabels => edgeLabels
  | neighbor :: rest, edgeLabels =>
    if labeling.getD neighbor (-1) != -1 then
      insert_edge_labels labeling index rest
        (setInsert ((labeling.getD index (-1) - labeling.getD neighbor (-1)).natAbs : Int)
          edgeLabels)
    else insert_edge_labels labeling index rest edgeLabels

/-- The erase loop of `backtrack`, run after `labeling[index] = -1`; it recomputes the
differences from the candidate `l`. -/
def erase_edge_labels (l : Int) (labeling : List Int) : List Nat → List Int → List Int
  | [], edgeLabels => edgeLabels
  | neighbor :: rest, edgeLabels =>
    if labeling.getD neighbor (-1) != -1 then
      erase_edge_labels l labeling rest
        (setErase ((l - labeling.getD neighbor (-1)).natAbs : Int) edgeLabels)
    else erase_edge_labels l labeling rest edgeLabels

/-- The `for` loop of `backtrack` over the remaining candidates; `rec` is the recursive
call at `index + 1`, whose `int` result the loop discards. -/
def loop (G : Graph) (index : Nat) (rec : St → Option (Bool × St)) :
    List Int → St → Option (Bool × St)
  | [], st => some (false, st)
  | l :: ls, st =>
    if label_is_safe l G index st.labeling st.edgeLabels then
      match rec ⟨st.labeling.set index l,
          insert_edge_labels (st.labeling.set index l) index (adj G index) st.edgeLabels,
          st.out⟩ with
      | none => none
      | some (_, st1) =>
        loop G index rec ls ⟨st1.labeling.set index (-1),
          erase_edge_labels l (st1.labeling.set index (-1)) (adj G index) st1.edgeLabels,
          st1.out⟩
    else loop G index rec ls st

/-- The function `backtrack`. The emitted vector goes to `out` (`print_solution` in
`graceful_labeling.cpp`, `save_solution` in the wheel program, whose `backtrack` and
`label_is_safe` are otherwise the same text). `print_solution` reads
`labeling[labeling.size()-1]`, so model and program agree when the vector has at least one
slot; `save_solution` is a `push_back` and has no such condition. -/
def backtrack (G : Graph) (nEdges : Int) : Nat → Nat → St → Option (Bool × St)
  | 0, _, _ => none
  | fuel + 1, index, st =>
    if is_a_solution st.labeling then some (true, { st with out := st.out ++ [st.labeling] })
    else loop G index (backtrack G nEdges fuel (index + 1)) (candidates nEdges) st

/-- The function `generate_graceful_labeling`, with the global `number_of_edges` as an
argument; the result is what was printed. -/
def generate_graceful_labeling (G : Graph) (number_of_edges : Int) : Option (List (List Int)) :=
  (backtrack G number_of_edges (G.length + 1) 0 ⟨List.replicate G.length (-1), [], []⟩).map
    fun r => r.2.out

/-- The label `|label(u) - label(v)|` induced on the edge `(u, v)`. -/
def edgeLabel (lab : List Int) (e : Nat × Nat) : Int :=
  ((lab.getD e.1 (-1) - lab.getD e.2 (-1)).natAbs : Int)

/-- The list `1, ..., m`. -/
def oneTo (m : Nat) : List Int := (List.range' 1 m).map Int.ofNat

/-- A graceful labeling of `G` with `m` edges: one label per vertex, labels pairwise
distinct in `[0, m]`, and the induced edge labels are `1, ..., m`, each once. -/
def IsGraceful (G : Graph) (lab : List Int) : Prop :=
  lab.length = G.length ∧
  (∀ x ∈ lab, 0 ≤ x ∧ x ≤ (edge_count G : Int)) ∧
  lab.Nodup ∧
  ((edges G).map (edgeLabel lab)).Perm (oneTo (edge_count G))

instance (G : Graph) (lab : List Int) : Decidable (IsGraceful G lab) := by
  unfold IsGraceful
  infer_instance

end Graceful

/-! ## Graceful labelings of wheels (`graceful_labeling_wheels_with_0_at_central_vertex.cpp`) -/

namespace Wheel

/-- The statement `graph[v].push_back(w)`; an absent key is created first. -/
def push_adj (graph : Graph) (v w : Nat) : Graph :=
  (graph ++ List.replicate (v + 1 - graph.length) []).set v (adj graph v ++ [w])

/-- The body of the last loop of `create_wheel_graph` for one edge (the counter
`number_of_edges` is incremented by the caller). -/
def add_edge (graph : Graph) (e : Nat × Nat) : Graph :=
  push_adj (push_adj graph e.1 e.2) e.2 e.1

/-- The vector `edges` built by `create_wheel_graph`. -/
def wheel_edges (n : Nat) : List (Nat × Nat) :=
  (List.range' 1 (n - 1)).map (fun i => (i, i + 1)) ++ [(n, 1)] ++
    (List.range' 1 n).map (fun i => (0, i))

/-- The function `create_wheel_graph`: the new graph and the new value of the global
`number_of_edges`. -/
def create_wheel_graph (graph : Graph) (number_of_edges : Nat) (n : Nat) : Graph × Nat :=
  ((wheel_edges n).foldl add_edge graph, number_of_edges + (wheel_edges n).length)

/-- The flag computed by the innermost loop of `discard_complementary_labelings` for the
labelings `A = allLabelings[i]` and `B = allLabelings[j]`; `k` runs from 2 to
`ceil(n/2)`, which is `(n+1)/2` for a natural number `n`. -/
def complementary_flag (n : Nat) (A B : List Int) : Bool :=
  (List.range' 2 ((n + 1) / 2 - 1)).foldl
    (fun flag k =>
      if A.getD k (-1) != B.getD (n + 2 - k) (-1) || B.getD k (-1) != A.getD (n + 2 - k) (-1)
      then false else flag)
    true

/-- The loop over `j` of `discard_complementary_labelings`. -/
def mark_inner (allLabelings : List (List Int)) (n i : Nat) : List Nat → List Bool → List Bool
  | [], complementary => complementary
  | j :: js, complementary =>
    mark_inner allLabelings n i js
      (if complementary_flag n (allLabelings.getD i []) (allLabelings.getD j []) then
        complementary.set j true
      else complementary)

/-- The loop over `i` of `discard_complementary_labelings`. -/
def mark_outer (allLabelings : List (List Int)) (n : Nat) : List Nat → List Bool → List Bool
  | [], complementary => complementary
  | i :: is, complementary =>
    mark_outer allLabelings n is
      (if complementary.getD i false == false then
        mark_inner allLabelings n i
          (List.range' (i + 1) (allLabelings.length - (i + 1))) complementary
      else complementary)

/-- The vector `complementary` when the marking loops are done. -/
def marks (allLabelings : List (List Int)) (n : Nat) : List Bool :=
  mark_outer allLabelings n (List.range allLabelings.length)
    (List.replicate allLabelings.length false)

/-- The function `discard_complementary_labelings`: the labelings printed by its last
loop, in order (the global `total_of_labelings` grows by their number). -/
def discard_complementary_labelings (allLabelings : List (List Int)) (n : Nat) :
    List (List Int) :=
  ((List.range allLabelings.length).filter
      fun i => (marks allLabelings n).getD i false == false).map
    fun i => allLabelings.getD i []

/-- The function `backtrack` of the wheel program: the text of `backtrack` in
`graceful_labeling.cpp` (with the same `label_is_safe` and `is_a_solution`), except that a
complete labeling is appended to `allLabelings` by `save_solution` instead of being
printed; the field `out` of the state is `allLabelings`. -/
def backtrack (G : Graph) (nEdges : Int) (fuel index : Nat) (st : Graceful.St) :
    Option (Bool × Graceful.St) :=
  Graceful.backtrack G nEdges fuel index st

/-- The function `generate_graceful_labeling` of the wheel program, with the global
`number_of_edges` as an argument: the saved labelings and the printed ones. -/
def generate_graceful_labeling (graph : Graph) (number_of_edges : Int) :
    Option (List (List Int) × List (List Int)) :=
  (backtrack graph number_of_edges (graph.length + 1) 2
    ⟨((List.replicate graph.length (-1)).set 0 0).set 1 (2 * ((graph.length : Int) - 1)),
      setInsert (2 * ((graph.length : Int) - 1)) [], []⟩).map
    fun r => (r.2.out, discard_complementary_labelings r.2.out (graph.length - 1))

/-- The wheel `W_n` as `main` builds it, with its edge counter. -/
def wheel (n : Nat) : Graph × Nat := create_wheel_graph [] 0 n

end Wheel

/-! ## Subsets (`allSubsets.cpp`) -/

namespace Subsets

/-- Ways a run of the model can fail to produce a result. -/
inductive Fault
  | outOfBounds
  | outOfFuel
deriving DecidableEq

/-- The constant `MAX`: the array `a` has the slots `0..MAX-1`. -/
def MAX : Nat := 50

/-- The function `construct_candidates`: `c[0] = true`, `c[1] = false`, `nc = 2`. -/
def construct_candidates : List Int := [1, 0]

/-- The loop of `process_solution` from `i` on, `cnt` values left: the indices whose slot
is nonzero. A read outside the array is a fault. -/
def process_loop (a : List Int) : Nat → Nat → Except Fault (List Nat)
  | 0, _ => .ok []
  | cnt + 1, i =>
    if i < a.length then
      match process_loop a cnt (i + 1) with
      | .ok rest => .ok (if a.getD i 0 != 0 then i :: rest else rest)
      | .error e => .error e
    else .error .outOfBounds

/-- The function `process_solution`: the printed subset. -/
def process_solution (a : List Int) (k : Nat) : Except Fault (List Nat) :=
  process_loop a k 1

/-- State: the array `a` and the subsets printed so far. -/
structure St where
  a : List Int
  out : List (List Nat)
deriving DecidableEq

/-- The `for` loop of `backtrack` (after `k += 1`); `rec` is the recursive call. A write
outside the array is a fault. -/
def loop (k : Nat) (rec : St → Except Fault St) : List Int → St → Except Fault St
  | [], st => .ok st
  | c :: cs, st =>
    if k < st.a.length then
      match rec { st with a := st.a.set k c } with
      | .ok st1 => loop k rec cs st1
      | .error e => .error e
    else .error .outOfBounds

/-- The function `backtrack`. -/
def backtrack (n : Nat) : Nat → Nat → St → Except Fault St
  | 0, _, _ => .error .outOfFuel
  | fuel + 1, k, st =>
    if k = n then
      match process_solution st.a k with
      | .ok s => .ok { st with out := st.out ++ [s] }
      | .error e => .error e
    else loop (k + 1) (backtrack n fuel (k + 1)) construct_candidates st

/-- The function `generate_subsets`; `a0` is the initial (indeterminate) content of the
local array `a[MAX]`. The result is what was printed. -/
def generate_subsets (a0 : List Int) (n : Nat) : Except Fault (List (List Nat)) :=
  match backtrack n (n + 1) 0 ⟨a0, []⟩ with
  | .ok st => .ok st.out
  | .error e => .error e

end Subsets

/-! ## Reference enumerators and invariants used in the proofs -/

/-- Shape of the solution vector on entry to `backtrack` at `index`: exactly the slots
below `index` are set. -/
def Pre (n index : Nat) (lab : List Int) : Prop :=
  lab.length = n ∧ (∀ v, v < index → lab.getD v (-1) ≠ -1) ∧
    ∀ v, index ≤ v → lab.getD v (-1) = -1

namespace L321

/-- The labelings the exhaustive search emits below a node with `k` slots left, as a
plain list. -/
def sols (G : Graph) (maxLabel : Int) : Nat → Nat → List Int → List (List Int)
  | 0, _, lab => [lab]
  | k + 1, index, lab =>
    (candidates maxLabel).flatMap fun l =>
      if label_is_safe l G index lab then sols G maxLabel k (index + 1) (lab.set index l) else []

/-- Result of the stop-at-first search given the list of labelings below the node. -/
def firstOf (lab : List Int) (out : List (List Int)) : List (List Int) → Bool × St
  | [] => (false, ⟨lab, out⟩)
  | s :: _ => (true, ⟨s, out ++ [s]⟩)

/-- The slots below `index` hold labels in `[0, maxLabel]` that satisfy the distance
constraints among themselves. -/
def Good (G : Graph) (maxLabel : Int) (index : Nat) (lab : List Int) : Prop :=
  Pre G.length index lab ∧
  (∀ v, v < index → 0 ≤ lab.getD v (-1) ∧ lab.getD v (-1) ≤ maxLabel) ∧
  ∀ u v d, u < index → v < index → 1 ≤ d → d ≤ 3 → distIs G d u v →
    4 - d ≤ (lab.getD u (-1) - lab.getD v (-1)).natAbs

end L321

namespace Graceful

/-- The labelings the graceful search emits below a node with `k` slots left, as a plain
list; `edgeLabels` is only ever extended. -/
def sols (G : Graph) (nEdges : Int) : Nat → Nat → List Int → List Int → List (List Int)
  | 0, _, lab, _ => [lab]
  | k + 1, index, lab, edgeLabels =>
    (candidates nEdges).flatMap fun l =>
      if label_is_safe l G index lab edgeLabels then
        sols G nEdges k (index + 1) (lab.set index l)
          (insert_edge_labels (lab.set index l) index (adj G index) edgeLabels)
      else []

/-- The set `edgeLabels` is well formed and holds exactly the labels induced on the edges
whose endpoints are both below `index`. -/
def EInv (G : Graph) (index : Nat) (lab edgeLabels : List Int) : Prop :=
  edgeLabels.Sorted (· < ·) ∧
  ∀ y, y ∈ edgeLabels ↔ ∃ e ∈ edges G, e.2 < index ∧ y = edgeLabel lab e

/-- The slots below `index` hold pairwise different labels in `[0, m]`, and the edges
below `index` carry pairwise different labels. -/
def GInv (G : Graph) (index : Nat) (lab : List Int) : Prop :=
  (∀ v, v < index → 0 ≤ lab.getD v (-1) ∧ lab.getD v (-1) ≤ (edge_count G : Int)) ∧
  (∀ u v, u < index → v < index → lab.getD u (-1) = lab.getD v (-1) → u = v) ∧
  ∀ e ∈ edges G, ∀ e' ∈ edges G, e.2 < index → e'.2 < index →
    edgeLabel lab e = edgeLabel lab e' → e = e'

end Graceful

namespace Subsets

/-- The indices in `1..k` whose slot of `a` is nonzero: the elements chosen so far. -/
def chosen (a : List Int) (k : Nat) : List Nat :=
  (List.range' 1 k).filter fun i => a.getD i 0 != 0

/-- The subsets of `{k+1, ..., k+d}` in the order of the search: those with `k+1` first. -/
def ext : Nat → Nat → List (List Nat)
  | 0, _ => [[]]
  | d + 1, k => (ext d (k + 1)).map (fun s => (k + 1) :: s) ++ ext d (k + 1)

end Subsets

namespace Wheel

/-- The vector `complementary` after the outer loop has handled the indices below `p`. -/
def MarkInv (allLabelings : List (List Int)) (n p : Nat) (c : List Bool) : Prop :=
  c.length = allLabelings.length ∧
  ∀ j, c.getD j false = true ↔
    j < allLabelings.length ∧ ∃ i, i < p ∧ i < j ∧ c.getD i false = false ∧
      complementary_flag n (allLabelings.getD i []) (allLabelings.getD j []) = true

/-- The labelings `X` and `Z` agree on the positions the complementary test reads. -/
def Agree (n : Nat) (X Z : List Int) : Prop :=
  ∀ k, 2 ≤ k → k ≤ (n + 1) / 2 →
    X.getD k (-1) = Z.getD k (-1) ∧ X.getD (n + 2 - k) (-1) = Z.getD (n + 2 - k) (-1)

/-- What the edge `e` contributes to the adjacency list of `u`. -/
def inc (u : Nat) (e : Nat × Nat) : List Nat :=
  (if u = e.1 then [e.2] else []) ++ if u = e.2 then [e.1] else []

/-- The edge as a pair with the smaller endpoint first. -/
def norm (e : Nat × Nat) : Nat × Nat := if e.1 < e.2 then e else (e.2, e.1)

/-- The rotation of the outer cycle by one step: `1 → 2 → ... → n → 1`, the hub fixed. -/
def rot1 (n v : Nat) : Nat := if v = 0 then 0 else if v = n then 1 else v + 1

/-- The reflection of the outer cycle that fixes vertex 1: `k ↦ n + 2 - k`. -/
def mirror (n v : Nat) : Nat := if v ≤ 1 then v else n + 2 - v

/-- The labeling `v ↦ f[σ v]`. -/
def relabel (σ : Nat → Nat) (f : List Int) : List Int :=
  (List.range f.length).map fun v => f.getD (σ v) (-1)

end Wheel

/-- A symmetry of the graph: a map of the vertices to the vertices, injective, that keeps
adjacency. -/
def IsAut (G : Graph) (σ : Nat → Nat) : Prop :=
  (∀ v, v < G.length → σ v < G.length) ∧
  (∀ u v, u < G.length → v < G.length → σ u = σ v → u = v) ∧
  ∀ u v, u ∈ adj G v → σ u ∈ adj G (σ v)

namespace Wheel

/-- The solution vector `generate_graceful_labeling` starts from on `W_n`: hub 0, vertex 1
labeled `2n`. -/
def lab0 (n : Nat) : List Int :=
  ((List.replicate (n + 1) (-1)).set 0 0).set 1 (2 * (n : Int))

end Wheel

/-! ## Instrumented graceful search and the triangle -/

namespace Graceful

/-- The arguments `index`, `labeling`, `edgeLabels` of one call of `backtrack`. -/
structure Entry where
  index : Nat
  labeling : List Int
  edgeLabels : List Int
deriving DecidableEq

/-- The function `loop` with a log of the calls of `backtrack` made so far. -/
def loopT (G : Graph) (index : Nat)
    (rec : St × List Entry → Option (Bool × St × List Entry)) :
    List Int → St × List Entry → Option (Bool × St × List Entry)
  | [], s => some (false, s)
  | l :: ls, (st, log) =>
    if label_is_safe l G index st.labeling st.edgeLabels then
      match rec (⟨st.labeling.set index l,
          insert_edge_labels (st.labeling.set index l) index (adj G index) st.edgeLabels,
          st.out⟩, log) with
      | none => none
      | some (_, st1, log1) =>
        loopT G index rec ls (⟨st1.labeling.set index (-1),
          erase_edge_labels l (st1.labeling.set index (-1)) (adj G index) st1.edgeLabels,
          st1.out⟩, log1)
    else loopT G index rec ls (st, log)

/-- The function `backtrack` with a log: every call first records its arguments. -/
def backtrackT (G : Graph) (nEdges : Int) :
    Nat → Nat → St × List Entry → Option (Bool × St × List Entry)
  | 0, _, _ => none
  | fuel + 1, index, (st, log) =>
    if is_a_solution st.labeling then
      some (true, { st with out := st.out ++ [st.labeling] },
        log ++ [⟨index, st.labeling, st.edgeLabels⟩])
    else loopT G index (backtrackT G nEdges fuel (index + 1)) (candidates nEdges)
      (st, log ++ [⟨index, st.labeling, st.edgeLabels⟩])

/-- The calls of `backtrack` that `generate_graceful_labeling` makes, in order. -/
def entries (G : Graph) (number_of_edges : Int) : Option (List Entry) :=
  (backtrackT G number_of_edges (G.length + 1) 0
    (⟨List.replicate G.length (-1), [], []⟩, [])).map fun r => r.2.2

/-- At this call exactly the slots below `index` are set and `edgeLabels` is a well-formed
set holding exactly the differences over the edges with both endpoints labeled. -/
def EntryOK (G : Graph) (e : Entry) : Prop :=
  Pre G.length e.index e.labeling ∧ e.edgeLabels.Sorted (· < ·) ∧
  ∀ y, y ∈ e.edgeLabels ↔
    ∃ ed ∈ edges G, e.labeling.getD ed.1 (-1) ≠ -1 ∧ e.labeling.getD ed.2 (-1) ≠ -1 ∧
      y = edgeLabel e.labeling ed

/-- The graph `create_graph_from_file` builds from the edge list `(0,1), (1,2), (2,0)`: for
each pair read, `graph[v1].push_back(v2)` and `graph[v2].push_back(v1)`. -/
def triangle : Graph := [(0, 1), (1, 2), (2, 0)].foldl Wheel.add_edge []

end Graceful

/-! ## Lists as vectors -/

theorem getD_set_self {α} (l : List α) (i : Nat) (x d : α) (h : i < l.length) :
    (l.set i x).getD i d = x := by
  simp [List.getD_eq_getElem?_getD, List.getElem?_set, h]

theorem getD_set_of_ne {α} (l : List α) (i j : Nat) (x d : α) (h : i ≠ j) :
    (l.set i x).getD j d = l.getD j d := by
  simp [List.getD_eq_getElem?_getD, List.getElem?_set, h]

theorem set_set_getD {α} (l : List α) (i : Nat) (x d : α) (h : i < l.length) :
    (l.set i x).set i (l.getD i d) = l := by
  rw [List.set_set]
  apply List.ext_getElem?
  intro j
  by_cases hj : i = j
  · subst hj; simp [List.getElem?_set, h, List.getD_eq_getElem?_getD]
  · simp [List.getElem?_set, hj]

theorem mem_iff_getD {l : List Int} {x : Int} :
    x ∈ l ↔ ∃ i, i < l.length ∧ l.getD i (-1) = x := by
  constructor
  · intro h
    obtain ⟨i, hi, rfl⟩ := List.getElem_of_mem h
    exact ⟨i, hi, by simp [List.getD_eq_getElem?_getD, hi]⟩
  · rintro ⟨i, hi, rfl⟩
    simp [List.getD_eq_getElem?_getD, hi]

theorem ext_getD {l₁ l₂ : List Int} (hlen : l₁.length = l₂.length)
    (h : ∀ i, i < l₁.length → l₁.getD i (-1) = l₂.getD i (-1)) : l₁ = l₂ := by
  apply List.ext_getElem hlen
  intro i h1 h2
  have := h i h1
  simpa [List.getD_eq_getElem?_getD, h1, h2] using this

/-! ## Candidates -/

theorem mem_candidates {bound l : Int} : l ∈ candidates bound ↔ 0 ≤ l ∧ l ≤ bound := by
  unfold candidates
  simp only [List.mem_map, List.mem_range]
  constructor
  · rintro ⟨k, hk, rfl⟩
    constructor
    · exact Int.ofNat_nonneg k
    · have : (k : Int) < bound + 1 := by omega
      show (k : Int) ≤ bound
      omega
  · rintro ⟨h0, h1⟩
    refine ⟨l.toNat, by omega, ?_⟩
    show ((l.toNat : Nat) : Int) = l
    omega

theorem nodup_candidates (bound : Int) : (candidates bound).Nodup := by
  unfold candidates
  exact List.Nodup.map (fun a b h => by injection h) (List.nodup_range _)

theorem candidates_ne_neg_one {bound l : Int} (h : l ∈ candidates bound) : l ≠ -1 := by
  have := (mem_candidates.mp h).1
  omega

/-! ## The shape invariant -/

theorem is_a_solution_iff {n index : Nat} {lab : List Int} (h : Pre n index lab) :
    is_a_solution lab = true ↔ n ≤ index := by
  obtain ⟨hlen, hset, hunset⟩ := h
  unfold is_a_solution
  rw [List.all_eq_true]
  constructor
  · intro hall
    by_contra hlt
    have hlt : index < n := by omega
    have h1 := hunset index (le_refl _)
    have hmem : lab.getD index (-1) ∈ lab := mem_iff_getD.mpr ⟨index, by omega, rfl⟩
    have := hall _ hmem
    rw [h1] at this
    simp at this
  · intro hle x hx
    obtain ⟨i, hi, rfl⟩ := mem_iff_getD.mp hx
    have := hset i (by omega)
    simpa using this

theorem Pre.set {n index : Nat} {lab : List Int} (h : Pre n index lab) (hi : index < n)
    {l : Int} (hl : l ≠ -1) : Pre n (index + 1) (lab.set index l) := by
  obtain ⟨hlen, hset, hunset⟩ := h
  refine ⟨by simp [hlen], ?_, ?_⟩
  · intro v hv
    by_cases hvi : index = v
    · subst hvi; rw [getD_set_self _ _ _ _ (by omega)]; exact hl
    · rw [getD_set_of_ne _ _ _ _ _ hvi]; exact hset v (by omega)
  · intro v hv
    rw [getD_set_of_ne _ _ _ _ _ (by omega)]
    exact hunset v (by omega)

theorem Pre.restore {n index : Nat} {lab : List Int} (h : Pre n index lab) (hi : index < n)
    (l : Int) : (lab.set index l).set index (-1) = lab := by
  have h1 := h.2.2 index (le_refl _)
  have := set_set_getD lab index l (-1) (by rw [h.1]; exact hi)
  rwa [h1] at this

theorem pre_replicate (n : Nat) : Pre n 0 (List.replicate n (-1)) := by
  refine ⟨by simp, by intro v hv; omega, ?_⟩
  intro v _
  simp only [List.getD_eq_getElem?_getD, List.getElem?_replicate]
  split <;> rfl

/-! ## Walks -/

theorem reach_one {G : Graph} {u v : Nat} : reach G 1 u v = true ↔ v ∈ adj G u := by
  simp [reach]

theorem reach_succ_right {G : Graph} (k : Nat) : ∀ u v,
    reach G (k + 1) u v = true ↔ ∃ w, reach G k u w = true ∧ v ∈ adj G w := by
  induction k with
  | zero =>
    intro u v
    simp [reach]
  | succ k ih =>
    intro u v
    rw [reach, List.any_eq_true]
    constructor
    · rintro ⟨x, hx, hr⟩
      obtain ⟨w, hw, hv⟩ := (ih x v).mp hr
      refine ⟨w, ?_, hv⟩
      rw [reach, List.any_eq_true]
      exact ⟨x, hx, hw⟩
    · rintro ⟨w, hw, hv⟩
      rw [reach, List.any_eq_true] at hw
      obtain ⟨x, hx, hr⟩ := hw
      exact ⟨x, hx, (ih x v).mpr ⟨w, hr, hv⟩⟩

theorem reach_symm {G : Graph} (hs : ∀ v w, w ∈ adj G v → v ∈ adj G w) (k : Nat) : ∀ u v,
    reach G k u v = true → reach G k v u = true := by
  induction k with
  | zero => intro u v h; simp [reach] at h ⊢; exact h.symm
  | succ k ih =>
    intro u v h
    rw [reach, List.any_eq_true] at h
    obtain ⟨x, hx, hr⟩ := h
    exact (reach_succ_right k v u).mpr ⟨x, ih _ _ hr, hs _ _ hx⟩

theorem distIs_symm {G : Graph} (hs : ∀ v w, w ∈ adj G v → v ∈ adj G w) {d u v : Nat}
    (h : distIs G d u v) : distIs G d v u := by
  refine ⟨reach_symm hs d u v h.1, ?_⟩
  intro k hk
  have := h.2 k hk
  by_contra hc
  have hc : reach G k v u = true := by simpa using hc
  rw [reach_symm hs k v u hc] at this
  exact absurd this (by simp)

/-- A walk of at most three steps between different vertices gives a distance in 1..3. -/
theorem exists_dist_of_reach {G : Graph} {d u v : Nat} (hd : d ≤ 3) (huv : u ≠ v)
    (h : reach G d u v = true) : ∃ e, 1 ≤ e ∧ e ≤ d ∧ distIs G e u v := by
  have h0 : reach G 0 u v = false := by simp [reach, huv]
  by_cases h1 : reach G 1 u v = true
  · refine ⟨1, le_refl _, ?_, h1, ?_⟩
    · rcases d with _ | d
      · rw [h0] at h; exact absurd h (by simp)
      · omega
    · intro k hk
      have : k = 0 := by omega
      subst this; exact h0
  have h1 : reach G 1 u v = false := by simpa using h1
  by_cases h2 : reach G 2 u v = true
  · refine ⟨2, by omega, ?_, h2, ?_⟩
    · rcases d with _ | _ | d
      · rw [h0] at h; exact absurd h (by simp)
      · rw [h1] at h; exact absurd h (by simp)
      · omega
    · intro k hk
      have : k = 0 ∨ k = 1 := by omega
      rcases this with rfl | rfl
      · exact h0
      · exact h1
  have h2 : reach G 2 u v = false := by simpa using h2
  have hd3 : d = 3 := by
    rcases d with _ | _ | _ | d
    · rw [h0] at h; exact absurd h (by simp)
    · rw [h1] at h; exact absurd h (by simp)
    · rw [h2] at h; exact absurd h (by simp)
    · omega
  subst hd3
  refine ⟨3, by omega, le_refl _, h, ?_⟩
  intro k hk
  have : k = 0 ∨ k = 1 ∨ k = 2 := by omega
  rcases this with rfl | rfl | rfl
  · exact h0
  · exact h1
  · exact h2

/-! ## Simple graphs -/

theorem adj_eq_nil {G : Graph} {v : Nat} (h : G.length ≤ v) : adj G v = [] := by
  unfold adj
  simp [List.getD_eq_getElem?_getD, List.getElem?_eq_none h]

theorem lt_length_of_mem_adj {G : Graph} {v w : Nat} (h : w ∈ adj G v) : v < G.length := by
  by_contra hc
  rw [adj_eq_nil (by omega)] at h
  simp at h

theorem IsSimple.lt {G : Graph} (hG : IsSimple G) {v w : Nat} (h : w ∈ adj G v) :
    w < G.length :=
  ((hG v (List.mem_range.mpr (lt_length_of_mem_adj h))).1 w h).1

theorem IsSimple.ne {G : Graph} (hG : IsSimple G) {v w : Nat} (h : w ∈ adj G v) : w ≠ v :=
  ((hG v (List.mem_range.mpr (lt_length_of_mem_adj h))).1 w h).2.1

theorem IsSimple.symm {G : Graph} (hG : IsSimple G) : ∀ v w, w ∈ adj G v → v ∈ adj G w :=
  fun v w h => ((hG v (List.mem_range.mpr (lt_length_of_mem_adj h))).1 w h).2.2

theorem IsSimple.nodup {G : Graph} (hG : IsSimple G) (v : Nat) : (adj G v).Nodup := by
  by_cases hv : v < G.length
  · exact (hG v (List.mem_range.mpr hv)).2
  · rw [adj_eq_nil (by omega)]; exact List.nodup_nil

theorem count_flatMap_unique {α β} [DecidableEq α] [BEq β] [LawfulBEq β] (f : α → List β) (a : β)
    (c0 : α) : ∀ (cs : List α), cs.Nodup → c0 ∈ cs → (f c0).count a = 1 →
    (∀ c ∈ cs, c ≠ c0 → a ∉ f c) → (cs.flatMap f).count a = 1 := by
  have hzero : ∀ (cs : List α), (∀ c ∈ cs, a ∉ f c) → (cs.flatMap f).count a = 0 := by
    intro cs h
    rw [List.count_eq_zero]
    intro hmem
    obtain ⟨c, hc, hac⟩ := List.mem_flatMap.mp hmem
    exact h c hc hac
  intro cs
  induction cs with
  | nil => intro _ h; simp at h
  | cons c cs ih =>
    intro hnd hmem h1 hne
    rw [List.flatMap_cons, List.count_append]
    rw [List.nodup_cons] at hnd
    by_cases hc : c = c0
    · subst hc
      rw [h1, hzero cs]
      intro c' hc'
      exact hne c' (List.mem_cons_of_mem _ hc') (fun h => hnd.1 (h ▸ hc'))
    · have hmem' : c0 ∈ cs := by
        rcases List.mem_cons.mp hmem with h | h
        · exact absurd h.symm hc
        · exact h
      rw [List.count_eq_zero.mpr (hne c (List.mem_cons_self _ _) hc),
        ih hnd.2 hmem' h1 (fun c' hc' => hne c' (List.mem_cons_of_mem _ hc'))]

theorem mem_iff_getD_nil {L : List (List Int)} {X : List Int} :
    X ∈ L ↔ ∃ i, i < L.length ∧ L.getD i [] = X := by
  constructor
  · intro h
    obtain ⟨i, hi, rfl⟩ := List.getElem_of_mem h
    exact ⟨i, hi, by simp [List.getD_eq_getElem?_getD, hi]⟩
  · rintro ⟨i, hi, rfl⟩
    simp [List.getD_eq_getElem?_getD, hi]

namespace L321

/-! ## The safety predicate and walks -/

theorem safe_iff_walks (l : Int) (G : Graph) (index : Nat) (lab : List Int) :
    label_is_safe l G index lab = true ↔
      ∀ d w, 1 ≤ d → d ≤ 3 → reach G d index w = true → lab.getD w (-1) ≠ -1 →
        4 - d ≤ (l - lab.getD w (-1)).natAbs := by
  unfold label_is_safe
  simp only [List.all_eq_true, Bool.and_eq_true, Bool.not_eq_true', Bool.and_eq_false_imp,
    bne_iff_ne, ne_eq, decide_eq_false_iff_not, not_lt]
  constructor
  · intro h d w hd1 hd3 hr hw
    have hd : d = 1 ∨ d = 2 ∨ d = 3 := by omega
    rcases hd with rfl | rfl | rfl
    · simp only [reach, List.any_eq_true, decide_eq_true_eq] at hr
      obtain ⟨a, ha, rfl⟩ := hr
      exact (h a ha).1 hw
    · simp only [reach, List.any_eq_true, decide_eq_true_eq] at hr
      obtain ⟨a, ha, b, hb, rfl⟩ := hr
      exact ((h a ha).2 b hb).1 hw
    · simp only [reach, List.any_eq_true, decide_eq_true_eq] at hr
      obtain ⟨a, ha, b, hb, c, hc, rfl⟩ := hr
      exact (((h a ha).2 b hb).2 c hc) hw
  · intro h a ha
    refine ⟨fun hw => h 1 a (le_refl _) (by omega) ?_ hw, fun b hb => ?_⟩
    · simp only [reach, List.any_eq_true, decide_eq_true_eq]; exact ⟨a, ha, rfl⟩
    refine ⟨fun hw => h 2 b (by omega) (by omega) ?_ hw, fun c hc => ?_⟩
    · simp only [reach, List.any_eq_true, decide_eq_true_eq]; exact ⟨a, ha, b, hb, rfl⟩
    intro hw
    refine h 3 c (by omega) (le_refl _) ?_ hw
    simp only [reach, List.any_eq_true, decide_eq_true_eq]; exact ⟨a, ha, b, hb, c, hc, rfl⟩

/-! ## The searches compute `sols` -/

theorem loop_v1_eq (G : Graph) (index : Nat) (rec : St → Option St) (lab : List Int)
    (S : Int → List (List Int))
    (hset : ∀ l, (lab.set index l).set index (-1) = lab) :
    ∀ (cs : List Int),
      (∀ l ∈ cs, label_is_safe l G index lab = true →
        ∀ out, rec ⟨lab.set index l, out⟩ = some ⟨lab.set index l, out ++ S l⟩) →
      ∀ out, V1.loop G index rec cs ⟨lab, out⟩ =
        some ⟨lab, out ++ cs.flatMap fun l => if label_is_safe l G index lab then S l else []⟩ := by
  intro cs
  induction cs with
  | nil => intro _ out; simp [V1.loop]
  | cons c cs ih =>
    intro hrec out
    have ih' := ih (fun l hl => hrec l (List.mem_cons_of_mem _ hl))
    rw [V1.loop]
    by_cases hsafe : label_is_safe c G index lab = true
    · simp only [hsafe, if_true, List.flatMap_cons]
      rw [hrec c (List.mem_cons_self _ _) hsafe out]
      simp only [hset]
      rw [ih', List.append_assoc]
    · simp only [hsafe, List.flatMap_cons]
      simpa using ih' out

theorem backtrack_v1_eq (G : Graph) (maxLabel : Int) : ∀ (fuel index : Nat) (lab : List Int)
    (out : List (List Int)), Pre G.length index lab → index ≤ G.length →
    G.length - index < fuel →
    V1.backtrack G maxLabel fuel index ⟨lab, out⟩ =
      some ⟨lab, out ++ sols G maxLabel (G.length - index) index lab⟩ := by
  intro fuel
  induction fuel with
  | zero => intro index lab out _ _ h; omega
  | succ fuel ih =>
    intro index lab out hpre hle hfuel
    rw [V1.backtrack]
    by_cases hsol : is_a_solution lab = true
    · have hn := (is_a_solution_iff hpre).mp hsol
      have : G.length - index = 0 := by omega
      simp [hsol, this, sols]
    · have hn : index < G.length := by
        by_contra hc
        exact hsol ((is_a_solution_iff hpre).mpr (by omega))
      obtain ⟨k, hk⟩ : ∃ k, G.length - index = k + 1 := ⟨G.length - index - 1, by omega⟩
      simp only [hsol]
      rw [hk, sols]
      have hk' : G.length - (index + 1) = k := by omega
      have := loop_v1_eq G index (V1.backtrack G maxLabel fuel (index + 1)) lab
        (fun l => sols G maxLabel k (index + 1) (lab.set index l))
        (fun l => hpre.restore hn l) (candidates maxLabel)
        (fun l hl _ out' => by
          have := ih (index + 1) (lab.set index l) out'
            (hpre.set hn (candidates_ne_neg_one hl)) (by omega) (by omega)
          rw [hk'] at this
          exact this) out
      simpa using this

theorem loop_v2_eq (G : Graph) (index : Nat) (rec : St → Option (Bool × St)) (lab : List Int)
    (S : Int → List (List Int))
    (hset : ∀ l, (lab.set index l).set index (-1) = lab) :
    ∀ (cs : List Int),
      (∀ l ∈ cs, label_is_safe l G index lab = true →
        ∀ out, rec ⟨lab.set index l, out⟩ = some (firstOf (lab.set index l) out (S l))) →
      ∀ out, V2.loop G index rec cs ⟨lab, out⟩ =
        some (firstOf lab out
          (cs.flatMap fun l => if label_is_safe l G index lab then S l else [])) := by
  intro cs
  induction cs with
  | nil => intro _ out; simp [V2.loop, firstOf]
  | cons c cs ih =>
    intro hrec out
    have ih' := ih (fun l hl => hrec l (List.mem_cons_of_mem _ hl))
    rw [V2.loop]
    by_cases hsafe : label_is_safe c G index lab = true
    · simp only [hsafe, if_true, List.flatMap_cons]
      rw [hrec c (List.mem_cons_self _ _) hsafe out]
      cases hS : S c with
      | nil =>
        simp only [firstOf, hset, List.nil_append]
        exact ih' out
      | cons s rest => simp [firstOf]
    · simp only [hsafe, List.flatMap_cons]
      simpa using ih' out

theorem backtrack_v2_eq (G : Graph) (maxLabel : Int) : ∀ (fuel index : Nat) (lab : List Int)
    (out : List (List Int)), Pre G.length index lab → index ≤ G.length →
    G.length - index < fuel →
    V2.backtrack G maxLabel fuel index ⟨lab, out⟩ =
      some (firstOf lab out (sols G maxLabel (G.length - index) index lab)) := by
  intro fuel
  induction fuel with
  | zero => intro index lab out _ _ h; omega
  | succ fuel ih =>
    intro index lab out hpre hle hfuel
    rw [V2.backtrack]
    by_cases hsol : is_a_solution lab = true
    · have hn := (is_a_solution_iff hpre).mp hsol
      have : G.length - index = 0 := by omega
      simp [hsol, this, sols, firstOf]
    · have hn : index < G.length := by
        by_contra hc
        exact hsol ((is_a_solution_iff hpre).mpr (by omega))
      obtain ⟨k, hk⟩ : ∃ k, G.length - index = k + 1 := ⟨G.length - index - 1, by omega⟩
      simp only [hsol]
      rw [hk, sols]
      have hk' : G.length - (index + 1) = k := by omega
      have := loop_v2_eq G index (V2.backtrack G maxLabel fuel (index + 1)) lab
        (fun l => sols G maxLabel k (index + 1) (lab.set index l))
        (fun l => hpre.restore hn l) (candidates maxLabel)
        (fun l hl _ out' => by
          have := ih (index + 1) (lab.set index l) out'
            (hpre.set hn (candidates_ne_neg_one hl)) (by omega) (by omega)
          rw [hk'] at this
          exact this) out
      simpa using this

theorem generate_labeling_v1_eq (G : Graph) (maxLabel : Int) :
    V1.generate_labeling G maxLabel =
      some (sols G maxLabel G.length 0 (List.replicate G.length (-1))) := by
  unfold V1.generate_labeling
  rw [backtrack_v1_eq G maxLabel _ 0 _ [] (pre_replicate _) (Nat.zero_le _) (by omega)]
  simp

theorem generate_labeling_v2_eq (G : Graph) (maxLabel : Int) (out : List (List Int)) :
    V2.generate_labeling G maxLabel out =
      some (firstOf (List.replicate G.length (-1)) out
        (sols G maxLabel G.length 0 (List.replicate G.length (-1)))) := by
  unfold V2.generate_labeling
  rw [backtrack_v2_eq G maxLabel _ 0 _ out (pre_replicate _) (Nat.zero_le _) (by omega)]
  simp

end L321

namespace L321

/-! ## Soundness and completeness of `sols` -/

theorem good_replicate (G : Graph) (maxLabel : Int) :
    Good G maxLabel 0 (List.replicate G.length (-1)) :=
  ⟨pre_replicate _, fun v hv => by omega, fun u v d hu => by omega⟩

theorem good_step {G : Graph} (hs : ∀ v w, w ∈ adj G v → v ∈ adj G w) {maxLabel : Int}
    {index : Nat} {lab : List Int} (hgood : Good G maxLabel index lab) (hi : index < G.length)
    {l : Int} (hl : l ∈ candidates maxLabel) (hsafe : label_is_safe l G index lab = true) :
    Good G maxLabel (index + 1) (lab.set index l) := by
  obtain ⟨hpre, hrange, hdist⟩ := hgood
  have hlen : index < lab.length := by rw [hpre.1]; exact hi
  refine ⟨hpre.set hi (candidates_ne_neg_one hl), ?_, ?_⟩
  · intro v hv
    by_cases hvi : index = v
    · subst hvi; rw [getD_set_self _ _ _ _ hlen]; exact mem_candidates.mp hl
    · rw [getD_set_of_ne _ _ _ _ _ hvi]; exact hrange v (by omega)
  · intro u v d hu hv hd1 hd3 hduv
    have hsafe' := (safe_iff_walks l G index lab).mp hsafe
    by_cases hui : index = u
    · subst hui
      by_cases hvi : index = v
      · subst hvi
        have := hduv.2 0 (by omega)
        simp [reach] at this
      · rw [getD_set_self _ _ _ _ hlen, getD_set_of_ne _ _ _ _ _ hvi]
        exact hsafe' d v hd1 hd3 hduv.1 (hpre.2.1 v (by omega))
    · by_cases hvi : index = v
      · subst hvi
        rw [getD_set_self _ _ _ _ hlen, getD_set_of_ne _ _ _ _ _ hui]
        have := hsafe' d u hd1 hd3 (distIs_symm hs hduv).1 (hpre.2.1 u (by omega))
        omega
      · rw [getD_set_of_ne _ _ _ _ _ hui, getD_set_of_ne _ _ _ _ _ hvi]
        exact hdist u v d (by omega) (by omega) hd1 hd3 hduv

theorem l321_sols_sound {G : Graph} (hs : ∀ v w, w ∈ adj G v → v ∈ adj G w) (maxLabel : Int) :
    ∀ (k index : Nat) (lab : List Int), index + k = G.length → Good G maxLabel index lab →
    ∀ s ∈ sols G maxLabel k index lab, LabelsIn maxLabel s ∧ IsL321 G s := by
  intro k
  induction k with
  | zero =>
    intro index lab hk hgood s hs'
    simp only [sols, List.mem_singleton] at hs'
    subst hs'
    obtain ⟨hpre, hrange, hdist⟩ := hgood
    refine ⟨?_, hpre.1, ?_⟩
    · intro x hx
      obtain ⟨i, hi, rfl⟩ := mem_iff_getD.mp hx
      exact hrange i (by rw [hpre.1] at hi; omega)
    · intro u hu v hv d hd3 hd1 hduv
      exact hdist u v d (by omega) (by omega) hd1 hd3 hduv
  | succ k ih =>
    intro index lab hk hgood s hs'
    simp only [sols, List.mem_flatMap] at hs'
    obtain ⟨l, hl, hmem⟩ := hs'
    by_cases hsafe : label_is_safe l G index lab = true
    · simp only [hsafe, if_true] at hmem
      exact ih (index + 1) (lab.set index l) (by omega)
        (good_step hs hgood (by omega) hl hsafe) s hmem
    · simp [hsafe] at hmem

theorem l321_sols_agree (G : Graph) (maxLabel : Int) : ∀ (k index : Nat) (lab : List Int),
    ∀ s ∈ sols G maxLabel k index lab,
      s.length = lab.length ∧ ∀ v, v < index → s.getD v (-1) = lab.getD v (-1) := by
  intro k
  induction k with
  | zero =>
    intro index lab s hs
    simp only [sols, List.mem_singleton] at hs
    subst hs
    exact ⟨rfl, fun _ _ => rfl⟩
  | succ k ih =>
    intro index lab s hs
    simp only [sols, List.mem_flatMap] at hs
    obtain ⟨l, _, hmem⟩ := hs
    by_cases hsafe : label_is_safe l G index lab = true
    · simp only [hsafe, if_true] at hmem
      obtain ⟨h1, h2⟩ := ih (index + 1) (lab.set index l) s hmem
      refine ⟨by simpa using h1, fun v hv => ?_⟩
      rw [h2 v (by omega), getD_set_of_ne _ _ _ _ _ (by omega)]
    · simp [hsafe] at hmem

theorem sols_slot (G : Graph) (maxLabel : Int) (k index : Nat) (lab : List Int) (l : Int)
    (hi : index < lab.length) :
    ∀ s ∈ sols G maxLabel k (index + 1) (lab.set index l), s.getD index (-1) = l := by
  intro s hs
  rw [(l321_sols_agree G maxLabel k (index + 1) (lab.set index l) s hs).2 index (by omega),
    getD_set_self _ _ _ _ hi]

theorem l321_sols_count {G : Graph} (maxLabel : Int) {t : List Int} (ht : IsL321 G t)
    (hr : LabelsIn maxLabel t) :
    ∀ (k index : Nat) (lab : List Int), index + k = G.length → Pre G.length index lab →
    (∀ v, v < index → lab.getD v (-1) = t.getD v (-1)) →
    (sols G maxLabel k index lab).count t = 1 := by
  intro k
  induction k with
  | zero =>
    intro index lab hk hpre hagree
    have : lab = t := by
      apply ext_getD (by rw [hpre.1, ht.1])
      intro i hi
      exact hagree i (by rw [hpre.1] at hi; omega)
    subst this
    simp [sols]
  | succ k ih =>
    intro index lab hk hpre hagree
    have hi : index < G.length := by omega
    have hlen : index < lab.length := by rw [hpre.1]; exact hi
    have htmem : t.getD index (-1) ∈ t := mem_iff_getD.mpr ⟨index, by rw [ht.1]; exact hi, rfl⟩
    have hc0 : t.getD index (-1) ∈ candidates maxLabel := mem_candidates.mpr (hr _ htmem)
    have hsafe : label_is_safe (t.getD index (-1)) G index lab = true := by
      rw [safe_iff_walks]
      intro d w hd1 hd3 hreach hw
      have hwlt : w < index := by
        by_contra hc
        exact hw (hpre.2.2 w (by omega))
      obtain ⟨e, he1, hed, hdist⟩ := exists_dist_of_reach hd3 (by omega : index ≠ w) hreach
      have := ht.2 index hi w (by omega) e (by omega) he1 hdist
      rw [hagree w hwlt]
      omega
    rw [sols]
    apply count_flatMap_unique _ t (t.getD index (-1)) _ (nodup_candidates _) hc0
    · simp only [hsafe, if_true]
      apply ih (index + 1) _ (by omega) (hpre.set hi (candidates_ne_neg_one hc0))
      intro v hv
      by_cases hvi : index = v
      · subst hvi; rw [getD_set_self _ _ _ _ hlen]
      · rw [getD_set_of_ne _ _ _ _ _ hvi]; exact hagree v (by omega)
    · intro c _ hne hmem
      by_cases hsafe' : label_is_safe c G index lab = true
      · simp only [hsafe', if_true] at hmem
        exact hne (sols_slot G maxLabel k index lab c hlen t hmem).symm
      · simp [hsafe'] at hmem

/-- A labeling within the bound exists exactly when the enumeration is not empty. -/
theorem sols_ne_nil_iff {G : Graph} (hs : ∀ v w, w ∈ adj G v → v ∈ adj G w) (maxLabel : Int) :
    sols G maxLabel G.length 0 (List.replicate G.length (-1)) ≠ [] ↔
      ∃ t, IsL321 G t ∧ LabelsIn maxLabel t := by
  constructor
  · intro h
    obtain ⟨s, rest, hsr⟩ := List.exists_cons_of_ne_nil h
    have := l321_sols_sound hs maxLabel G.length 0 _ (by omega) (good_replicate G maxLabel) s
      (by rw [hsr]; exact List.mem_cons_self _ _)
    exact ⟨s, this.2, this.1⟩
  · rintro ⟨t, ht, hr⟩ hnil
    have := l321_sols_count maxLabel ht hr G.length 0 _ (by omega) (pre_replicate _)
      (fun v hv => by omega)
    rw [hnil] at this
    simp at this

end L321

/-! ## Separated integers -/

/-- Integers in `[lo, hi]` that are pairwise at least 2 apart: at most `(hi - lo) / 2 + 1`. -/
theorem sep_length_le (L : List Int) (lo hi : Int)
    (hp : L.Pairwise fun a b => 2 ≤ (a - b).natAbs) (hr : ∀ a ∈ L, lo ≤ a ∧ a ≤ hi)
    (hne : L ≠ []) : 2 * (L.length : Int) ≤ hi - lo + 2 := by
  have hnd : (L.map fun a => (a - lo).toNat / 2).Nodup := by
    rw [List.Nodup, List.pairwise_map]
    refine List.Pairwise.imp_of_mem ?_ hp
    intro a b ha hb hab
    have := (hr a ha).1
    have := (hr b hb).1
    omega
  have hsub : (L.map fun a => (a - lo).toNat / 2) ⊆ List.range ((hi - lo).toNat / 2 + 1) := by
    intro y hy
    obtain ⟨a, ha, rfl⟩ := List.mem_map.mp hy
    have := hr a ha
    rw [List.mem_range]
    omega
  have hlen := (List.subperm_of_subset hnd hsub).length_le
  simp only [List.length_map, List.length_range] at hlen
  obtain ⟨a, ha⟩ := List.exists_mem_of_ne_nil L hne
  have := hr a ha
  omega

/-- Labels of a vertex `x` and of its neighbours `L` inside `[0, B]`: the neighbours are 2
apart from each other and 3 apart from `x`, so twice their number is below `B`. -/
theorem span_lower (L : List Int) (x B : Int)
    (hp : L.Pairwise fun a b => 2 ≤ (a - b).natAbs)
    (hx : ∀ a ∈ L, 3 ≤ (x - a).natAbs) (hr : ∀ a ∈ L, 0 ≤ a ∧ a ≤ B)
    (hxr : 0 ≤ x ∧ x ≤ B) (hne : L ≠ []) : 2 * (L.length : Int) + 1 ≤ B := by
  have hsplit := List.length_eq_length_filter_add (l := L) (fun a => decide (a < x))
  have hlo : (L.filter fun a => decide (a < x)) ≠ [] →
      2 * ((L.filter fun a => decide (a < x)).length : Int) ≤ x - 1 := by
    intro h
    have := sep_length_le _ 0 (x - 3) (hp.filter _) (fun a ha => by
      obtain ⟨ha1, ha2⟩ := List.mem_filter.mp ha
      have := hx a ha1
      have := hr a ha1
      simp only [decide_eq_true_eq] at ha2
      omega) h
    omega
  have hhi : (L.filter fun a => !decide (a < x)) ≠ [] →
      2 * ((L.filter fun a => !decide (a < x)).length : Int) ≤ B - x - 1 := by
    intro h
    have := sep_length_le _ (x + 3) B (hp.filter _) (fun a ha => by
      obtain ⟨ha1, ha2⟩ := List.mem_filter.mp ha
      have := hx a ha1
      have := hr a ha1
      simp only [Bool.not_eq_true', decide_eq_false_iff_not] at ha2
      omega) h
    omega
  have hlen : 0 < L.length := List.length_pos.mpr hne
  by_cases h1 : (L.filter fun a => decide (a < x)) = []
  · by_cases h2 : (L.filter fun a => !decide (a < x)) = []
    · rw [h1, h2] at hsplit
      simp only [List.length_nil, add_zero] at hsplit
      omega
    · have := hhi h2
      rw [h1] at hsplit
      simp only [List.length_nil, zero_add] at hsplit
      omega
  · by_cases h2 : (L.filter fun a => !decide (a < x)) = []
    · have := hlo h1
      rw [h2] at hsplit
      simp only [List.length_nil, add_zero] at hsplit
      omega
    · have := hlo h1
      have := hhi h2
      omega

namespace L321

/-! ## The maximum degree -/

theorem maximum_degree_foldl (G : Graph) : ∀ (is : List Nat) (m0 : Nat),
    m0 ≤ is.foldl (fun max i => if max < (adj G i).length then (adj G i).length else max) m0 ∧
    (∀ i ∈ is, (adj G i).length ≤
      is.foldl (fun max i => if max < (adj G i).length then (adj G i).length else max) m0) ∧
    (is.foldl (fun max i => if max < (adj G i).length then (adj G i).length else max) m0 = m0 ∨
      ∃ i ∈ is, is.foldl (fun max i => if max < (adj G i).length then (adj G i).length else max)
        m0 = (adj G i).length) := by
  intro is
  induction is with
  | nil => intro m0; simp
  | cons j js ih =>
    intro m0
    simp only [List.foldl_cons, List.mem_cons, forall_eq_or_imp, exists_eq_or_imp]
    by_cases hlt : m0 < (adj G j).length
    · simp only [hlt, if_true]
      obtain ⟨h1, h2, h3⟩ := ih (adj G j).length
      refine ⟨by omega, ⟨h1, h2⟩, ?_⟩
      rcases h3 with h3 | ⟨i, hi, h3⟩
      · exact Or.inr (Or.inl h3)
      · exact Or.inr (Or.inr ⟨i, hi, h3⟩)
    · simp only [hlt, if_false]
      obtain ⟨h1, h2, h3⟩ := ih m0
      refine ⟨h1, ⟨by omega, h2⟩, ?_⟩
      rcases h3 with h3 | ⟨i, hi, h3⟩
      · exact Or.inl h3
      · exact Or.inr (Or.inr ⟨i, hi, h3⟩)

theorem le_maximum_degree (G : Graph) (v : Nat) : (adj G v).length ≤ V2.maximum_degree G := by
  obtain ⟨h1, h2, _⟩ := maximum_degree_foldl G (List.range' 1 (G.length - 1)) (adj G 0).length
  unfold V2.maximum_degree
  by_cases hv : v < G.length
  · by_cases h0 : v = 0
    · subst h0; exact h1
    · exact h2 v (by rw [List.mem_range'_1]; omega)
  · rw [adj_eq_nil (by omega)]; simp

theorem exists_maximum_degree (G : Graph) : ∃ v, (adj G v).length = V2.maximum_degree G := by
  obtain ⟨_, _, h3⟩ := maximum_degree_foldl G (List.range' 1 (G.length - 1)) (adj G 0).length
  unfold V2.maximum_degree
  rcases h3 with h3 | ⟨i, _, h3⟩
  · exact ⟨0, h3.symm⟩
  · exact ⟨i, h3.symm⟩

/-! ## The lower bound `2Δ + 1` -/

theorem span_ge (G : Graph) (hG : IsSimple G) (hE : 0 < edge_count G) (t : List Int)
    (B : Int) (ht : IsL321 G t) (hr : LabelsIn B t) : 2 * (V2.maximum_degree G : Int) + 1 ≤ B := by
  obtain ⟨v, hv⟩ := exists_maximum_degree G
  -- some vertex has a neighbour
  have hpos : 0 < V2.maximum_degree G := by
    unfold edge_count edges at hE
    obtain ⟨e, he⟩ := List.exists_mem_of_length_pos hE
    obtain ⟨w, _, he⟩ := List.mem_flatMap.mp he
    obtain ⟨u, hu, _⟩ := List.mem_map.mp he
    have hu := (List.mem_filter.mp hu).1
    have := le_maximum_degree G w
    have := List.length_pos_of_mem hu
    omega
  have hne : adj G v ≠ [] := by
    intro h
    rw [h] at hv
    simp at hv
    omega
  obtain ⟨a0, ha0⟩ := List.exists_mem_of_ne_nil _ hne
  have hvlt : v < G.length := lt_length_of_mem_adj ha0
  have hin : ∀ w, w < G.length → 0 ≤ t.getD w (-1) ∧ t.getD w (-1) ≤ B := fun w hw =>
    hr _ (mem_iff_getD.mpr ⟨w, by rw [ht.1]; exact hw, rfl⟩)
  have key := span_lower ((adj G v).map fun a => t.getD a (-1)) (t.getD v (-1)) B ?_ ?_ ?_
    (hin v hvlt) (by simpa using hne)
  · rw [List.length_map, hv] at key
    exact key
  · rw [List.pairwise_map]
    refine List.Pairwise.imp_of_mem ?_ (hG.nodup v)
    intro a b ha hb hab
    have hreach : reach G 2 a b = true := by
      simp only [reach, List.any_eq_true, decide_eq_true_eq]
      exact ⟨v, hG.symm _ _ ha, b, hb, rfl⟩
    obtain ⟨e, he1, he2, hd⟩ := exists_dist_of_reach (by omega) hab hreach
    have := ht.2 a (hG.lt ha) b (hG.lt hb) e (by omega) he1 hd
    omega
  · intro y hy
    obtain ⟨a, ha, rfl⟩ := List.mem_map.mp hy
    have hd : distIs G 1 v a := by
      refine ⟨reach_one.mpr ha, fun k hk => ?_⟩
      have : k = 0 := by omega
      subst this
      simp [reach, (hG.ne ha).symm]
    have := ht.2 v hvlt a (hG.lt ha) 1 (by omega) (le_refl _) hd
    omega
  · intro y hy
    obtain ⟨a, ha, rfl⟩ := List.mem_map.mp hy
    exact hin a (hG.lt ha)

end L321

namespace L321

/-! ## A labeling always exists for a large bound -/

theorem three_times_valid (G : Graph) :
    IsL321 G ((List.range G.length).map fun (v : Nat) => 3 * (v : Int)) ∧
      LabelsIn (3 * ((G.length : Int) - 1)) ((List.range G.length).map fun (v : Nat) => 3 * (v : Int)) := by
  have hget : ∀ u, u < G.length →
      ((List.range G.length).map fun (v : Nat) => 3 * (v : Int)).getD u (-1) = 3 * (u : Int) := by
    intro u hu
    simp [List.getD_eq_getElem?_getD, List.getElem?_map, List.getElem?_range hu]
  refine ⟨⟨by simp, ?_⟩, ?_⟩
  · intro u hu v hv d hd3 hd1 hd
    rw [hget u hu, hget v hv]
    have huv : u ≠ v := by
      rintro rfl
      have := hd.2 0 (by omega)
      simp [reach] at this
    omega
  · intro x hx
    obtain ⟨v, hv, rfl⟩ := List.mem_map.mp hx
    rw [List.mem_range] at hv
    omega

theorem LabelsIn.mono {B B' : Int} {t : List Int} (h : LabelsIn B t) (hB : B ≤ B') :
    LabelsIn B' t := fun x hx => ⟨(h x hx).1, le_trans (h x hx).2 hB⟩

/-! ## The retry loop -/

theorem main_loop_eq (G : Graph) : ∀ (j : Nat) (B : Int) (fuel : Nat) (out : List (List Int)),
    j < fuel →
    (∀ i, i < j → sols G (B + i) G.length 0 (List.replicate G.length (-1)) = []) →
    ∀ s rest, sols G (B + j) G.length 0 (List.replicate G.length (-1)) = s :: rest →
    V2.main_loop G fuel B out = some (B + j, ⟨s, out ++ [s]⟩) := by
  intro j
  induction j with
  | zero =>
    intro B fuel out hf _ s rest hs
    obtain ⟨f, rfl⟩ : ∃ f, fuel = f + 1 := ⟨fuel - 1, by omega⟩
    simp only [Nat.cast_zero, add_zero] at hs
    simp [V2.main_loop, generate_labeling_v2_eq, hs, firstOf]
  | succ j ih =>
    intro B fuel out hf hfail s rest hs
    obtain ⟨f, rfl⟩ : ∃ f, fuel = f + 1 := ⟨fuel - 1, by omega⟩
    have h0 := hfail 0 (by omega)
    simp only [Nat.cast_zero, add_zero] at h0
    have := ih (B + 1) f out (by omega)
      (fun i hi => by
        have := hfail (i + 1) (by omega)
        rw [show B + ((i + 1 : Nat) : Int) = B + 1 + (i : Int) by push_cast; ring] at this
        exact this) s rest
      (by rw [show B + 1 + (j : Int) = B + ((j + 1 : Nat) : Int) by push_cast; ring]; exact hs)
    simp only [V2.main_loop, generate_labeling_v2_eq, h0, firstOf]
    rw [this]
    congr 2
    push_cast; ring

end L321

namespace L321

/-- C3: for a simple undirected graph and a bound `maxLabel ≥ 0`, both searches return, and
every labeling printed by the exhaustive `generate_labeling` (v1) and by the stop-at-first
`generate_labeling` (v2) has all labels in `[0, maxLabel]` and is an L(3,2,1)-labeling:
labels at graph distance 1, 2, 3 differ by at least 3, 2, 1. -/
theorem generate_labeling_sound (G : Graph) (hG : IsSimple G) (maxLabel : Int)
    (_hB : 0 ≤ maxLabel) :
    (∃ out, V1.generate_labeling G maxLabel = some out ∧
      ∀ s ∈ out, LabelsIn maxLabel s ∧ IsL321 G s) ∧
    (∃ b st, V2.generate_labeling G maxLabel [] = some (b, st) ∧
      ∀ s ∈ st.out, LabelsIn maxLabel s ∧ IsL321 G s) := by
  have hsound := l321_sols_sound hG.symm maxLabel G.length 0 _ (by omega) (good_replicate G maxLabel)
  refine ⟨⟨_, generate_labeling_v1_eq G maxLabel, hsound⟩, ?_⟩
  refine ⟨_, _, generate_labeling_v2_eq G maxLabel [], ?_⟩
  cases hS : sols G maxLabel G.length 0 (List.replicate G.length (-1)) with
  | nil => intro s hs; simp [firstOf] at hs
  | cons s0 rest =>
    intro s hs
    simp only [firstOf, List.nil_append, List.mem_singleton] at hs
    subst hs
    exact hsound s (by rw [hS]; exact List.mem_cons_self _ _)

theorem generate_labeling_sound_witness :
    IsSimple [[1], [0]] ∧ (0 : Int) ≤ 3 ∧
    ((∃ out, V1.generate_labeling [[1], [0]] 3 = some out ∧
      ∀ s ∈ out, LabelsIn 3 s ∧ IsL321 [[1], [0]] s) ∧
    (∃ b st, V2.generate_labeling [[1], [0]] 3 [] = some (b, st) ∧
      ∀ s ∈ st.out, LabelsIn 3 s ∧ IsL321 [[1], [0]] s)) :=
  ⟨by decide, by decide, generate_labeling_sound [[1], [0]] (by decide) 3 (by decide)⟩

/-- C4: for a simple undirected graph with at least one vertex and a bound `maxLabel ≥ 0`,
every assignment of labels from `{0..maxLabel}` that satisfies the L(3,2,1) distance
constraints is printed by v1's `generate_labeling`, exactly once. (With no vertex the
vector handed to `print_solution` is empty, and the C++ function reads
`labeling[labeling.size()-1]`.) -/
theorem generate_labeling_v1_complete (G : Graph) (_hG : IsSimple G) (_hn : 0 < G.length)
    (maxLabel : Int) (_hB : 0 ≤ maxLabel) (t : List Int) (ht : IsL321 G t)
    (hr : LabelsIn maxLabel t) :
    ∃ out, V1.generate_labeling G maxLabel = some out ∧ out.count t = 1 :=
  ⟨_, generate_labeling_v1_eq G maxLabel,
    l321_sols_count maxLabel ht hr G.length 0 _ (by omega) (pre_replicate _) (fun v hv => by omega)⟩

theorem generate_labeling_v1_complete_witness :
    IsSimple [[1], [0]] ∧ 0 < ([[1], [0]] : Graph).length ∧ (0 : Int) ≤ 3 ∧
    IsL321 [[1], [0]] [3, 0] ∧ LabelsIn 3 [3, 0] ∧
    ∃ out, V1.generate_labeling [[1], [0]] 3 = some out ∧ out.count [3, 0] = 1 :=
  ⟨by decide, by decide, by decide, by decide, by decide,
    generate_labeling_v1_complete [[1], [0]] (by decide) (by decide) 3 (by decide) [3, 0]
      (by decide) (by decide)⟩

/-- C6: for a simple undirected graph with at least one vertex and a bound `maxLabel ≥ 0`,
v2's `generate_labeling` returns, its result is `true` exactly when some L(3,2,1)-labeling
with all labels in `[0, maxLabel]` exists, it has printed exactly one labeling when the
result is `true` and nothing when it is `false`. (With no vertex the vector handed to
`print_solution` is empty, and the C++ function reads `labeling[labeling.size()-1]`.) -/
theorem generate_labeling_v2_found_iff (G : Graph) (hG : IsSimple G) (_hn : 0 < G.length)
    (maxLabel : Int) (_hB : 0 ≤ maxLabel) (out0 : List (List Int)) :
    ∃ b st, V2.generate_labeling G maxLabel out0 = some (b, st) ∧
      (b = true ↔ ∃ t, IsL321 G t ∧ LabelsIn maxLabel t) ∧
      (b = true → ∃ s, st.out = out0 ++ [s]) ∧ (b = false → st.out = out0) := by
  refine ⟨_, _, generate_labeling_v2_eq G maxLabel out0, ?_⟩
  have hiff := sols_ne_nil_iff hG.symm maxLabel
  cases hS : sols G maxLabel G.length 0 (List.replicate G.length (-1)) with
  | nil =>
    rw [hS] at hiff
    refine ⟨⟨fun h => ?_, fun h => ?_⟩, fun h => ?_, fun _ => ?_⟩
    · exact absurd h (by simp [firstOf])
    · exact absurd rfl (hiff.mpr h)
    · exact absurd h (by simp [firstOf])
    · simp [firstOf]
  | cons s0 rest =>
    rw [hS] at hiff
    refine ⟨⟨fun _ => hiff.mp (by simp), fun _ => ?_⟩, fun _ => ⟨s0, ?_⟩, fun h => ?_⟩
    · simp [firstOf]
    · simp [firstOf]
    · exact absurd h (by simp [firstOf])

theorem generate_labeling_v2_found_iff_witness :
    IsSimple [[1], [0]] ∧ 0 < ([[1], [0]] : Graph).length ∧ (0 : Int) ≤ 2 ∧
    ∃ b st, V2.generate_labeling [[1], [0]] 2 [] = some (b, st) ∧
      (b = true ↔ ∃ t, IsL321 [[1], [0]] t ∧ LabelsIn 2 t) ∧
      (b = true → ∃ s, st.out = [] ++ [s]) ∧ (b = false → st.out = []) :=
  ⟨by decide, by decide, by decide,
    generate_labeling_v2_found_iff [[1], [0]] (by decide) (by decide) 2 (by decide) []⟩

/-- C5: for a simple undirected graph with at least one edge, the loop of v2's `main`,
started at `2 * maximum_degree(G) + 1`, stops (given enough fuel) at a bound `B` such that
every bound tried before `B` failed; the only labeling printed is an L(3,2,1)-labeling
with labels in `[0, B]` whose largest label is `B`, and every L(3,2,1)-labeling of `G`
with non-negative labels has a label at least `B`. -/
theorem main_v2_minimum_span (G : Graph) (hG : IsSimple G) (hE : 0 < edge_count G) :
    ∃ fuel B s, V2.main G fuel = some (B, ⟨s, [s]⟩) ∧
      2 * (V2.maximum_degree G : Int) + 1 ≤ B ∧
      (∀ B', 2 * (V2.maximum_degree G : Int) + 1 ≤ B' → B' < B →
        ∃ st, V2.generate_labeling G B' [] = some (false, st) ∧ st.out = []) ∧
      IsL321 G s ∧ LabelsIn B s ∧ B ∈ s ∧
      ∀ t, IsL321 G t → (∀ x ∈ t, 0 ≤ x) → ∃ x ∈ t, B ≤ x := by
  classical
  -- some bound succeeds
  have hex : ∃ j : Nat, sols G (2 * (V2.maximum_degree G : Int) + 1 + (j : Int)) G.length 0
      (List.replicate G.length (-1)) ≠ [] := by
    refine ⟨(3 * ((G.length : Int) - 1)).toNat, ?_⟩
    rw [sols_ne_nil_iff hG.symm]
    exact ⟨_, (three_times_valid G).1, (three_times_valid G).2.mono (by omega)⟩
  have hmin : ∀ i, i < Nat.find hex →
      sols G (2 * (V2.maximum_degree G : Int) + 1 + (i : Int)) G.length 0
        (List.replicate G.length (-1)) = [] := by
    intro i hi
    have := Nat.find_min hex hi
    simpa using this
  obtain ⟨s, rest, hs⟩ := List.exists_cons_of_ne_nil (Nat.find_spec hex)
  have hmain := main_loop_eq G (Nat.find hex) (2 * (V2.maximum_degree G : Int) + 1)
    (Nat.find hex + 1) [] (by omega) hmin s rest hs
  have hsv := l321_sols_sound hG.symm (2 * (V2.maximum_degree G : Int) + 1 + (Nat.find hex : Int))
    G.length 0 _ (by omega) (good_replicate G _) s (by rw [hs]; exact List.mem_cons_self _ _)
  -- nothing fits below the bound reached
  have hbelow : ∀ t, IsL321 G t →
      ¬ LabelsIn (2 * (V2.maximum_degree G : Int) + 1 + (Nat.find hex : Int) - 1) t := by
    intro t ht hr
    by_cases h0 : Nat.find hex = 0
    · have := span_ge G hG hE t _ ht hr
      omega
    · have hfail := hmin (Nat.find hex - 1) (by omega)
      have : sols G (2 * (V2.maximum_degree G : Int) + 1 + ((Nat.find hex - 1 : Nat) : Int))
          G.length 0 (List.replicate G.length (-1)) ≠ [] := by
        rw [sols_ne_nil_iff hG.symm]
        exact ⟨t, ht, hr.mono (by omega)⟩
      exact this hfail
  -- a valid labeling has one label per vertex, and there are vertices
  have hpos : 0 < G.length := by
    unfold edge_count edges at hE
    obtain ⟨e, he⟩ := List.exists_mem_of_length_pos hE
    obtain ⟨w, hw, _⟩ := List.mem_flatMap.mp he
    have := List.mem_range.mp hw
    omega
  have hlarge : ∀ t, IsL321 G t → (∀ x ∈ t, 0 ≤ x) →
      ∃ x ∈ t, 2 * (V2.maximum_degree G : Int) + 1 + (Nat.find hex : Int) ≤ x := by
    intro t ht hnn
    by_contra hc
    push_neg at hc
    exact hbelow t ht (fun x hx => ⟨hnn x hx, by have := hc x hx; omega⟩)
  refine ⟨Nat.find hex + 1, _, s, ?_, by omega, ?_, hsv.2, hsv.1, ?_, hlarge⟩
  · simpa [V2.main] using hmain
  · intro B' hB1 hB2
    have := hmin (B' - (2 * (V2.maximum_degree G : Int) + 1)).toNat (by omega)
    rw [show 2 * (V2.maximum_degree G : Int) + 1 +
      ((B' - (2 * (V2.maximum_degree G : Int) + 1)).toNat : Int) = B' by omega] at this
    have hgen := generate_labeling_v2_eq G B' []
    rw [this] at hgen
    exact ⟨_, hgen, rfl⟩
  · obtain ⟨x, hx, hle⟩ := hlarge s hsv.2 (fun x hx => (hsv.1 x hx).1)
    have := (hsv.1 x hx).2
    have : x = 2 * (V2.maximum_degree G : Int) + 1 + (Nat.find hex : Int) := by omega
    rw [← this]
    exact hx

theorem main_v2_minimum_span_witness :
    IsSimple [[1], [0]] ∧ 0 < edge_count [[1], [0]] ∧
    ∃ fuel B s, V2.main [[1], [0]] fuel = some (B, ⟨s, [s]⟩) ∧
      2 * (V2.maximum_degree [[1], [0]] : Int) + 1 ≤ B ∧
      (∀ B', 2 * (V2.maximum_degree [[1], [0]] : Int) + 1 ≤ B' → B' < B →
        ∃ st, V2.generate_labeling [[1], [0]] B' [] = some (false, st) ∧ st.out = []) ∧
      IsL321 [[1], [0]] s ∧ LabelsIn B s ∧ B ∈ s ∧
      ∀ t, IsL321 [[1], [0]] t → (∀ x ∈ t, 0 ≤ x) → ∃ x ∈ t, B ≤ x :=
  ⟨by decide, by decide, main_v2_minimum_span [[1], [0]] (by decide) (by decide)⟩

end L321

/-! ## `std::set<int>` as a strictly increasing list -/

theorem mem_setInsert {x y : Int} : ∀ {s : List Int}, y ∈ setInsert x s ↔ y = x ∨ y ∈ s := by
  intro s
  induction s with
  | nil => simp [setInsert]
  | cons z zs ih =>
    rw [setInsert]
    by_cases h1 : x < z
    · simp [h1]
    · by_cases h2 : x = z
      · subst h2
        simp only [h1, if_false, if_true, List.mem_cons]
        tauto
      · simp only [h1, h2, if_false, List.mem_cons, ih]
        tauto

theorem sorted_setInsert (x : Int) : ∀ {s : List Int}, s.Sorted (· < ·) →
    (setInsert x s).Sorted (· < ·) := by
  intro s
  induction s with
  | nil => intro _; simp [setInsert]
  | cons z zs ih =>
    intro hs
    rw [setInsert]
    by_cases h1 : x < z
    · simp only [h1, if_true]
      refine List.sorted_cons.mpr ⟨?_, hs⟩
      intro b hb
      rcases List.mem_cons.mp hb with rfl | hb
      · exact h1
      · exact lt_trans h1 (List.rel_of_sorted_cons hs b hb)
    · by_cases h2 : x = z
      · simp only [h1, h2, if_false, if_true]
        subst h2
        simpa using hs
      · simp only [h1, h2, if_false]
        refine List.sorted_cons.mpr ⟨?_, ih hs.of_cons⟩
        intro b hb
        rcases mem_setInsert.mp hb with rfl | hb
        · omega
        · exact List.rel_of_sorted_cons hs b hb

theorem mem_setErase {x y : Int} {s : List Int} : y ∈ setErase x s ↔ y ∈ s ∧ y ≠ x := by
  simp [setErase]

theorem sorted_setErase (x : Int) {s : List Int} (hs : s.Sorted (· < ·)) :
    (setErase x s).Sorted (· < ·) :=
  List.Pairwise.filter _ hs

theorem sorted_ext {s s' : List Int} (hs : s.Sorted (· < ·)) (hs' : s'.Sorted (· < ·))
    (h : ∀ y, y ∈ s ↔ y ∈ s') : s = s' :=
  List.eq_of_perm_of_sorted ((List.perm_ext_iff_of_nodup hs.nodup hs'.nodup).mpr h) hs hs'

namespace Graceful

theorem mem_insert_edge_labels (lab : List Int) (index : Nat) (y : Int) :
    ∀ (nbrs : List Nat) (E : List Int),
    y ∈ insert_edge_labels lab index nbrs E ↔
      y ∈ E ∨ ∃ nb ∈ nbrs, lab.getD nb (-1) ≠ -1 ∧
        y = ((lab.getD index (-1) - lab.getD nb (-1)).natAbs : Int) := by
  intro nbrs
  induction nbrs with
  | nil => intro E; simp [insert_edge_labels]
  | cons nb rest ih =>
    intro E
    rw [insert_edge_labels]
    by_cases h : lab.getD nb (-1) = -1
    · simp only [h, bne_self_eq_false, Bool.false_eq_true, if_false, ih, List.mem_cons,
        exists_eq_or_imp, ne_eq, not_true, false_and, false_or]
    · simp only [bne_iff_ne, ne_eq, h, not_false_eq_true, if_true, ih, mem_setInsert,
        List.mem_cons, exists_eq_or_imp, true_and]
      tauto

theorem sorted_insert_edge_labels (lab : List Int) (index : Nat) :
    ∀ (nbrs : List Nat) (E : List Int), E.Sorted (· < ·) →
    (insert_edge_labels lab index nbrs E).Sorted (· < ·) := by
  intro nbrs
  induction nbrs with
  | nil => intro E h; exact h
  | cons nb rest ih =>
    intro E h
    rw [insert_edge_labels]
    split
    · exact ih _ (sorted_setInsert _ h)
    · exact ih _ h

theorem mem_erase_edge_labels (l : Int) (lab : List Int) (y : Int) :
    ∀ (nbrs : List Nat) (E : List Int),
    y ∈ erase_edge_labels l lab nbrs E ↔
      y ∈ E ∧ ∀ nb ∈ nbrs, lab.getD nb (-1) ≠ -1 →
        y ≠ ((l - lab.getD nb (-1)).natAbs : Int) := by
  intro nbrs
  induction nbrs with
  | nil => intro E; simp [erase_edge_labels]
  | cons nb rest ih =>
    intro E
    rw [erase_edge_labels]
    by_cases h : lab.getD nb (-1) = -1
    · simp only [h, bne_self_eq_false, Bool.false_eq_true, if_false, ih, List.mem_cons,
        forall_eq_or_imp, ne_eq, not_true, false_imp_iff, true_and]
    · simp only [bne_iff_ne, ne_eq, h, not_false_eq_true, if_true, ih, mem_setErase,
        List.mem_cons, forall_eq_or_imp, true_imp_iff]
      tauto

theorem sorted_erase_edge_labels (l : Int) (lab : List Int) :
    ∀ (nbrs : List Nat) (E : List Int), E.Sorted (· < ·) →
    (erase_edge_labels l lab nbrs E).Sorted (· < ·) := by
  intro nbrs
  induction nbrs with
  | nil => intro E h; exact h
  | cons nb rest ih =>
    intro E h
    rw [erase_edge_labels]
    split
    · exact ih _ (sorted_setErase _ h)
    · exact ih _ h

theorem label_is_safe_nbrs_iff (l : Int) (lab E : List Int) :
    ∀ (nbrs : List Nat) (aux : List Int),
    label_is_safe_nbrs l lab E nbrs aux = true ↔
      (∀ nb ∈ nbrs, lab.getD nb (-1) ≠ -1 →
        ((l - lab.getD nb (-1)).natAbs : Int) ∉ E ∧
        ((l - lab.getD nb (-1)).natAbs : Int) ∉ aux) ∧
      (nbrs.filter fun nb => lab.getD nb (-1) != -1).Pairwise fun a b =>
        ((l - lab.getD a (-1)).natAbs : Int) ≠ ((l - lab.getD b (-1)).natAbs : Int) := by
  intro nbrs
  induction nbrs with
  | nil => intro aux; simp [label_is_safe_nbrs]
  | cons nb rest ih =>
    intro aux
    rw [label_is_safe_nbrs]
    by_cases h : lab.getD nb (-1) = -1
    · simp only [h, bne_self_eq_false, Bool.false_eq_true, if_false, ih, List.mem_cons,
        forall_eq_or_imp, ne_eq, not_true, false_imp_iff, true_and, List.filter_cons_of_neg,
        not_false_eq_true]
    · have hb : (lab.getD nb (-1) != -1) = true := by simpa using h
      simp only [hb, if_true, List.filter_cons_of_pos, List.pairwise_cons, List.mem_cons,
        forall_eq_or_imp, ne_eq, h, not_false_eq_true, true_imp_iff]
      by_cases hc : (E.contains ((l - lab.getD nb (-1)).natAbs : Int) ||
          aux.contains ((l - lab.getD nb (-1)).natAbs : Int)) = true
      · rw [if_pos hc]
        simp only [Bool.or_eq_true, List.elem_eq_mem, decide_eq_true_eq] at hc
        constructor
        · intro hf; exact absurd hf (by simp)
        · rintro ⟨⟨⟨h1, h2⟩, _⟩, _⟩
          rcases hc with hc | hc
          · exact absurd hc h1
          · exact absurd hc h2
      · rw [if_neg hc, ih]
        simp only [mem_setInsert, not_or]
        simp only [Bool.or_eq_true, List.elem_eq_mem, decide_eq_true_eq, not_or] at hc
        constructor
        · rintro ⟨h1, h2⟩
          refine ⟨⟨hc, fun nb' hnb' hl' => ⟨(h1 nb' hnb' hl').1, (h1 nb' hnb' hl').2.2⟩⟩, ?_, h2⟩
          intro b hb'
          obtain ⟨hb1, hb2⟩ := List.mem_filter.mp hb'
          exact fun heq => (h1 b hb1 (by simpa using hb2)).2.1 heq.symm
        · rintro ⟨⟨_, h1⟩, h2, h3⟩
          refine ⟨fun nb' hnb' hl' => ⟨(h1 nb' hnb' hl').1, ?_, (h1 nb' hnb' hl').2⟩, h3⟩
          exact fun heq => h2 nb' (List.mem_filter.mpr ⟨hnb', by simpa using hl'⟩) heq.symm

end Graceful

namespace Graceful

theorem graceful_safe_iff (l : Int) (G : Graph) (index : Nat) (lab E : List Int) :
    label_is_safe l G index lab E = true ↔
      l ∉ lab ∧
      (∀ nb ∈ adj G index, lab.getD nb (-1) ≠ -1 →
        ((l - lab.getD nb (-1)).natAbs : Int) ∉ E) ∧
      ((adj G index).filter fun nb => lab.getD nb (-1) != -1).Pairwise fun a b =>
        ((l - lab.getD a (-1)).natAbs : Int) ≠ ((l - lab.getD b (-1)).natAbs : Int) := by
  unfold label_is_safe
  by_cases h : l ∈ lab
  · simp [h]
  · have hc : lab.contains l = false := by simpa using h
    simp only [hc, Bool.false_eq_true, if_false, label_is_safe_nbrs_iff, List.not_mem_nil,
      not_false_eq_true, and_true, h, true_and]

/-- The erase loop removes exactly what the insert loop added: the candidate was safe, so
the inserted differences were new. -/
theorem undo_edge_labels (G : Graph) (index : Nat) (lab E : List Int) (l : Int)
    (hsorted : E.Sorted (· < ·)) (hloop : index ∉ adj G index) (hi : index < lab.length)
    (hfresh : ∀ nb ∈ adj G index, lab.getD nb (-1) ≠ -1 →
      ((l - lab.getD nb (-1)).natAbs : Int) ∉ E) :
    erase_edge_labels l lab (adj G index)
      (insert_edge_labels (lab.set index l) index (adj G index) E) = E := by
  apply sorted_ext
    (sorted_erase_edge_labels _ _ _ _ (sorted_insert_edge_labels _ _ _ _ hsorted)) hsorted
  intro y
  rw [mem_erase_edge_labels, mem_insert_edge_labels]
  constructor
  · rintro ⟨h1 | ⟨nb, hnb, hl, rfl⟩, h2⟩
    · exact h1
    · have hne : index ≠ nb := fun h => hloop (h ▸ hnb)
      rw [getD_set_of_ne _ _ _ _ _ hne] at hl
      have h3 := h2 nb hnb hl
      rw [getD_set_of_ne _ _ _ _ _ hne, getD_set_self _ _ _ _ hi] at h3
      exact absurd rfl h3
  · intro hy
    refine ⟨Or.inl hy, fun nb hnb hl heq => ?_⟩
    exact hfresh nb hnb hl (heq ▸ hy)

theorem loop_eq (G : Graph) (index : Nat) (rec : St → Option (Bool × St)) (lab E : List Int)
    (S : Int → List (List Int))
    (hset : ∀ l, (lab.set index l).set index (-1) = lab)
    (hundo : ∀ l, label_is_safe l G index lab E = true →
      erase_edge_labels l lab (adj G index)
        (insert_edge_labels (lab.set index l) index (adj G index) E) = E) :
    ∀ (cs : List Int),
      (∀ l ∈ cs, label_is_safe l G index lab E = true →
        ∀ out, ∃ b, rec ⟨lab.set index l,
            insert_edge_labels (lab.set index l) index (adj G index) E, out⟩ =
          some (b, ⟨lab.set index l,
            insert_edge_labels (lab.set index l) index (adj G index) E, out ++ S l⟩)) →
      ∀ out, loop G index rec cs ⟨lab, E, out⟩ =
        some (false, ⟨lab, E,
          out ++ cs.flatMap fun l => if label_is_safe l G index lab E then S l else []⟩) := by
  intro cs
  induction cs with
  | nil => intro _ out; simp [loop]
  | cons c cs ih =>
    intro hrec out
    have ih' := ih (fun l hl => hrec l (List.mem_cons_of_mem _ hl))
    rw [loop]
    by_cases hsafe : label_is_safe c G index lab E = true
    · simp only [hsafe, if_true, List.flatMap_cons]
      obtain ⟨b, hb⟩ := hrec c (List.mem_cons_self _ _) hsafe out
      rw [hb]
      simp only [hset, hundo c hsafe]
      rw [ih', List.append_assoc]
    · simp only [hsafe, List.flatMap_cons]
      simpa using ih' out

theorem graceful_backtrack_eq (G : Graph) (hloop : ∀ v, v ∉ adj G v) (nEdges : Int) :
    ∀ (fuel index : Nat) (lab E : List Int) (out : List (List Int)),
    Pre G.length index lab → E.Sorted (· < ·) → index ≤ G.length → G.length - index < fuel →
    backtrack G nEdges fuel index ⟨lab, E, out⟩ =
      some (is_a_solution lab,
        ⟨lab, E, out ++ sols G nEdges (G.length - index) index lab E⟩) := by
  intro fuel
  induction fuel with
  | zero => intro index lab E out _ _ _ h; omega
  | succ fuel ih =>
    intro index lab E out hpre hsorted hle hfuel
    rw [backtrack]
    by_cases hsol : is_a_solution lab = true
    · have hn := (is_a_solution_iff hpre).mp hsol
      have : G.length - index = 0 := by omega
      simp [hsol, this, sols]
    · have hn : index < G.length := by
        by_contra hc
        exact hsol ((is_a_solution_iff hpre).mpr (by omega))
      obtain ⟨k, hk⟩ : ∃ k, G.length - index = k + 1 := ⟨G.length - index - 1, by omega⟩
      have hsol' : is_a_solution lab = false := by simpa using hsol
      simp only [hsol', Bool.false_eq_true, if_false]
      rw [hk, sols]
      have hk' : G.length - (index + 1) = k := by omega
      exact loop_eq G index (backtrack G nEdges fuel (index + 1)) lab E
        (fun l => sols G nEdges k (index + 1) (lab.set index l)
          (insert_edge_labels (lab.set index l) index (adj G index) E))
        (fun l => hpre.restore hn l)
        (fun l hsafe => undo_edge_labels G index lab E l hsorted (hloop index)
          (by rw [hpre.1]; exact hn) ((graceful_safe_iff l G index lab E).mp hsafe).2.1)
        (candidates nEdges)
        (fun l hl _ out' => by
          have := ih (index + 1) (lab.set index l)
            (insert_edge_labels (lab.set index l) index (adj G index) E) out'
            (hpre.set hn (candidates_ne_neg_one hl))
            (sorted_insert_edge_labels _ _ _ _ hsorted) (by omega) (by omega)
          rw [hk'] at this
          exact ⟨_, this⟩) out

end Graceful

/-! ## Edges -/

theorem mem_edges {G : Graph} {e : Nat × Nat} :
    e ∈ edges G ↔ e.2 < G.length ∧ e.1 ∈ adj G e.2 ∧ e.1 < e.2 := by
  obtain ⟨u, v⟩ := e
  unfold edges
  simp only [List.mem_flatMap, List.mem_range, List.mem_map, List.mem_filter,
    decide_eq_true_eq, Prod.mk.injEq]
  constructor
  · rintro ⟨v', hv', u', ⟨hu1, hu2⟩, rfl, rfl⟩
    exact ⟨hv', hu1, hu2⟩
  · rintro ⟨h1, h2, h3⟩
    exact ⟨v, h1, u, ⟨h2, h3⟩, rfl, rfl⟩

theorem nodup_edges {G : Graph} (hnd : ∀ v, (adj G v).Nodup) : (edges G).Nodup := by
  unfold edges
  rw [List.nodup_flatMap]
  constructor
  · intro v _
    exact List.Nodup.map (fun a b h => by injection h) ((hnd v).filter _)
  · refine List.Pairwise.imp_of_mem ?_ (List.nodup_range G.length)
    intro a b _ _ hab
    simp only [Function.onFun, List.disjoint_left, List.mem_map, List.mem_filter,
      decide_eq_true_eq, not_exists, not_and, forall_exists_index, and_imp]
    rintro ⟨x, y⟩ u _ _ h1 u' _ _ h2
    injection h1 with _ h1
    injection h2 with _ h2
    exact hab (h1.trans h2.symm)

namespace Graceful

theorem mem_oneTo {m : Nat} {y : Int} : y ∈ oneTo m ↔ 1 ≤ y ∧ y ≤ (m : Int) := by
  unfold oneTo
  simp only [List.mem_map, List.mem_range'_1]
  constructor
  · rintro ⟨k, ⟨h1, h2⟩, rfl⟩
    constructor
    · show (1 : Int) ≤ (k : Int); omega
    · show (k : Int) ≤ (m : Int); omega
  · rintro ⟨h1, h2⟩
    refine ⟨y.toNat, ⟨by omega, by omega⟩, ?_⟩
    show ((y.toNat : Nat) : Int) = y
    omega

theorem nodup_oneTo (m : Nat) : (oneTo m).Nodup := by
  unfold oneTo
  exact List.Nodup.map (fun a b h => by injection h) (List.nodup_range' 1 m)

theorem length_oneTo (m : Nat) : (oneTo m).length = m := by
  simp [oneTo]

/-- With exactly the slots below `index` set, the labeled vertices are the smaller ones. -/
theorem labeled_iff {n index : Nat} {lab : List Int} (hpre : Pre n index lab) {nb : Nat} :
    lab.getD nb (-1) ≠ -1 ↔ nb < index := by
  constructor
  · intro h
    by_contra hc
    exact h (hpre.2.2 nb (by omega))
  · intro h
    exact hpre.2.1 nb h

theorem edgeLabel_set {lab : List Int} {index : Nat} {l : Int} {e : Nat × Nat}
    (h1 : e.1 < e.2) (h2 : e.2 < index) :
    edgeLabel (lab.set index l) e = edgeLabel lab e := by
  unfold edgeLabel
  rw [getD_set_of_ne _ _ _ _ _ (by omega), getD_set_of_ne _ _ _ _ _ (by omega)]

theorem edgeLabel_set_new {lab : List Int} {index : Nat} {l : Int} {a : Nat}
    (h1 : a < index) (h2 : index < lab.length) :
    edgeLabel (lab.set index l) (a, index) = ((l - lab.getD a (-1)).natAbs : Int) := by
  unfold edgeLabel
  simp only
  rw [getD_set_of_ne _ _ _ _ _ (by omega), getD_set_self _ _ _ _ h2]
  omega

theorem EInv.step_einv {G : Graph} (hG : IsSimple G) {index : Nat} {lab E : List Int}
    (hpre : Pre G.length index lab) (hi : index < G.length) (l : Int)
    (hE : EInv G index lab E) :
    EInv G (index + 1) (lab.set index l)
      (insert_edge_labels (lab.set index l) index (adj G index) E) := by
  have hlen : index < lab.length := by rw [hpre.1]; exact hi
  refine ⟨sorted_insert_edge_labels _ _ _ _ hE.1, fun y => ?_⟩
  rw [mem_insert_edge_labels]
  constructor
  · rintro (hy | ⟨nb, hnb, hl, rfl⟩)
    · obtain ⟨e, he, he2, rfl⟩ := (hE.2 y).mp hy
      exact ⟨e, he, by omega, (edgeLabel_set (mem_edges.mp he).2.2 he2).symm⟩
    · have hne : index ≠ nb := fun h => hG.ne hnb h.symm
      rw [getD_set_of_ne _ _ _ _ _ hne] at hl
      have hlt := (labeled_iff hpre).mp hl
      refine ⟨(nb, index), mem_edges.mpr ⟨hi, hnb, hlt⟩, by simp, ?_⟩
      rw [edgeLabel_set_new hlt hlen, getD_set_of_ne _ _ _ _ _ hne, getD_set_self _ _ _ _ hlen]
  · rintro ⟨e, he, he2, rfl⟩
    obtain ⟨h1, h2, h3⟩ := mem_edges.mp he
    by_cases h : e.2 < index
    · left
      rw [edgeLabel_set h3 h]
      exact (hE.2 _).mpr ⟨e, he, h, rfl⟩
    · have heq : e.2 = index := by omega
      obtain ⟨a, b⟩ := e
      simp only at heq h1 h2 h3
      subst heq
      right
      have hne : b ≠ a := by omega
      refine ⟨a, h2, ?_, ?_⟩
      · rw [getD_set_of_ne _ _ _ _ _ hne]
        exact hpre.2.1 a h3
      · rw [edgeLabel_set_new h3 hlen, getD_set_of_ne _ _ _ _ _ hne,
          getD_set_self _ _ _ _ hlen]

theorem EInv.init_einv (G : Graph) : EInv G 0 (List.replicate G.length (-1)) [] := by
  refine ⟨List.sorted_nil, fun y => ?_⟩
  simp

end Graceful

namespace Graceful

theorem GInv.init_ginv (G : Graph) : GInv G 0 (List.replicate G.length (-1)) :=
  ⟨fun v hv => by omega, fun u v hu => by omega, fun e _ e' _ he => by omega⟩

theorem GInv.step_ginv {G : Graph} {index : Nat} {lab E : List Int}
    (hpre : Pre G.length index lab) (hi : index < G.length) (hE : EInv G index lab E)
    (hinv : GInv G index lab) {l : Int} (hl : l ∈ candidates (edge_count G))
    (hsafe : label_is_safe l G index lab E = true) :
    GInv G (index + 1) (lab.set index l) := by
  have hlen : index < lab.length := by rw [hpre.1]; exact hi
  obtain ⟨hnotin, hfresh, hpair⟩ := (graceful_safe_iff l G index lab E).mp hsafe
  obtain ⟨hrange, hinj, hedge⟩ := hinv
  have hlne : ∀ v, v < index → lab.getD v (-1) ≠ l := by
    intro v hv heq
    exact hnotin (mem_iff_getD.mpr ⟨v, by omega, heq⟩)
  -- the label of a new edge `(a, index)`
  have hnew : ∀ a, a ∈ adj G index → a < index →
      edgeLabel (lab.set index l) (a, index) ∉ E := by
    intro a ha hlt
    rw [edgeLabel_set_new hlt hlen]
    exact hfresh a ha (hpre.2.1 a hlt)
  have hold : ∀ e ∈ edges G, e.2 < index → edgeLabel (lab.set index l) e ∈ E := by
    intro e he he2
    rw [edgeLabel_set (mem_edges.mp he).2.2 he2]
    exact (hE.2 _).mpr ⟨e, he, he2, rfl⟩
  refine ⟨?_, ?_, ?_⟩
  · intro v hv
    by_cases hvi : index = v
    · subst hvi; rw [getD_set_self _ _ _ _ hlen]; exact mem_candidates.mp hl
    · rw [getD_set_of_ne _ _ _ _ _ hvi]; exact hrange v (by omega)
  · intro u v hu hv heq
    by_cases hui : index = u
    · by_cases hvi : index = v
      · omega
      · subst hui
        rw [getD_set_self _ _ _ _ hlen, getD_set_of_ne _ _ _ _ _ hvi] at heq
        exact absurd heq.symm (hlne v (by omega))
    · by_cases hvi : index = v
      · subst hvi
        rw [getD_set_self _ _ _ _ hlen, getD_set_of_ne _ _ _ _ _ hui] at heq
        exact absurd heq (hlne u (by omega))
      · rw [getD_set_of_ne _ _ _ _ _ hui, getD_set_of_ne _ _ _ _ _ hvi] at heq
        exact hinj u v (by omega) (by omega) heq
  · intro e he e' he' h2 h2' heq
    obtain ⟨_, ha, hlt⟩ := mem_edges.mp he
    obtain ⟨_, ha', hlt'⟩ := mem_edges.mp he'
    by_cases hlow : e.2 < index
    · by_cases hlow' : e'.2 < index
      · rw [edgeLabel_set hlt hlow, edgeLabel_set hlt' hlow'] at heq
        exact hedge e he e' he' hlow hlow' heq
      · obtain ⟨a', b'⟩ := e'
        simp only at hlow' h2' ha' hlt' heq
        have : index = b' := by omega
        subst this
        exact absurd (heq ▸ hold e he hlow) (hnew a' ha' hlt')
    · obtain ⟨a, b⟩ := e
      simp only at hlow h2 ha hlt heq
      have : index = b := by omega
      subst this
      by_cases hlow' : e'.2 < index
      · exact absurd (heq ▸ hold e' he' hlow') (hnew a ha hlt)
      · obtain ⟨a', b'⟩ := e'
        simp only at hlow' h2' ha' hlt' heq
        have : index = b' := by omega
        subst this
        by_cases haa : a = a'
        · rw [haa]
        · rw [edgeLabel_set_new hlt hlen, edgeLabel_set_new hlt' hlen] at heq
          have hsymm : Symmetric fun (x y : Nat) =>
              ((l - lab.getD x (-1)).natAbs : Int) ≠ ((l - lab.getD y (-1)).natAbs : Int) :=
            fun x y h => h.symm
          have := hpair.forall hsymm
            (List.mem_filter.mpr ⟨ha, by simpa using hpre.2.1 a hlt⟩)
            (List.mem_filter.mpr ⟨ha', by simpa using hpre.2.1 a' hlt'⟩) haa
          exact absurd heq this

theorem nodup_of_getD_inj {lab : List Int}
    (h : ∀ u v, u < lab.length → v < lab.length → lab.getD u (-1) = lab.getD v (-1) → u = v) :
    lab.Nodup := by
  rw [List.nodup_iff_getElem?_ne_getElem?]
  intro i j hij hj heq
  have := h i j (by omega) hj (by
    simp only [List.getD_eq_getElem?_getD, heq])
  omega

theorem getD_inj_of_nodup {lab : List Int} (h : lab.Nodup) {u v : Nat} (hu : u < lab.length)
    (hv : v < lab.length) (heq : lab.getD u (-1) = lab.getD v (-1)) : u = v := by
  simp only [List.getD_eq_getElem?_getD, List.getElem?_eq_getElem hu,
    List.getElem?_eq_getElem hv, Option.getD_some] at heq
  exact (List.Nodup.getElem_inj_iff h).mp heq

/-- A complete labeling that satisfies the invariants is graceful. -/
theorem GInv.isGraceful {G : Graph} (hG : IsSimple G) {lab : List Int}
    (hpre : Pre G.length G.length lab) (hinv : GInv G G.length lab) : IsGraceful G lab := by
  obtain ⟨hrange, hinj, hedge⟩ := hinv
  refine ⟨hpre.1, ?_, ?_, ?_⟩
  · intro x hx
    obtain ⟨i, hi, rfl⟩ := mem_iff_getD.mp hx
    exact hrange i (by rw [hpre.1] at hi; exact hi)
  · apply nodup_of_getD_inj
    intro u v hu hv heq
    rw [hpre.1] at hu hv
    exact hinj u v hu hv heq
  · have hnd : ((edges G).map (edgeLabel lab)).Nodup := by
      refine List.Nodup.map_on ?_ (nodup_edges hG.nodup)
      intro e he e' he' heq
      exact hedge e he e' he' (mem_edges.mp he).1 (mem_edges.mp he').1 heq
    have hsub : (edges G).map (edgeLabel lab) ⊆ oneTo (edge_count G) := by
      intro y hy
      obtain ⟨e, he, rfl⟩ := List.mem_map.mp hy
      obtain ⟨h1, _, h3⟩ := mem_edges.mp he
      have r1 := hrange e.1 (by omega)
      have r2 := hrange e.2 h1
      have hne : lab.getD e.1 (-1) ≠ lab.getD e.2 (-1) := by
        intro heq
        have := hinj e.1 e.2 (by omega) h1 heq
        omega
      rw [mem_oneTo]
      unfold edgeLabel
      omega
    refine (List.subperm_of_subset hnd hsub).perm_of_length_le ?_
    rw [length_oneTo, List.length_map, edge_count]

theorem graceful_sols_sound {G : Graph} (hG : IsSimple G) :
    ∀ (k index : Nat) (lab E : List Int), index + k = G.length → Pre G.length index lab →
    EInv G index lab E → GInv G index lab →
    ∀ s ∈ sols G (edge_count G) k index lab E, IsGraceful G s := by
  intro k
  induction k with
  | zero =>
    intro index lab E hk hpre _ hinv s hs
    simp only [sols, List.mem_singleton] at hs
    subst hs
    have : index = G.length := by omega
    subst this
    exact hinv.isGraceful hG hpre
  | succ k ih =>
    intro index lab E hk hpre hE hinv s hs
    simp only [sols, List.mem_flatMap] at hs
    obtain ⟨l, hl, hmem⟩ := hs
    by_cases hsafe : label_is_safe l G index lab E = true
    · simp only [hsafe, if_true] at hmem
      exact ih (index + 1) _ _ (by omega) (hpre.set (by omega) (candidates_ne_neg_one hl))
        (hE.step_einv hG hpre (by omega) l) (hinv.step_ginv hpre (by omega) hE hl hsafe) s hmem
    · simp [hsafe] at hmem

end Graceful

namespace Graceful

theorem graceful_sols_agree (G : Graph) (nEdges : Int) : ∀ (k index : Nat) (lab E : List Int),
    ∀ s ∈ sols G nEdges k index lab E,
      s.length = lab.length ∧ ∀ v, v < index → s.getD v (-1) = lab.getD v (-1) := by
  intro k
  induction k with
  | zero =>
    intro index lab E s hs
    simp only [sols, List.mem_singleton] at hs
    subst hs
    exact ⟨rfl, fun _ _ => rfl⟩
  | succ k ih =>
    intro index lab E s hs
    simp only [sols, List.mem_flatMap] at hs
    obtain ⟨l, _, hmem⟩ := hs
    by_cases hsafe : label_is_safe l G index lab E = true
    · simp only [hsafe, if_true] at hmem
      obtain ⟨h1, h2⟩ := ih (index + 1) _ _ s hmem
      refine ⟨by simpa using h1, fun v hv => ?_⟩
      rw [h2 v (by omega), getD_set_of_ne _ _ _ _ _ (by omega)]
    · simp [hsafe] at hmem

/-- In a graceful labeling different edges carry different labels. -/
theorem IsGraceful.edge_inj {G : Graph} {t : List Int} (ht : IsGraceful G t) :
    ∀ e ∈ edges G, ∀ e' ∈ edges G, edgeLabel t e = edgeLabel t e' → e = e' := by
  have hnd : ((edges G).map (edgeLabel t)).Nodup := (ht.2.2.2.nodup_iff).mpr (nodup_oneTo _)
  intro e he e' he' heq
  exact List.inj_on_of_nodup_map hnd he he' heq

/-- The label a graceful labeling gives to `index` passes `label_is_safe` when the slots
below `index` agree with it. -/
theorem safe_of_graceful {G : Graph} (hG : IsSimple G) {t : List Int} (ht : IsGraceful G t)
    {index : Nat} {lab E : List Int} (hpre : Pre G.length index lab) (hi : index < G.length)
    (hE : EInv G index lab E) (hagree : ∀ v, v < index → lab.getD v (-1) = t.getD v (-1)) :
    label_is_safe (t.getD index (-1)) G index lab E = true := by
  have htlen : t.length = G.length := ht.1
  have htmem : ∀ v, v < G.length → t.getD v (-1) ∈ t := fun v hv =>
    mem_iff_getD.mpr ⟨v, by omega, rfl⟩
  have hnew : ∀ a, a ∈ adj G index → a < index →
      ((t.getD index (-1) - lab.getD a (-1)).natAbs : Int) = edgeLabel t (a, index) := by
    intro a _ hlt
    rw [hagree a hlt]
    unfold edgeLabel
    simp only
    omega
  rw [graceful_safe_iff]
  refine ⟨?_, ?_, ?_⟩
  · intro hmem
    obtain ⟨v, hv, heq⟩ := mem_iff_getD.mp hmem
    by_cases hlt : v < index
    · rw [hagree v hlt] at heq
      have := getD_inj_of_nodup ht.2.2.1 (by omega) (by omega) heq
      omega
    · rw [hpre.2.2 v (by omega)] at heq
      have := (ht.2.1 _ (htmem index hi)).1
      omega
  · intro nb hnb hl hmem
    have hlt := (labeled_iff hpre).mp hl
    rw [hnew nb hnb hlt] at hmem
    obtain ⟨e, he, he2, heq⟩ := (hE.2 _).mp hmem
    have heq' : edgeLabel t (nb, index) = edgeLabel t e := by
      rw [heq]
      unfold edgeLabel
      rw [hagree e.1 (by have := (mem_edges.mp he).2.2; omega), hagree e.2 he2]
    have := ht.edge_inj _ (mem_edges.mpr ⟨hi, hnb, hlt⟩) e he heq'
    rw [← this] at he2
    simp at he2
  · refine List.Pairwise.imp_of_mem ?_ ((hG.nodup index).filter _)
    intro a b ha hb hab heq
    obtain ⟨ha1, ha2⟩ := List.mem_filter.mp ha
    obtain ⟨hb1, hb2⟩ := List.mem_filter.mp hb
    have hla := (labeled_iff hpre).mp (by simpa using ha2)
    have hlb := (labeled_iff hpre).mp (by simpa using hb2)
    rw [hnew a ha1 hla, hnew b hb1 hlb] at heq
    have := ht.edge_inj _ (mem_edges.mpr ⟨hi, ha1, hla⟩) _ (mem_edges.mpr ⟨hi, hb1, hlb⟩) heq
    injection this with h1 _
    exact hab h1

theorem graceful_sols_count {G : Graph} (hG : IsSimple G) {t : List Int} (ht : IsGraceful G t) :
    ∀ (k index : Nat) (lab E : List Int), index + k = G.length → Pre G.length index lab →
    EInv G index lab E → (∀ v, v < index → lab.getD v (-1) = t.getD v (-1)) →
    (sols G (edge_count G) k index lab E).count t = 1 := by
  intro k
  induction k with
  | zero =>
    intro index lab E hk hpre _ hagree
    have : lab = t := by
      apply ext_getD (by rw [hpre.1, ht.1])
      intro i hi
      exact hagree i (by rw [hpre.1] at hi; omega)
    subst this
    simp [sols]
  | succ k ih =>
    intro index lab E hk hpre hE hagree
    have hi : index < G.length := by omega
    have hlen : index < lab.length := by rw [hpre.1]; exact hi
    have htmem : t.getD index (-1) ∈ t := mem_iff_getD.mpr ⟨index, by rw [ht.1]; exact hi, rfl⟩
    have hc0 : t.getD index (-1) ∈ candidates (edge_count G) :=
      mem_candidates.mpr (ht.2.1 _ htmem)
    have hsafe := safe_of_graceful hG ht hpre hi hE hagree
    rw [sols]
    apply count_flatMap_unique _ t (t.getD index (-1)) _ (nodup_candidates _) hc0
    · simp only [hsafe, if_true]
      apply ih (index + 1) _ _ (by omega) (hpre.set hi (candidates_ne_neg_one hc0))
        (hE.step_einv hG hpre hi _)
      intro v hv
      by_cases hvi : index = v
      · subst hvi; rw [getD_set_self _ _ _ _ hlen]
      · rw [getD_set_of_ne _ _ _ _ _ hvi]; exact hagree v (by omega)
    · intro c _ hne hmem
      by_cases hsafe' : label_is_safe c G index lab E = true
      · simp only [hsafe', if_true] at hmem
        have := (graceful_sols_agree G _ k (index + 1) _ _ t hmem).2 index (by omega)
        rw [getD_set_self _ _ _ _ hlen] at this
        exact hne this.symm
      · simp [hsafe'] at hmem

theorem graceful_generate_eq (G : Graph) (hG : IsSimple G) (nEdges : Int) :
    generate_graceful_labeling G nEdges =
      some (sols G nEdges G.length 0 (List.replicate G.length (-1)) []) := by
  unfold generate_graceful_labeling
  rw [graceful_backtrack_eq G (fun v hv => hG.ne hv rfl) nEdges _ 0 _ [] [] (pre_replicate _)
    List.sorted_nil (Nat.zero_le _) (by omega)]
  simp

/-- C1: for a simple undirected graph `G` with symmetric adjacency lists and `m` edges,
`generate_graceful_labeling` with `nEdges = m` returns, and every labeling it prints is
graceful: one label per vertex, labels pairwise distinct in `[0, m]`, and the induced edge
labels are exactly `1, ..., m`, each once. -/
theorem generate_graceful_labeling_sound (G : Graph) (hG : IsSimple G) :
    ∃ out, generate_graceful_labeling G (edge_count G) = some out ∧
      ∀ s ∈ out, IsGraceful G s :=
  ⟨_, graceful_generate_eq G hG _,
    graceful_sols_sound hG G.length 0 _ [] (by omega) (pre_replicate _) (EInv.init_einv G) (GInv.init_ginv G)⟩

/-- C2: for a simple undirected graph `G` with at least one vertex and `m` edges, every
graceful labeling of `G` is printed by `generate_graceful_labeling`, exactly once. (With no
vertex the vector handed to `print_solution` is empty, and the C++ function reads
`labeling[labeling.size()-1]`.) -/
theorem generate_graceful_labeling_complete (G : Graph) (hG : IsSimple G)
    (_hn : 0 < G.length) (t : List Int) (ht : IsGraceful G t) :
    ∃ out, generate_graceful_labeling G (edge_count G) = some out ∧ out.count t = 1 :=
  ⟨_, graceful_generate_eq G hG _,
    graceful_sols_count hG ht G.length 0 _ [] (by omega) (pre_replicate _) (EInv.init_einv G)
      (fun v hv => by omega)⟩

end Graceful

namespace Graceful

theorem generate_graceful_labeling_sound_witness :
    IsSimple [[1, 2], [0], [0]] ∧
    ∃ out, generate_graceful_labeling [[1, 2], [0], [0]] (edge_count [[1, 2], [0], [0]]) =
        some out ∧ ∀ s ∈ out, IsGraceful [[1, 2], [0], [0]] s :=
  ⟨by decide, generate_graceful_labeling_sound [[1, 2], [0], [0]] (by decide)⟩

theorem generate_graceful_labeling_complete_witness :
    IsSimple [[1, 2], [0], [0]] ∧ 0 < ([[1, 2], [0], [0]] : Graph).length ∧
    IsGraceful [[1, 2], [0], [0]] [0, 1, 2] ∧
    ∃ out, generate_graceful_labeling [[1, 2], [0], [0]] (edge_count [[1, 2], [0], [0]]) =
        some out ∧ out.count [0, 1, 2] = 1 :=
  ⟨by decide, by decide, by decide,
    generate_graceful_labeling_complete [[1, 2], [0], [0]] (by decide) (by decide) [0, 1, 2]
      (by decide)⟩

end Graceful

namespace Subsets

theorem process_loop_eq (a : List Int) : ∀ (cnt i : Nat), i + cnt ≤ a.length →
    process_loop a cnt i = .ok ((List.range' i cnt).filter fun j => a.getD j 0 != 0) := by
  intro cnt
  induction cnt with
  | zero => intro i _; simp [process_loop]
  | succ cnt ih =>
    intro i h
    rw [process_loop, if_pos (by omega), ih (i + 1) (by omega)]
    simp only [List.range'_succ, List.filter_cons]

theorem process_solution_eq (a : List Int) (k : Nat) (h : k < a.length) :
    process_solution a k = .ok (chosen a k) :=
  process_loop_eq a k 1 (by omega)

theorem chosen_congr {a b : List Int} {k : Nat} (h : ∀ i, i ≤ k → b.getD i 0 = a.getD i 0) :
    chosen b k = chosen a k := by
  unfold chosen
  apply List.filter_congr
  intro i hi
  rw [List.mem_range'_1] at hi
  rw [h i (by omega)]

theorem chosen_succ (a : List Int) (k : Nat) :
    chosen a (k + 1) = chosen a k ++ if a.getD (k + 1) 0 != 0 then [k + 1] else [] := by
  unfold chosen
  rw [List.range'_1_concat, List.filter_append]
  simp only [List.filter_cons, List.filter_nil]
  rw [Nat.add_comm 1 k]

theorem subsets_backtrack_eq (n : Nat) : ∀ (fuel k : Nat) (a : List Int) (out : List (List Nat)),
    k ≤ n → n < a.length → n - k < fuel →
    ∃ a', backtrack n fuel k ⟨a, out⟩ =
        .ok ⟨a', out ++ (ext (n - k) k).map fun s => chosen a k ++ s⟩ ∧
      a'.length = a.length ∧ ∀ i, i ≤ k → a'.getD i 0 = a.getD i 0 := by
  intro fuel
  induction fuel with
  | zero => intro k a out _ _ h; omega
  | succ fuel ih =>
    intro k a out hk hn hfuel
    rw [backtrack]
    by_cases hkn : k = n
    · subst hkn
      refine ⟨a, ?_, rfl, fun _ _ => rfl⟩
      simp [process_solution_eq a k hn, ext]
    · obtain ⟨d, hd⟩ : ∃ d, n - k = d + 1 := ⟨n - k - 1, by omega⟩
      have hd' : n - (k + 1) = d := by omega
      simp only [hkn, if_false, construct_candidates, loop]
      have hk1 : k + 1 < a.length := by omega
      rw [if_pos hk1]
      obtain ⟨a1, h1, hlen1, hag1⟩ := ih (k + 1) (a.set (k + 1) 1) out (by omega)
        (by simpa using hn) (by omega)
      rw [h1]
      simp only
      have hk2 : k + 1 < a1.length := by rw [hlen1, List.length_set]; exact hk1
      rw [if_pos hk2]
      obtain ⟨a2, h2, hlen2, hag2⟩ := ih (k + 1) (a1.set (k + 1) 0)
        (out ++ (ext (n - (k + 1)) (k + 1)).map fun s => chosen (a.set (k + 1) 1) (k + 1) ++ s)
        (by omega) (by rw [List.length_set, hlen1]; simpa using hn) (by omega)
      rw [h2]
      refine ⟨a2, ?_, by rw [hlen2, List.length_set, hlen1, List.length_set], ?_⟩
      · have hc1 : chosen (a.set (k + 1) 1) (k + 1) = chosen a k ++ [k + 1] := by
          rw [chosen_succ, getD_set_self _ _ _ _ hk1]
          congr 1
          exact chosen_congr fun i hi => getD_set_of_ne _ _ _ _ _ (by omega)
        have hc2 : chosen (a1.set (k + 1) 0) (k + 1) = chosen a k := by
          rw [chosen_succ, getD_set_self _ _ _ _ hk2]
          simp only [bne_self_eq_false, Bool.false_eq_true, if_false, List.append_nil]
          exact chosen_congr fun i hi => by
            rw [getD_set_of_ne _ _ _ _ _ (by omega), hag1 i (by omega),
              getD_set_of_ne _ _ _ _ _ (by omega)]
        rw [hc1, hc2, hd', hd, ext]
        simp [List.map_append, List.append_assoc]
      · intro i hi
        rw [hag2 i (by omega), getD_set_of_ne _ _ _ _ _ (by omega), hag1 i (by omega),
          getD_set_of_ne _ _ _ _ _ (by omega)]

theorem generate_subsets_eq (a0 : List Int) (n : Nat) (h : n < a0.length) :
    generate_subsets a0 n = .ok (ext n 0) := by
  unfold generate_subsets
  obtain ⟨a', h1, _, _⟩ := subsets_backtrack_eq n (n + 1) 0 a0 [] (Nat.zero_le _) h (by omega)
  rw [h1]
  simp [chosen]

/-! ## The enumerated subsets -/

theorem length_ext : ∀ (d k : Nat), (ext d k).length = 2 ^ d := by
  intro d
  induction d with
  | zero => intro k; simp [ext]
  | succ d ih => intro k; simp [ext, ih, pow_succ]; omega

theorem mem_ext : ∀ (d k : Nat) (s : List Nat),
    s ∈ ext d k ↔ s.Sublist (List.range' (k + 1) d) := by
  intro d
  induction d with
  | zero => intro k s; simp [ext]
  | succ d ih =>
    intro k s
    simp only [ext, List.mem_append, List.mem_map, ih, List.range'_succ]
    constructor
    · rintro (⟨s', hs', rfl⟩ | hs)
      · exact hs'.cons₂ _
      · exact hs.cons _
    · intro hs
      cases hs with
      | cons _ h => exact Or.inr h
      | cons₂ _ h => exact Or.inl ⟨_, h, rfl⟩

theorem nodup_ext : ∀ (d k : Nat), (ext d k).Nodup := by
  intro d
  induction d with
  | zero => intro k; simp [ext]
  | succ d ih =>
    intro k
    rw [ext, List.nodup_append]
    refine ⟨List.Nodup.map (fun a b h => by injection h) (ih _), ih _, ?_⟩
    intro s hs1 hs2
    obtain ⟨s', _, rfl⟩ := List.mem_map.mp hs1
    have hsub := (mem_ext d (k + 1) _).mp hs2
    have := hsub.subset (List.mem_cons_self _ _)
    rw [List.mem_range'_1] at this
    omega

end Subsets

namespace Subsets

theorem sorted_of_mem_ext {d k : Nat} {s : List Nat} (h : s ∈ ext d k) : s.Sorted (· < ·) :=
  List.Pairwise.sublist ((mem_ext d k s).mp h) (List.pairwise_lt_range' _ _)

theorem toFinset_inj_of_sorted {s s' : List Nat} (hs : s.Sorted (· < ·))
    (hs' : s'.Sorted (· < ·)) (h : s.toFinset = s'.toFinset) : s = s' := by
  refine List.eq_of_perm_of_sorted ((List.perm_ext_iff_of_nodup hs.nodup hs'.nodup).mpr ?_) hs hs'
  intro a
  rw [← List.mem_toFinset, h, List.mem_toFinset]

/-- C7: for every `n` the array admits (`n < MAX`, in particular `0 ≤ n ≤ 6`), whatever the
initial content of the array, `generate_subsets(n)` returns, reports exactly `2^n` subsets,
every reported subset lies in `{1..n}`, no subset is reported twice, and every subset of
`{1..n}` is reported exactly once. -/
theorem generate_subsets_exact (a0 : List Int) (n : Nat) (ha : a0.length = MAX)
    (hn : n < MAX) :
    ∃ out, generate_subsets a0 n = .ok out ∧ out.length = 2 ^ n ∧
      (∀ s ∈ out, ∀ x ∈ s, 1 ≤ x ∧ x ≤ n) ∧
      (out.map List.toFinset).Nodup ∧
      ∀ S : Finset Nat, S ⊆ Finset.Icc 1 n → (out.map List.toFinset).count S = 1 := by
  have hnd : ((ext n 0).map List.toFinset).Nodup :=
    List.Nodup.map_on
      (fun s hs s' hs' h => toFinset_inj_of_sorted (sorted_of_mem_ext hs) (sorted_of_mem_ext hs') h)
      (nodup_ext n 0)
  refine ⟨ext n 0, generate_subsets_eq a0 n (by rw [ha]; exact hn), length_ext n 0, ?_, hnd, ?_⟩
  · intro s hs x hx
    have := ((mem_ext n 0 s).mp hs).subset hx
    rw [List.mem_range'_1] at this
    omega
  · intro S hS
    apply List.count_eq_one_of_mem hnd
    rw [List.mem_map]
    refine ⟨S.sort (· ≤ ·), ?_, Finset.sort_toFinset _ S⟩
    rw [mem_ext]
    refine List.sublist_of_subperm_of_sorted
      (List.subperm_of_subset (Finset.sort_nodup _ S) ?_) (Finset.sort_sorted_lt S)
      (List.pairwise_lt_range' _ _)
    intro x hx
    rw [Finset.mem_sort] at hx
    have := Finset.mem_Icc.mp (hS hx)
    rw [List.mem_range'_1]
    omega

theorem generate_subsets_exact_witness :
    (List.replicate 50 (7 : Int)).length = MAX ∧ 3 < MAX ∧
    ∃ out, generate_subsets (List.replicate 50 7) 3 = .ok out ∧ out.length = 2 ^ 3 ∧
      (∀ s ∈ out, ∀ x ∈ s, 1 ≤ x ∧ x ≤ 3) ∧
      (out.map List.toFinset).Nodup ∧
      ∀ S : Finset Nat, S ⊆ Finset.Icc 1 3 → (out.map List.toFinset).count S = 1 :=
  ⟨by decide, by decide, generate_subsets_exact (List.replicate 50 7) 3 (by decide) (by decide)⟩

end Subsets

namespace Wheel

/-! ## The complementary test -/

theorem flag_foldl (c : Nat → Bool) : ∀ (ks : List Nat) (b : Bool),
    ks.foldl (fun flag k => if c k then false else flag) b = true ↔
      b = true ∧ ∀ k ∈ ks, c k = false := by
  intro ks
  induction ks with
  | nil => intro b; simp
  | cons k ks ih =>
    intro b
    rw [List.foldl_cons, ih]
    by_cases hc : c k = true
    · simp [hc]
    · have hc' : c k = false := by simpa using hc
      simp [hc']

theorem complementary_flag_iff (n : Nat) (A B : List Int) :
    complementary_flag n A B = true ↔
      ∀ k, 2 ≤ k → k ≤ (n + 1) / 2 →
        A.getD k (-1) = B.getD (n + 2 - k) (-1) ∧ B.getD k (-1) = A.getD (n + 2 - k) (-1) := by
  unfold complementary_flag
  rw [flag_foldl (fun k =>
    A.getD k (-1) != B.getD (n + 2 - k) (-1) || B.getD k (-1) != A.getD (n + 2 - k) (-1))]
  simp only [true_and, List.mem_range'_1, Bool.or_eq_false_iff, bne_eq_false_iff_eq]
  constructor
  · intro h k h1 h2
    exact h k ⟨h1, by omega⟩
  · intro h k hk
    exact h k hk.1 (by omega)

theorem complementary_flag_symm (n : Nat) (A B : List Int) :
    complementary_flag n A B = complementary_flag n B A := by
  rw [Bool.eq_iff_iff, complementary_flag_iff, complementary_flag_iff]
  exact ⟨fun h k h1 h2 => ⟨(h k h1 h2).2, (h k h1 h2).1⟩,
    fun h k h1 h2 => ⟨(h k h1 h2).2, (h k h1 h2).1⟩⟩

/-! ## The marking loops -/

theorem mark_inner_spec (allLabelings : List (List Int)) (n i : Nat) :
    ∀ (js : List Nat) (c : List Bool),
    (mark_inner allLabelings n i js c).length = c.length ∧
    ∀ j, (mark_inner allLabelings n i js c).getD j false =
      (c.getD j false || (decide (j ∈ js) && decide (j < c.length) &&
        complementary_flag n (allLabelings.getD i []) (allLabelings.getD j []))) := by
  intro js
  induction js with
  | nil => intro c; simp [mark_inner]
  | cons j0 js ih =>
    intro c
    rw [mark_inner]
    by_cases hf : complementary_flag n (allLabelings.getD i []) (allLabelings.getD j0 []) = true
    · simp only [hf, if_true]
      obtain ⟨h1, h2⟩ := ih (c.set j0 true)
      refine ⟨by rw [h1, List.length_set], fun j => ?_⟩
      rw [h2 j, List.length_set]
      by_cases hj : j0 = j
      · subst hj
        by_cases hlt : j0 < c.length
        · rw [getD_set_self _ _ _ _ hlt]
          simp [-List.getD_eq_getElem?_getD, hf, hlt]
        · have : c.set j0 true = c := List.set_eq_of_length_le (by omega)
          rw [this]
          simp [-List.getD_eq_getElem?_getD, hlt]
      · rw [getD_set_of_ne _ _ _ _ _ hj]
        simp [-List.getD_eq_getElem?_getD, List.mem_cons, Ne.symm hj]
    · have hf' : complementary_flag n (allLabelings.getD i []) (allLabelings.getD j0 []) = false := by
        simpa using hf
      simp only [hf', Bool.false_eq_true, if_false]
      obtain ⟨h1, h2⟩ := ih c
      refine ⟨h1, fun j => ?_⟩
      rw [h2 j]
      by_cases hj : j0 = j
      · subst hj
        simp [-List.getD_eq_getElem?_getD, hf']
      · simp [List.mem_cons, Ne.symm hj]

theorem mark_outer_spec (allLabelings : List (List Int)) (n : Nat) :
    ∀ (cnt p : Nat) (c : List Bool), p + cnt = allLabelings.length →
    MarkInv allLabelings n p c →
    MarkInv allLabelings n allLabelings.length
      (mark_outer allLabelings n (List.range' p cnt) c) := by
  intro cnt
  induction cnt with
  | zero =>
    intro p c hp hinv
    have : p = allLabelings.length := by omega
    subst this
    simpa [mark_outer] using hinv
  | succ cnt ih =>
    intro p c hp hinv
    rw [List.range'_succ, mark_outer]
    apply ih (p + 1) _ (by omega)
    obtain ⟨hlen, hmark⟩ := hinv
    by_cases hcp : c.getD p false = true
    · have : (c.getD p false == false) = false := by rw [hcp]; rfl
      simp only [this, Bool.false_eq_true, if_false]
      refine ⟨hlen, fun j => ?_⟩
      rw [hmark j]
      constructor
      · rintro ⟨hj, i, hi, hij, hci, hT⟩
        exact ⟨hj, i, by omega, hij, hci, hT⟩
      · rintro ⟨hj, i, hi, hij, hci, hT⟩
        have : i ≠ p := by
          rintro rfl
          rw [hcp] at hci
          exact absurd hci (by simp)
        exact ⟨hj, i, by omega, hij, hci, hT⟩
    · have hcp' : c.getD p false = false := by simpa using hcp
      have : (c.getD p false == false) = true := by rw [hcp']; rfl
      simp only [this, if_true]
      obtain ⟨h1, h2⟩ := mark_inner_spec allLabelings n p
        (List.range' (p + 1) (allLabelings.length - (p + 1))) c
      -- indices up to `p` keep their mark
      have hkeep : ∀ i, i ≤ p → (mark_inner allLabelings n p
          (List.range' (p + 1) (allLabelings.length - (p + 1))) c).getD i false =
          c.getD i false := by
        intro i hi
        rw [h2 i]
        have : i ∉ List.range' (p + 1) (allLabelings.length - (p + 1)) := by
          rw [List.mem_range'_1]; omega
        simp [this]
      refine ⟨by rw [h1, hlen], fun j => ?_⟩
      rw [h2 j, Bool.or_eq_true, hmark j]
      simp only [Bool.and_eq_true, decide_eq_true_eq, List.mem_range'_1]
      constructor
      · rintro (⟨hj, i, hi, hij, hci, hT⟩ | ⟨⟨⟨hpj, _⟩, hj⟩, hT⟩)
        · exact ⟨hj, i, by omega, hij, by rw [hkeep i (by omega)]; exact hci, hT⟩
        · exact ⟨by omega, p, by omega, by omega, by rw [hkeep p (le_refl _)]; exact hcp', hT⟩
      · rintro ⟨hj, i, hi, hij, hci, hT⟩
        rw [hkeep i (by omega)] at hci
        by_cases hip : i = p
        · subst hip
          exact Or.inr ⟨⟨⟨by omega, by omega⟩, by omega⟩, hT⟩
        · exact Or.inl ⟨hj, i, by omega, hij, hci, hT⟩

/-- What the marking loops compute: a labeling is marked exactly when an earlier unmarked
labeling passes the complementary test with it. -/
theorem marks_spec (allLabelings : List (List Int)) (n : Nat) :
    (marks allLabelings n).length = allLabelings.length ∧
    ∀ j, (marks allLabelings n).getD j false = true ↔
      j < allLabelings.length ∧ ∃ i, i < j ∧ (marks allLabelings n).getD i false = false ∧
        complementary_flag n (allLabelings.getD i []) (allLabelings.getD j []) = true := by
  have hinit : MarkInv allLabelings n 0 (List.replicate allLabelings.length false) := by
    refine ⟨by simp, fun j => ?_⟩
    constructor
    · intro h
      simp only [List.getD_eq_getElem?_getD, List.getElem?_replicate] at h
      split at h <;> simp at h
    · rintro ⟨_, i, hi, _⟩
      omega
  have := mark_outer_spec allLabelings n allLabelings.length 0 _ (by omega) hinit
  rw [← List.range_eq_range'] at this
  obtain ⟨h1, h2⟩ := this
  refine ⟨h1, fun j => ?_⟩
  rw [show marks allLabelings n = mark_outer allLabelings n (List.range allLabelings.length)
    (List.replicate allLabelings.length false) from rfl, h2 j]
  constructor
  · rintro ⟨hj, i, _, hij, hci, hT⟩
    exact ⟨hj, i, hij, hci, hT⟩
  · rintro ⟨hj, i, hij, hci, hT⟩
    exact ⟨hj, i, by omega, hij, hci, hT⟩

end Wheel

namespace Wheel

theorem getD_of_lt (allLabelings : List (List Int)) {i : Nat} (h : i < allLabelings.length) :
    allLabelings.getD i [] = allLabelings[i] := by
  simp [List.getD_eq_getElem?_getD, h]

theorem mem_discard {allLabelings : List (List Int)} {n : Nat} {X : List Int} :
    X ∈ discard_complementary_labelings allLabelings n ↔
      ∃ i, i < allLabelings.length ∧ (marks allLabelings n).getD i false = false ∧
        allLabelings.getD i [] = X := by
  unfold discard_complementary_labelings
  simp only [List.mem_map, List.mem_filter, List.mem_range, beq_iff_eq]
  constructor
  · rintro ⟨i, ⟨h1, h2⟩, h3⟩; exact ⟨i, h1, h2, h3⟩
  · rintro ⟨i, h1, h2, h3⟩; exact ⟨i, ⟨h1, h2⟩, h3⟩

/-- No two reported labelings pass the complementary test. -/
theorem discard_pairwise (allLabelings : List (List Int)) (n : Nat) :
    (discard_complementary_labelings allLabelings n).Pairwise
      fun X Y => complementary_flag n X Y = false := by
  unfold discard_complementary_labelings
  rw [List.pairwise_map]
  have hlt : ((List.range allLabelings.length).filter
      fun i => (marks allLabelings n).getD i false == false).Pairwise (· < ·) :=
    (List.pairwise_lt_range _).filter _
  refine List.Pairwise.imp_of_mem ?_ hlt
  intro i j hi hj hij
  obtain ⟨hi1, hi2⟩ := List.mem_filter.mp hi
  obtain ⟨hj1, hj2⟩ := List.mem_filter.mp hj
  rw [beq_iff_eq] at hi2 hj2
  by_contra hT
  have hT : complementary_flag n (allLabelings.getD i []) (allLabelings.getD j []) = true := by
    simpa using hT
  have := ((marks_spec allLabelings n).2 j).mpr ⟨List.mem_range.mp hj1, i, hij, hi2, hT⟩
  rw [hj2] at this
  exact absurd this (by simp)

/-- A collection without complementary pairs is reported unchanged. -/
theorem discard_eq_self (L : List (List Int)) (n : Nat)
    (h : L.Pairwise fun X Y => complementary_flag n X Y = false) :
    discard_complementary_labelings L n = L := by
  have hmarks : ∀ j, (marks L n).getD j false = false := by
    intro j
    by_contra hc
    have hc : (marks L n).getD j false = true := by simpa using hc
    obtain ⟨hj, i, hij, _, hT⟩ := ((marks_spec L n).2 j).mp hc
    rw [getD_of_lt L hj, getD_of_lt L (by omega)] at hT
    have := List.pairwise_iff_getElem.mp h i j (by omega) hj hij
    rw [hT] at this
    exact absurd this (by simp)
  unfold discard_complementary_labelings
  rw [List.filter_eq_self.mpr (fun i _ => by rw [hmarks i]; rfl)]
  apply List.ext_getElem (by simp)
  intro i h1 h2
  simp [List.getD_eq_getElem?_getD, h2]

/-- C10: the reduction is idempotent, for every `n` and every collection: applying it to
its own output reports the same list; and no two reported labelings pass the
complementary test. -/
theorem discard_complementary_labelings_idempotent (allLabelings : List (List Int))
    (n : Nat) :
    discard_complementary_labelings (discard_complementary_labelings allLabelings n) n =
        discard_complementary_labelings allLabelings n ∧
      (discard_complementary_labelings allLabelings n).Pairwise
        fun X Y => complementary_flag n X Y = false :=
  ⟨discard_eq_self _ n (discard_pairwise allLabelings n), discard_pairwise allLabelings n⟩

/-! ## Mirror pairs -/

/-- Two classes of labelings such that the complementary test relates exactly the members
of one to the members of the other: the class met first in the collection is reported
whole and the other one is discarded whole. -/
theorem class_marks (allLabelings : List (List Int)) (n : Nat) (P Q : List Int → Prop)
    (hPQ : ∀ X, P X → ∀ Y, complementary_flag n X Y = true ↔ Q Y)
    (hdis : ∀ X, P X → ¬ Q X) (i0 : Nat) (hi0 : i0 < allLabelings.length)
    (hP0 : P (allLabelings.getD i0 []))
    (hmin : ∀ i, i < i0 → ¬ Q (allLabelings.getD i [])) :
    (∀ j, j < allLabelings.length → Q (allLabelings.getD j []) →
      (marks allLabelings n).getD j false = true) ∧
    (∀ j, j < allLabelings.length → P (allLabelings.getD j []) →
      (marks allLabelings n).getD j false = false) := by
  have hspec := (marks_spec allLabelings n).2
  have h0 : (marks allLabelings n).getD i0 false = false := by
    by_contra hc
    have hc : (marks allLabelings n).getD i0 false = true := by simpa using hc
    obtain ⟨_, i, hi, _, hT⟩ := (hspec i0).mp hc
    rw [complementary_flag_symm] at hT
    exact hmin i hi ((hPQ _ hP0 _).mp hT)
  have hQ : ∀ j, j < allLabelings.length → Q (allLabelings.getD j []) →
      (marks allLabelings n).getD j false = true := by
    intro j hj hQj
    have hne : j ≠ i0 := by
      rintro rfl
      exact hdis _ hP0 hQj
    have hlt : i0 < j := by
      by_contra hc
      exact hmin j (by omega) hQj
    exact (hspec j).mpr ⟨hj, i0, hlt, h0, (hPQ _ hP0 _).mpr hQj⟩
  refine ⟨hQ, fun j hj hPj => ?_⟩
  by_contra hc
  have hc : (marks allLabelings n).getD j false = true := by simpa using hc
  obtain ⟨_, i, hi, hci, hT⟩ := (hspec j).mp hc
  rw [complementary_flag_symm] at hT
  have := hQ i (by omega) ((hPQ _ hPj _).mp hT)
  rw [hci] at this
  exact absurd this (by simp)

end Wheel

namespace Wheel

theorem flag_congr {n : Nat} {X Z : List Int} (h : Agree n X Z) (Y : List Int) :
    complementary_flag n X Y = true ↔ complementary_flag n Z Y = true := by
  rw [complementary_flag_iff, complementary_flag_iff]
  constructor
  · intro hT k h1 h2
    obtain ⟨a1, a2⟩ := h k h1 h2
    obtain ⟨t1, t2⟩ := hT k h1 h2
    exact ⟨by rw [← a1]; exact t1, by rw [← a2]; exact t2⟩
  · intro hT k h1 h2
    obtain ⟨a1, a2⟩ := h k h1 h2
    obtain ⟨t1, t2⟩ := hT k h1 h2
    exact ⟨by rw [a1]; exact t1, by rw [a2]; exact t2⟩

/-- Against a labeling `A` with mirror `B`, the test holds exactly for the labelings that
agree with `B` on the positions read. -/
theorem flag_mirror_iff {n : Nat} {A B : List Int}
    (hm : ∀ k, k ≤ n → 2 ≤ k → B.getD k (-1) = A.getD (n + 2 - k) (-1)) (Y : List Int) :
    complementary_flag n A Y = true ↔ Agree n Y B := by
  rw [complementary_flag_iff]
  have hB1 : ∀ k, 2 ≤ k → k ≤ (n + 1) / 2 → B.getD k (-1) = A.getD (n + 2 - k) (-1) :=
    fun k h1 h2 => hm k (by omega) h1
  have hB2 : ∀ k, 2 ≤ k → k ≤ (n + 1) / 2 → B.getD (n + 2 - k) (-1) = A.getD k (-1) := by
    intro k h1 h2
    have := hm (n + 2 - k) (by omega) (by omega)
    rw [this]
    congr 1
    omega
  constructor
  · intro hT k h1 h2
    obtain ⟨t1, t2⟩ := hT k h1 h2
    exact ⟨by rw [hB1 k h1 h2]; exact t2, by rw [hB2 k h1 h2]; exact t1.symm⟩
  · intro hA k h1 h2
    obtain ⟨a1, a2⟩ := hA k h1 h2
    exact ⟨by rw [a2, hB2 k h1 h2], by rw [a1, hB1 k h1 h2]⟩

theorem mirror_symm {n : Nat} {A B : List Int}
    (hm : ∀ k, k ≤ n → 2 ≤ k → B.getD k (-1) = A.getD (n + 2 - k) (-1)) :
    ∀ k, k ≤ n → 2 ≤ k → A.getD k (-1) = B.getD (n + 2 - k) (-1) := by
  intro k h1 h2
  rw [hm (n + 2 - k) (by omega) (by omega)]
  congr 1
  omega

/-- A labeling that agrees with its mirror on the positions read is its own mirror. -/
theorem eq_of_agree_mirror {n : Nat} {A B : List Int} (hA : A.length = n + 1)
    (hB : B.length = n + 1) (h0 : B.getD 0 (-1) = A.getD 0 (-1))
    (h1 : B.getD 1 (-1) = A.getD 1 (-1))
    (hm : ∀ k, k ≤ n → 2 ≤ k → B.getD k (-1) = A.getD (n + 2 - k) (-1))
    (hag : Agree n A B) : A = B := by
  apply ext_getD (by rw [hA, hB])
  intro i hi
  rw [hA] at hi
  by_cases hi0 : i = 0
  · subst hi0; exact h0.symm
  by_cases hi1 : i = 1
  · subst hi1; exact h1.symm
  by_cases hlow : i ≤ (n + 1) / 2
  · exact (hag i (by omega) hlow).1
  by_cases hhigh : n + 2 - i ≤ (n + 1) / 2
  · have := (hag (n + 2 - i) (by omega) hhigh).2
    rwa [show n + 2 - (n + 2 - i) = i by omega] at this
  · have hmid : n + 2 - i = i := by omega
    have := hm i (by omega) (by omega)
    rw [hmid] at this
    exact this.symm

/-- Of a labeling and its mirror, both in the collection and different, one is reported and
the other one is discarded. -/
theorem mirror_pair_reported (n : Nat)
    (allLabelings : List (List Int)) (hlen : ∀ X ∈ allLabelings, X.length = n + 1)
    (A B : List Int) (hA : A ∈ allLabelings) (hB : B ∈ allLabelings)
    (h0 : B.getD 0 (-1) = A.getD 0 (-1)) (h1 : B.getD 1 (-1) = A.getD 1 (-1))
    (hm : ∀ k, k ≤ n → 2 ≤ k → B.getD k (-1) = A.getD (n + 2 - k) (-1)) (hne : A ≠ B) :
    (A ∈ discard_complementary_labelings allLabelings n ∧
        B ∉ discard_complementary_labelings allLabelings n) ∨
      (B ∈ discard_complementary_labelings allLabelings n ∧
        A ∉ discard_complementary_labelings allLabelings n) := by
  classical
  have hm' := mirror_symm hm
  -- the two classes: labelings that look like `A`, labelings that look like `B`
  have hPQ : ∀ X, Agree n X A → ∀ Y, complementary_flag n X Y = true ↔ Agree n Y B :=
    fun X hX Y => (flag_congr hX Y).trans (flag_mirror_iff hm Y)
  have hQP : ∀ Y, Agree n Y B → ∀ X, complementary_flag n Y X = true ↔ Agree n X A :=
    fun Y hY X => (flag_congr hY X).trans (flag_mirror_iff hm' X)
  have hdis : ∀ X, Agree n X A → ¬ Agree n X B := by
    intro X hXA hXB
    apply hne
    apply eq_of_agree_mirror (hlen A hA) (hlen B hB) h0 h1 hm
    intro k hk1 hk2
    obtain ⟨a1, a2⟩ := hXA k hk1 hk2
    obtain ⟨b1, b2⟩ := hXB k hk1 hk2
    exact ⟨a1.symm.trans b1, a2.symm.trans b2⟩
  have hAA : Agree n A A := fun _ _ _ => ⟨rfl, rfl⟩
  have hBB : Agree n B B := fun _ _ _ => ⟨rfl, rfl⟩
  obtain ⟨iA, hiA, hAi⟩ := mem_iff_getD_nil.mp hA
  obtain ⟨iB, hiB, hBi⟩ := mem_iff_getD_nil.mp hB
  have hexP : ∃ i, i < allLabelings.length ∧ Agree n (allLabelings.getD i []) A :=
    ⟨iA, hiA, by rw [hAi]; exact hAA⟩
  have hexQ : ∃ i, i < allLabelings.length ∧ Agree n (allLabelings.getD i []) B :=
    ⟨iB, hiB, by rw [hBi]; exact hBB⟩
  -- whichever class comes first is reported, the other one is discarded
  have hcase : ∀ (P Q : List Int → Prop) (X Y : List Int),
      (∀ X, P X → ∀ Y, complementary_flag n X Y = true ↔ Q Y) → (∀ X, P X → ¬ Q X) →
      P X → Q Y → X ∈ allLabelings → Y ∈ allLabelings →
      (∃ i0, i0 < allLabelings.length ∧ P (allLabelings.getD i0 []) ∧
        ∀ i, i < i0 → ¬ Q (allLabelings.getD i [])) →
      X ∈ discard_complementary_labelings allLabelings n ∧
        Y ∉ discard_complementary_labelings allLabelings n := by
    intro P Q X Y hPQ' hdis' hPX hQY hX hY ⟨i0, hi0, hP0, hmin⟩
    obtain ⟨hQm, hPm⟩ := class_marks allLabelings n P Q hPQ' hdis' i0 hi0 hP0 hmin
    obtain ⟨iX, hiX, hXi⟩ := mem_iff_getD_nil.mp hX
    refine ⟨mem_discard.mpr ⟨iX, hiX, hPm iX hiX (by rw [hXi]; exact hPX), hXi⟩, ?_⟩
    intro hmem
    obtain ⟨j, hj, hcj, hYj⟩ := mem_discard.mp hmem
    have := hQm j hj (by rw [hYj]; exact hQY)
    rw [hcj] at this
    exact absurd this (by simp)
  by_cases hfirst : Nat.find hexP < Nat.find hexQ
  · left
    refine hcase _ _ A B hPQ hdis hAA hBB hA hB
      ⟨Nat.find hexP, (Nat.find_spec hexP).1, (Nat.find_spec hexP).2, fun i hi hQi => ?_⟩
    exact Nat.find_min hexQ (by omega : i < Nat.find hexQ)
      ⟨by have := (Nat.find_spec hexP).1; omega, hQi⟩
  · right
    refine hcase _ _ B A hQP (fun X hXB hXA => hdis X hXA hXB) hBB hAA hB hA
      ⟨Nat.find hexQ, (Nat.find_spec hexQ).1, (Nat.find_spec hexQ).2, fun i hi hPi => ?_⟩
    have hne' : Nat.find hexP ≠ Nat.find hexQ := by
      intro heq
      have h2 := (Nat.find_spec hexQ).2
      rw [← heq] at h2
      exact hdis _ (Nat.find_spec hexP).2 h2
    exact Nat.find_min hexP (by omega : i < Nat.find hexP)
      ⟨by have := (Nat.find_spec hexQ).1; omega, hPi⟩

/-- C9: for `n ≥ 3` and a collection of labelings of length `n + 1` that contains a
labeling `A` and its exact mirror `B ≠ A` (`B[0] = A[0]`, `B[1] = A[1]`,
`B[k] = A[n+2-k]` for `k` in `2..n`), `discard_complementary_labelings` reports one of
`A`, `B` and discards the other. -/
theorem discard_keeps_one_of_mirror_pair (n : Nat) (_hn : 3 ≤ n)
    (allLabelings : List (List Int)) (hlen : ∀ X ∈ allLabelings, X.length = n + 1)
    (A B : List Int) (hA : A ∈ allLabelings) (hB : B ∈ allLabelings)
    (h0 : B.getD 0 (-1) = A.getD 0 (-1)) (h1 : B.getD 1 (-1) = A.getD 1 (-1))
    (hm : ∀ k, k ≤ n → 2 ≤ k → B.getD k (-1) = A.getD (n + 2 - k) (-1)) (hne : A ≠ B) :
    (A ∈ discard_complementary_labelings allLabelings n ∧
        B ∉ discard_complementary_labelings allLabelings n) ∨
      (B ∈ discard_complementary_labelings allLabelings n ∧
        A ∉ discard_complementary_labelings allLabelings n) :=
  mirror_pair_reported n allLabelings hlen A B hA hB h0 h1 hm hne

theorem discard_keeps_one_of_mirror_pair_witness :
    3 ≤ 4 ∧ (∀ X ∈ [[0, 8, 2, 5, 1], [0, 8, 1, 5, 2]], X.length = 4 + 1) ∧
    (([0, 8, 1, 5, 2] ∈ discard_complementary_labelings [[0, 8, 2, 5, 1], [0, 8, 1, 5, 2]] 4 ∧
      [0, 8, 2, 5, 1] ∉ discard_complementary_labelings [[0, 8, 2, 5, 1], [0, 8, 1, 5, 2]] 4) ∨
    ([0, 8, 2, 5, 1] ∈ discard_complementary_labelings [[0, 8, 2, 5, 1], [0, 8, 1, 5, 2]] 4 ∧
      [0, 8, 1, 5, 2] ∉ discard_complementary_labelings [[0, 8, 2, 5, 1], [0, 8, 1, 5, 2]] 4)) :=
  ⟨by decide, by decide,
    discard_keeps_one_of_mirror_pair 4 (by decide) [[0, 8, 2, 5, 1], [0, 8, 1, 5, 2]]
      (by decide) [0, 8, 1, 5, 2] [0, 8, 2, 5, 1] (by decide) (by decide) (by decide)
      (by decide) (by decide) (by decide)⟩

end Wheel

namespace Wheel

theorem adj_push_adj (g : Graph) (v w u : Nat) :
    adj (push_adj g v w) u = if u = v then adj g v ++ [w] else adj g u := by
  unfold push_adj
  by_cases h : u = v
  · subst h
    simp only [if_true]
    show ((g ++ List.replicate (u + 1 - g.length) []).set u (adj g u ++ [w])).getD u [] = _
    rw [getD_set_self]
    simp only [List.length_append, List.length_replicate]
    omega
  · simp only [h, if_false]
    show ((g ++ List.replicate (v + 1 - g.length) []).set v (adj g v ++ [w])).getD u [] =
      g.getD u []
    rw [getD_set_of_ne _ _ _ _ _ (Ne.symm h)]
    simp only [List.getD_eq_getElem?_getD]
    by_cases hu : u < g.length
    · rw [List.getElem?_append_left hu]
    · rw [List.getElem?_append_right (by omega : g.length ≤ u),
        List.getElem?_eq_none (l := g) (by omega)]
      simp only [List.getElem?_replicate]
      split <;> rfl

theorem length_push_adj (g : Graph) (v w : Nat) :
    (push_adj g v w).length = max g.length (v + 1) := by
  unfold push_adj
  simp only [List.length_set, List.length_append, List.length_replicate]
  omega

theorem adj_add_edge (g : Graph) (e : Nat × Nat) (u : Nat) :
    adj (add_edge g e) u = adj g u ++ inc u e := by
  obtain ⟨a, b⟩ := e
  unfold add_edge inc
  simp only [adj_push_adj]
  by_cases h1 : u = a <;> by_cases h2 : u = b
  · subst h1
    subst h2
    simp
  · subst h1
    rw [if_neg h2, if_pos rfl, if_pos rfl, if_neg h2]
    simp
  · subst h2
    rw [if_pos rfl, if_neg h1, if_neg h1, if_pos rfl]
    simp
  · rw [if_neg h2, if_neg h1, if_neg h1, if_neg h2]
    simp

theorem length_add_edge (g : Graph) (e : Nat × Nat) :
    (add_edge g e).length = max g.length (max (e.1 + 1) (e.2 + 1)) := by
  unfold add_edge
  rw [length_push_adj, length_push_adj]
  omega

theorem adj_foldl_add_edge (u : Nat) : ∀ (es : List (Nat × Nat)) (g : Graph),
    adj (es.foldl add_edge g) u = adj g u ++ es.flatMap (inc u) := by
  intro es
  induction es with
  | nil => intro g; simp
  | cons e es ih =>
    intro g
    rw [List.foldl_cons, ih, adj_add_edge, List.flatMap_cons, List.append_assoc]

theorem length_foldl_add_edge (N : Nat) : ∀ (es : List (Nat × Nat)) (g : Graph),
    g.length ≤ N → (∀ e ∈ es, e.1 < N ∧ e.2 < N) → (es.foldl add_edge g).length ≤ N := by
  intro es
  induction es with
  | nil => intro g h _; simpa using h
  | cons e es ih =>
    intro g hg he
    rw [List.foldl_cons]
    apply ih
    · rw [length_add_edge]
      have := he e (List.mem_cons_self _ _)
      omega
    · intro e' he'
      exact he e' (List.mem_cons_of_mem _ he')

theorem le_length_foldl_add_edge : ∀ (es : List (Nat × Nat)) (g : Graph),
    g.length ≤ (es.foldl add_edge g).length := by
  intro es
  induction es with
  | nil => intro g; simp
  | cons e es ih =>
    intro g
    rw [List.foldl_cons]
    refine le_trans ?_ (ih _)
    rw [length_add_edge]
    omega

theorem mem_inc {u v : Nat} {e : Nat × Nat} :
    v ∈ inc u e ↔ (u = e.1 ∧ v = e.2) ∨ (u = e.2 ∧ v = e.1) := by
  unfold inc
  by_cases h1 : u = e.1 <;> by_cases h2 : u = e.2 <;> simp [h1, h2]

/-- Edges that are pairwise different as unordered pairs, none a loop, give adjacency
lists without repetition. -/
theorem nodup_flatMap_inc (u : Nat) : ∀ (es : List (Nat × Nat)),
    (∀ e ∈ es, e.1 ≠ e.2) →
    es.Pairwise (fun e e' => e ≠ e' ∧ e ≠ (e'.2, e'.1)) → (es.flatMap (inc u)).Nodup := by
  intro es
  induction es with
  | nil => intro _ _; simp
  | cons e es ih =>
    intro hloop hp
    rw [List.pairwise_cons] at hp
    rw [List.flatMap_cons, List.nodup_append]
    refine ⟨?_, ih (fun e' he' => hloop e' (List.mem_cons_of_mem _ he')) hp.2, ?_⟩
    · have := hloop e (List.mem_cons_self _ _)
      unfold inc
      by_cases h1 : u = e.1 <;> by_cases h2 : u = e.2
      · exact absurd (h1.symm.trans h2) this
      · rw [if_pos h1, if_neg h2]; simp
      · rw [if_neg h1, if_pos h2]; simp
      · rw [if_neg h1, if_neg h2]; simp
    · intro x hx1 hx2
      obtain ⟨e', he', hx'⟩ := List.mem_flatMap.mp hx2
      obtain ⟨hne1, hne2⟩ := hp.1 e' he'
      rcases mem_inc.mp hx1 with ⟨a1, a2⟩ | ⟨a1, a2⟩ <;>
        rcases mem_inc.mp hx' with ⟨b1, b2⟩ | ⟨b1, b2⟩
      · exact hne1 (Prod.ext (a1.symm.trans b1) (a2.symm.trans b2))
      · exact hne2 (Prod.ext (a1.symm.trans b1) (a2.symm.trans b2))
      · exact hne2 (Prod.ext (a2.symm.trans b2) (a1.symm.trans b1))
      · exact hne1 (Prod.ext (a2.symm.trans b2) (a1.symm.trans b1))

/-! ## The wheel -/

theorem mem_wheel_edges {n : Nat} {e : Nat × Nat} :
    e ∈ wheel_edges n ↔
      (1 ≤ e.1 ∧ e.1 < n ∧ e.2 = e.1 + 1) ∨ (e.1 = n ∧ e.2 = 1) ∨
        (e.1 = 0 ∧ 1 ≤ e.2 ∧ e.2 ≤ n) := by
  obtain ⟨a, b⟩ := e
  unfold wheel_edges
  simp only [List.mem_append, List.mem_map, List.mem_range'_1, List.mem_singleton,
    Prod.mk.injEq]
  constructor
  · rintro ((⟨i, ⟨h1, h2⟩, rfl, rfl⟩ | ⟨rfl, rfl⟩) | ⟨i, ⟨h1, h2⟩, rfl, rfl⟩)
    · left; exact ⟨h1, by omega, rfl⟩
    · right; left; exact ⟨rfl, rfl⟩
    · right; right; exact ⟨rfl, h1, by omega⟩
  · rintro (⟨h1, h2, h3⟩ | ⟨h1, h2⟩ | ⟨h1, h2, h3⟩)
    · left; left; exact ⟨a, ⟨h1, by omega⟩, rfl, h3.symm⟩
    · left; right; exact ⟨h1, h2⟩
    · right; exact ⟨b, ⟨h2, by omega⟩, h1.symm, rfl⟩

theorem length_wheel_edges (n : Nat) (hn : 1 ≤ n) : (wheel_edges n).length = 2 * n := by
  unfold wheel_edges
  simp only [List.length_append, List.length_map, List.length_range', List.length_singleton]
  omega

theorem wheel_edges_pairwise (n : Nat) (hn : 3 ≤ n) :
    (wheel_edges n).Pairwise (fun e e' => e ≠ e' ∧ e ≠ (e'.2, e'.1)) := by
  unfold wheel_edges
  rw [List.pairwise_append, List.pairwise_append]
  refine ⟨⟨?_, List.pairwise_singleton _ _, ?_⟩, ?_, ?_⟩
  · rw [List.pairwise_map]
    refine List.Pairwise.imp_of_mem ?_ (List.pairwise_lt_range' 1 (n - 1))
    intro a b _ _ hab
    simp only [ne_eq, Prod.mk.injEq, not_and]
    omega
  · intro e he e' he'
    obtain ⟨i, hi, rfl⟩ := List.mem_map.mp he
    rw [List.mem_range'_1] at hi
    rw [List.mem_singleton] at he'
    subst he'
    simp only [ne_eq, Prod.mk.injEq, not_and]
    omega
  · rw [List.pairwise_map]
    refine List.Pairwise.imp_of_mem ?_ (List.pairwise_lt_range' 1 n)
    intro a b _ _ hab
    simp only [ne_eq, Prod.mk.injEq, not_and]
    omega
  · intro e he e' he'
    obtain ⟨j, hj, rfl⟩ := List.mem_map.mp he'
    rw [List.mem_range'_1] at hj
    rcases List.mem_append.mp he with he | he
    · obtain ⟨i, hi, rfl⟩ := List.mem_map.mp he
      rw [List.mem_range'_1] at hi
      simp only [ne_eq, Prod.mk.injEq, not_and]
      omega
    · rw [List.mem_singleton] at he
      subst he
      simp only [ne_eq, Prod.mk.injEq, not_and]
      omega

theorem wheel_edges_no_loop (n : Nat) (hn : 3 ≤ n) : ∀ e ∈ wheel_edges n, e.1 ≠ e.2 := by
  intro e he
  rcases mem_wheel_edges.mp he with h | h | h <;> omega

theorem adj_wheel (n u : Nat) : adj (wheel n).1 u = (wheel_edges n).flatMap (inc u) := by
  unfold wheel create_wheel_graph
  rw [adj_foldl_add_edge]
  simp [adj]

theorem length_wheel (n : Nat) (hn : 1 ≤ n) : (wheel n).1.length = n + 1 := by
  unfold wheel create_wheel_graph
  apply le_antisymm
  · apply length_foldl_add_edge _ _ _ (by simp)
    intro e he
    rcases mem_wheel_edges.mp he with h | h | h <;> omega
  · show n + 1 ≤ ((wheel_edges n).foldl add_edge []).length
    unfold wheel_edges
    rw [List.foldl_append, List.foldl_append, List.foldl_cons, List.foldl_nil]
    refine le_trans ?_ (le_length_foldl_add_edge _ _)
    rw [length_add_edge]
    omega

theorem wheel_snd (n : Nat) (hn : 1 ≤ n) : (wheel n).2 = 2 * n := by
  unfold wheel create_wheel_graph
  simp [length_wheel_edges n hn]

/-- Adjacency in the wheel: the hub is joined to the cycle vertices, and a cycle vertex
to its two cycle neighbours. -/
theorem mem_adj_wheel {n u v : Nat} :
    v ∈ adj (wheel n).1 u ↔
      (u = 0 ∧ 1 ≤ v ∧ v ≤ n) ∨ (v = 0 ∧ 1 ≤ u ∧ u ≤ n) ∨
      (1 ≤ u ∧ u < n ∧ v = u + 1) ∨ (1 ≤ v ∧ v < n ∧ u = v + 1) ∨
      (u = n ∧ v = 1) ∨ (v = n ∧ u = 1) := by
  rw [adj_wheel, List.mem_flatMap]
  constructor
  · rintro ⟨e, he, hv⟩
    rcases mem_inc.mp hv with ⟨h1, h2⟩ | ⟨h1, h2⟩ <;>
      rcases mem_wheel_edges.mp he with h | h | h <;> omega
  · intro h
    rcases h with h | h | h | h | h | h
    · exact ⟨(0, v), mem_wheel_edges.mpr (by simp; omega), mem_inc.mpr (by simp; omega)⟩
    · exact ⟨(0, u), mem_wheel_edges.mpr (by simp; omega), mem_inc.mpr (by simp; omega)⟩
    · exact ⟨(u, u + 1), mem_wheel_edges.mpr (by simp; omega), mem_inc.mpr (by simp; omega)⟩
    · exact ⟨(v, v + 1), mem_wheel_edges.mpr (by simp; omega), mem_inc.mpr (by simp; omega)⟩
    · exact ⟨(n, 1), mem_wheel_edges.mpr (by simp), mem_inc.mpr (by simp; omega)⟩
    · exact ⟨(n, 1), mem_wheel_edges.mpr (by simp), mem_inc.mpr (by simp; omega)⟩

theorem isSimple_wheel (n : Nat) (hn : 3 ≤ n) : IsSimple (wheel n).1 := by
  intro v _
  refine ⟨fun w hw => ⟨?_, ?_, ?_⟩, ?_⟩
  · rw [length_wheel n (by omega)]
    rcases mem_adj_wheel.mp hw with h | h | h | h | h | h <;> omega
  · rcases mem_adj_wheel.mp hw with h | h | h | h | h | h <;> omega
  · rw [mem_adj_wheel]
    rcases mem_adj_wheel.mp hw with h | h | h | h | h | h <;> omega
  · rw [adj_wheel]
    exact nodup_flatMap_inc v _ (wheel_edges_no_loop n hn) (wheel_edges_pairwise n hn)

end Wheel

namespace Wheel

theorem norm_ne {e e' : Nat × Nat} (h : e ≠ e' ∧ e ≠ (e'.2, e'.1)) : norm e ≠ norm e' := by
  obtain ⟨a, b⟩ := e
  obtain ⟨a', b'⟩ := e'
  obtain ⟨h1, h2⟩ := h
  simp only [ne_eq, Prod.mk.injEq, not_and] at h1 h2
  unfold norm
  simp only
  by_cases c1 : a < b <;> by_cases c2 : a' < b' <;>
    simp only [c1, c2, if_true, if_false, ne_eq, Prod.mk.injEq, not_and] <;> omega

theorem norm_of_lt {a b : Nat} (h : a < b) : norm (a, b) = (a, b) := by
  unfold norm
  rw [if_pos h]

theorem norm_of_not_lt {a b : Nat} (h : ¬ a < b) : norm (a, b) = (b, a) := by
  unfold norm
  rw [if_neg h]

theorem edges_wheel_perm (n : Nat) (hn : 3 ≤ n) :
    (edges (wheel n).1).Perm ((wheel_edges n).map norm) := by
  rw [List.perm_ext_iff_of_nodup (nodup_edges (isSimple_wheel n hn).nodup)
    ((wheel_edges_pairwise n hn).map norm fun a b h => norm_ne h)]
  rintro ⟨a, b⟩
  rw [mem_edges, length_wheel n (by omega), mem_adj_wheel, List.mem_map]
  constructor
  · rintro ⟨h1, h2, h3⟩
    simp only at h1 h2 h3
    rcases h2 with h | h | h | h | h | h
    · omega
    · obtain ⟨rfl, _, _⟩ := h
      exact ⟨(0, b), mem_wheel_edges.mpr (by simp; omega), norm_of_lt h3⟩
    · omega
    · obtain ⟨_, _, rfl⟩ := h
      exact ⟨(a, a + 1), mem_wheel_edges.mpr (by simp; omega), norm_of_lt h3⟩
    · obtain ⟨rfl, rfl⟩ := h
      exact ⟨(b, 1), mem_wheel_edges.mpr (by simp), norm_of_not_lt (by omega)⟩
    · omega
  · rintro ⟨⟨c, d⟩, he, hnorm⟩
    unfold norm at hnorm
    simp only at hnorm
    have he' := mem_wheel_edges.mp he
    simp only at he'
    by_cases hcd : c < d
    · rw [if_pos hcd] at hnorm
      injection hnorm with e1 e2
      subst e1; subst e2
      simp only
      rcases he' with h | h | h
      · exact ⟨by omega, by omega, hcd⟩
      · omega
      · exact ⟨by omega, by omega, hcd⟩
    · rw [if_neg hcd] at hnorm
      injection hnorm with e1 e2
      subst e1; subst e2
      simp only
      rcases he' with h | h | h
      · omega
      · exact ⟨by omega, by omega, by omega⟩
      · omega

theorem edge_count_wheel (n : Nat) (hn : 3 ≤ n) : edge_count (wheel n).1 = 2 * n := by
  unfold edge_count
  rw [(edges_wheel_perm n hn).length_eq, List.length_map, length_wheel_edges n (by omega)]

end Wheel

/-! ## Symmetries keep labelings graceful -/

namespace Graceful

theorem edgeLabel_swap (t : List Int) (a b : Nat) : edgeLabel t (a, b) = edgeLabel t (b, a) := by
  unfold edgeLabel
  simp only
  omega

theorem isGraceful_of_inj {G : Graph} (hG : IsSimple G) {t : List Int}
    (hlen : t.length = G.length) (hr : ∀ x ∈ t, 0 ≤ x ∧ x ≤ (edge_count G : Int))
    (hnd : t.Nodup)
    (hinj : ∀ e ∈ edges G, ∀ e' ∈ edges G, edgeLabel t e = edgeLabel t e' → e = e') :
    IsGraceful G t := by
  have hmem : ∀ v, v < G.length → t.getD v (-1) ∈ t := fun v hv =>
    mem_iff_getD.mpr ⟨v, by omega, rfl⟩
  apply GInv.isGraceful hG
  · refine ⟨hlen, fun v hv => ?_, fun v hv => ?_⟩
    · have := (hr _ (hmem v hv)).1
      omega
    · simp [List.getD_eq_getElem?_getD, List.getElem?_eq_none (by omega : t.length ≤ v)]
  · refine ⟨fun v hv => hr _ (hmem v hv), fun u v hu hv heq => ?_,
      fun e he e' he' _ _ heq => hinj e he e' he' heq⟩
    exact getD_inj_of_nodup hnd (by omega) (by omega) heq

theorem getD_relabel (σ : Nat → Nat) (f : List Int) {v : Nat} (hv : v < f.length) :
    (Wheel.relabel σ f).getD v (-1) = f.getD (σ v) (-1) := by
  unfold Wheel.relabel
  simp [List.getD_eq_getElem?_getD, List.getElem?_map, List.getElem?_range hv]

theorem length_relabel (σ : Nat → Nat) (f : List Int) : (Wheel.relabel σ f).length = f.length := by
  simp [Wheel.relabel]

/-- Relabeling along a symmetry of the graph keeps a labeling graceful. -/
theorem IsGraceful.relabel {G : Graph} (hG : IsSimple G) {σ : Nat → Nat} (hσ : IsAut G σ)
    {t : List Int} (ht : IsGraceful G t) : IsGraceful G (Wheel.relabel σ t) := by
  obtain ⟨hmap, hinj, hadj⟩ := hσ
  have htlen := ht.1
  have hget : ∀ v, v < G.length → (Wheel.relabel σ t).getD v (-1) = t.getD (σ v) (-1) :=
    fun v hv => getD_relabel σ t (by omega)
  apply isGraceful_of_inj hG
  · rw [length_relabel, htlen]
  · intro x hx
    obtain ⟨v, hv, rfl⟩ := mem_iff_getD.mp hx
    rw [length_relabel, htlen] at hv
    rw [hget v hv]
    exact ht.2.1 _ (mem_iff_getD.mpr ⟨σ v, by rw [htlen]; exact hmap v hv, rfl⟩)
  · apply nodup_of_getD_inj
    intro u v hu hv heq
    rw [length_relabel, htlen] at hu hv
    rw [hget u hu, hget v hv] at heq
    exact hinj u v hu hv
      (getD_inj_of_nodup ht.2.2.1 (by rw [htlen]; exact hmap u hu)
        (by rw [htlen]; exact hmap v hv) heq)
  · -- the image of an edge, as an edge
    have himg : ∀ e ∈ edges G, Wheel.norm (σ e.1, σ e.2) ∈ edges G ∧
        edgeLabel t (Wheel.norm (σ e.1, σ e.2)) = edgeLabel (Wheel.relabel σ t) e := by
      intro e he
      obtain ⟨h1, h2, h3⟩ := mem_edges.mp he
      have ha := hadj _ _ h2
      have hne : σ e.1 ≠ σ e.2 := fun h => by
        have := hinj _ _ (by omega) h1 h
        omega
      have hlab : edgeLabel (Wheel.relabel σ t) e = edgeLabel t (σ e.1, σ e.2) := by
        unfold edgeLabel
        rw [hget e.1 (by omega), hget e.2 h1]
      unfold Wheel.norm
      simp only
      by_cases hlt : σ e.1 < σ e.2
      · rw [if_pos hlt]
        exact ⟨mem_edges.mpr ⟨hmap _ h1, ha, hlt⟩, hlab.symm⟩
      · rw [if_neg hlt]
        refine ⟨mem_edges.mpr ⟨hmap _ (by omega), hG.symm _ _ ha, by simp only; omega⟩, ?_⟩
        rw [hlab, edgeLabel_swap]
    intro e he e' he' heq
    obtain ⟨m1, l1⟩ := himg e he
    obtain ⟨m2, l2⟩ := himg e' he'
    have := ht.edge_inj _ m1 _ m2 (by rw [l1, l2, heq])
    obtain ⟨_, _, h3⟩ := mem_edges.mp he
    obtain ⟨_, _, h3'⟩ := mem_edges.mp he'
    have b1 := (mem_edges.mp he).1
    have b2 := (mem_edges.mp he').1
    unfold Wheel.norm at this
    simp only at this
    by_cases c1 : σ e.1 < σ e.2 <;> by_cases c2 : σ e'.1 < σ e'.2 <;>
      simp only [c1, c2, if_true, if_false, Prod.mk.injEq] at this
    · exact Prod.ext (hinj _ _ (by omega) (by omega) this.1) (hinj _ _ b1 b2 this.2)
    · have q1 := hinj _ _ (by omega) b2 this.1
      have q2 := hinj _ _ b1 (by omega) this.2
      omega
    · have q1 := hinj _ _ b1 (by omega) this.1
      have q2 := hinj _ _ (by omega) b2 this.2
      omega
    · exact Prod.ext (hinj _ _ (by omega) (by omega) this.2) (hinj _ _ b1 b2 this.1)

end Graceful

theorem IsAut.id (G : Graph) : IsAut G (fun v => v) :=
  ⟨fun _ h => h, fun _ _ _ _ h => h, fun _ _ h => h⟩

theorem IsAut.comp {G : Graph} {σ τ : Nat → Nat} (hσ : IsAut G σ) (hτ : IsAut G τ) :
    IsAut G (τ ∘ σ) :=
  ⟨fun v hv => hτ.1 _ (hσ.1 v hv),
    fun u v hu hv h => hσ.2.1 u v hu hv (hτ.2.1 _ _ (hσ.1 u hu) (hσ.1 v hv) h),
    fun u v h => hτ.2.2 _ _ (hσ.2.2 u v h)⟩

theorem IsAut.iterate {G : Graph} {σ : Nat → Nat} (hσ : IsAut G σ) (r : Nat) :
    IsAut G (σ^[r]) := by
  induction r with
  | zero => exact IsAut.id G
  | succ r ih =>
    rw [Function.iterate_succ]
    exact hσ.comp ih

namespace Wheel

theorem isAut_rot1 (n : Nat) (hn : 3 ≤ n) : IsAut (wheel n).1 (rot1 n) := by
  rw [IsAut, length_wheel n (by omega)]
  refine ⟨fun v hv => ?_, fun u v hu hv h => ?_, fun u v h => ?_⟩
  · unfold rot1; split_ifs <;> omega
  · unfold rot1 at h; split_ifs at h <;> omega
  · rw [mem_adj_wheel] at h ⊢
    unfold rot1
    split_ifs <;> omega

theorem isAut_mirror (n : Nat) (hn : 3 ≤ n) : IsAut (wheel n).1 (mirror n) := by
  rw [IsAut, length_wheel n (by omega)]
  refine ⟨fun v hv => ?_, fun u v hu hv h => ?_, fun u v h => ?_⟩
  · unfold mirror; split_ifs <;> omega
  · unfold mirror at h; split_ifs at h <;> omega
  · rw [mem_adj_wheel] at h ⊢
    unfold mirror
    split_ifs <;> omega

theorem rot1_iterate_zero (n r : Nat) : (rot1 n)^[r] 0 = 0 := by
  induction r with
  | zero => rfl
  | succ r ih => rw [Function.iterate_succ_apply']; rw [ih]; simp [rot1]

theorem rot1_iterate_one (n r : Nat) (hr : r < n) : (rot1 n)^[r] 1 = r + 1 := by
  induction r with
  | zero => rfl
  | succ r ih =>
    rw [Function.iterate_succ_apply', ih (by omega)]
    unfold rot1
    rw [if_neg (by omega), if_neg (by omega)]

end Wheel

namespace Wheel

open Graceful

theorem lab0_getD (n : Nat) (hn : 1 ≤ n) :
    (lab0 n).getD 0 (-1) = 0 ∧ (lab0 n).getD 1 (-1) = 2 * (n : Int) ∧
      ∀ v, 2 ≤ v → (lab0 n).getD v (-1) = -1 := by
  unfold lab0
  refine ⟨?_, ?_, fun v hv => ?_⟩
  · rw [getD_set_of_ne _ _ _ _ _ (by omega), getD_set_self _ _ _ _ (by simp)]
  · rw [getD_set_self _ _ _ _ (by simp; omega)]
  · rw [getD_set_of_ne _ _ _ _ _ (by omega), getD_set_of_ne _ _ _ _ _ (by omega)]
    simp only [List.getD_eq_getElem?_getD, List.getElem?_replicate]
    split <;> rfl

theorem pre_lab0 (n : Nat) (hn : 1 ≤ n) : Pre (n + 1) 2 (lab0 n) := by
  obtain ⟨h0, h1, h2⟩ := lab0_getD n hn
  refine ⟨by simp [lab0], fun v hv => ?_, h2⟩
  have : v = 0 ∨ v = 1 := by omega
  rcases this with rfl | rfl
  · rw [h0]; omega
  · rw [h1]; omega

theorem einv_lab0 (n : Nat) (hn : 3 ≤ n) :
    EInv (wheel n).1 2 (lab0 n) (setInsert (2 * (n : Int)) []) := by
  obtain ⟨h0, h1, _⟩ := lab0_getD n (by omega)
  refine ⟨by simp [setInsert], fun y => ?_⟩
  simp only [setInsert, List.mem_singleton]
  constructor
  · rintro rfl
    refine ⟨(0, 1), mem_edges.mpr ⟨by rw [length_wheel n (by omega)]; omega, ?_, by simp⟩,
      by simp, ?_⟩
    · rw [mem_adj_wheel]
      exact Or.inr (Or.inl ⟨rfl, le_refl _, by omega⟩)
    · unfold edgeLabel
      simp only
      rw [h0, h1]
      omega
  · rintro ⟨⟨a, b⟩, he, he2, rfl⟩
    have := (mem_edges.mp he).2.2
    simp only at this he2
    have ha : a = 0 := by omega
    have hb : b = 1 := by omega
    subst ha; subst hb
    unfold edgeLabel
    simp only
    rw [h0, h1]
    omega

/-- What the wheel program saves and prints. -/
theorem wheel_generate_eq (n : Nat) (hn : 3 ≤ n) :
    generate_graceful_labeling (wheel n).1 ((wheel n).2 : Int) =
      some (sols (wheel n).1 (edge_count (wheel n).1 : Int) (n - 1) 2 (lab0 n)
          (setInsert (2 * (n : Int)) []),
        discard_complementary_labelings
          (sols (wheel n).1 (edge_count (wheel n).1 : Int) (n - 1) 2 (lab0 n)
            (setInsert (2 * (n : Int)) [])) n) := by
  have hlen := length_wheel n (by omega)
  unfold generate_graceful_labeling backtrack
  rw [hlen, wheel_snd n (by omega), edge_count_wheel n hn]
  have hlab : ((List.replicate (n + 1) (-1 : Int)).set 0 0).set 1
      (2 * (((n + 1 : Nat) : Int) - 1)) = lab0 n := by
    unfold lab0
    congr 1
    push_cast
    ring
  have hE : setInsert (2 * (((n + 1 : Nat) : Int) - 1)) [] = setInsert (2 * (n : Int)) [] := by
    congr 1
    push_cast
    ring
  rw [hlab, hE]
  have hpre : Pre (wheel n).1.length 2 (lab0 n) := by rw [hlen]; exact pre_lab0 n (by omega)
  have := graceful_backtrack_eq (wheel n).1 (fun v hv => (isSimple_wheel n hn).ne hv rfl)
    ((2 * n : Nat) : Int) (n + 1 + 1) 2 (lab0 n) (setInsert (2 * (n : Int)) []) [] hpre
    (by simp [setInsert]) (by rw [hlen]; omega) (by rw [hlen]; omega)
  rw [this, hlen]
  simp

/-- A graceful labeling of the wheel with hub 0 and label `2n` on vertex 1 is saved. -/
theorem mem_saved (n : Nat) (hn : 3 ≤ n) (g : List Int) (hg : IsGraceful (wheel n).1 g)
    (h0 : g.getD 0 (-1) = 0) (h1 : g.getD 1 (-1) = 2 * (n : Int)) :
    g ∈ sols (wheel n).1 (edge_count (wheel n).1 : Int) (n - 1) 2 (lab0 n)
      (setInsert (2 * (n : Int)) []) := by
  have hlen := length_wheel n (by omega)
  obtain ⟨l0, l1, _⟩ := lab0_getD n (by omega)
  have := graceful_sols_count (isSimple_wheel n hn) hg (n - 1) 2 (lab0 n) (setInsert (2 * (n : Int)) [])
    (by rw [hlen]; omega) (by rw [hlen]; exact pre_lab0 n (by omega)) (einv_lab0 n hn)
    (fun v hv => by
      have : v = 0 ∨ v = 1 := by omega
      rcases this with rfl | rfl
      · rw [l0, h0]
      · rw [l1, h1])
  exact List.count_pos_iff.mp (by omega)

/-- In a graceful labeling of the wheel with hub 0 some cycle vertex carries `2n`. -/
theorem exists_top (n : Nat) (hn : 3 ≤ n) (f : List Int) (hf : IsGraceful (wheel n).1 f)
    (h0 : f.getD 0 (-1) = 0) : ∃ j, 1 ≤ j ∧ j ≤ n ∧ f.getD j (-1) = 2 * (n : Int) := by
  have hlen := length_wheel n (by omega)
  have hm := edge_count_wheel n hn
  have htop : ((2 * n : Nat) : Int) ∈ (edges (wheel n).1).map (edgeLabel f) := by
    rw [hf.2.2.2.mem_iff, hm, mem_oneTo]
    omega
  obtain ⟨⟨a, b⟩, he, hlab⟩ := List.mem_map.mp htop
  obtain ⟨hb, hadj, hab⟩ := mem_edges.mp he
  simp only at hb hadj hab
  rw [hlen] at hb
  have ra := hf.2.1 _ (mem_iff_getD.mpr ⟨a, by rw [hf.1, hlen]; omega, rfl⟩)
  have rb := hf.2.1 _ (mem_iff_getD.mpr ⟨b, by rw [hf.1, hlen]; omega, rfl⟩)
  rw [hm] at ra rb
  unfold edgeLabel at hlab
  simp only at hlab
  have hcases : (f.getD a (-1) = 0 ∧ f.getD b (-1) = 2 * (n : Int)) ∨
      (f.getD b (-1) = 0 ∧ f.getD a (-1) = 2 * (n : Int)) := by
    omega
  rcases hcases with ⟨ha0, hb2⟩ | ⟨hb0, _⟩
  · exact ⟨b, by omega, by omega, hb2⟩
  · have := getD_inj_of_nodup hf.2.2.1 (by rw [hf.1, hlen]; omega)
      (by rw [hf.1, hlen]; omega) (hb0.trans h0.symm)
    omega

end Wheel

namespace Wheel

open Graceful

/-- C8: for `n ≥ 3`, every graceful labeling `f` of the wheel `W_n` whose hub label is 0
is turned, by a rotation of the outer cycle or by a rotation followed by the reflection
that fixes vertex 1, into one of the labelings that `generate_graceful_labeling` reports
after `discard_complementary_labelings`. -/
theorem wheel_labelings_covered (n : Nat) (hn : 3 ≤ n) (f : List Int)
    (hf : IsGraceful (wheel n).1 f) (h0 : f.getD 0 (-1) = 0) :
    ∃ saved reported,
      generate_graceful_labeling (wheel n).1 ((wheel n).2 : Int) = some (saved, reported) ∧
      ∃ g ∈ reported, ∃ r,
        g = relabel ((rot1 n)^[r]) f ∨ g = relabel ((rot1 n)^[r] ∘ mirror n) f := by
  have hG := isSimple_wheel n hn
  have hlen := length_wheel n (by omega)
  have hflen : f.length = n + 1 := by rw [hf.1, hlen]
  obtain ⟨j, hj1, hjn, hj⟩ := exists_top n hn f hf h0
  refine ⟨_, _, wheel_generate_eq n hn, ?_⟩
  -- rotate the label `2n` to vertex 1
  have hσ : IsAut (wheel n).1 ((rot1 n)^[j - 1]) := (isAut_rot1 n hn).iterate _
  have hg1 := hf.relabel hG hσ
  have hg1len : (relabel ((rot1 n)^[j - 1]) f).length = n + 1 := by
    rw [length_relabel, hflen]
  have hg1get : ∀ v, v < n + 1 →
      (relabel ((rot1 n)^[j - 1]) f).getD v (-1) = f.getD ((rot1 n)^[j - 1] v) (-1) :=
    fun v hv => getD_relabel _ f (by omega)
  have hg10 : (relabel ((rot1 n)^[j - 1]) f).getD 0 (-1) = 0 := by
    rw [hg1get 0 (by omega), rot1_iterate_zero, h0]
  have hg11 : (relabel ((rot1 n)^[j - 1]) f).getD 1 (-1) = 2 * (n : Int) := by
    rw [hg1get 1 (by omega), rot1_iterate_one n (j - 1) (by omega),
      show j - 1 + 1 = j by omega, hj]
  -- its mirror
  have hg2 := hg1.relabel hG (isAut_mirror n hn)
  have hg2get : ∀ v, v < n + 1 →
      (relabel (mirror n) (relabel ((rot1 n)^[j - 1]) f)).getD v (-1) =
        (relabel ((rot1 n)^[j - 1]) f).getD (mirror n v) (-1) :=
    fun v hv => getD_relabel _ _ (by omega)
  have hg20 : (relabel (mirror n) (relabel ((rot1 n)^[j - 1]) f)).getD 0 (-1) =
      (relabel ((rot1 n)^[j - 1]) f).getD 0 (-1) := by
    rw [hg2get 0 (by omega)]; rfl
  have hg21 : (relabel (mirror n) (relabel ((rot1 n)^[j - 1]) f)).getD 1 (-1) =
      (relabel ((rot1 n)^[j - 1]) f).getD 1 (-1) := by
    rw [hg2get 1 (by omega)]; rfl
  have hg2m : ∀ k, k ≤ n → 2 ≤ k →
      (relabel (mirror n) (relabel ((rot1 n)^[j - 1]) f)).getD k (-1) =
        (relabel ((rot1 n)^[j - 1]) f).getD (n + 2 - k) (-1) := by
    intro k hk1 hk2
    rw [hg2get k (by omega)]
    unfold mirror
    rw [if_neg (by omega)]
  have hcomp : relabel (mirror n) (relabel ((rot1 n)^[j - 1]) f) =
      relabel ((rot1 n)^[j - 1] ∘ mirror n) f := by
    apply ext_getD (by rw [length_relabel, length_relabel, length_relabel])
    intro i hi
    rw [length_relabel, hg1len] at hi
    have hmi : mirror n i < n + 1 := by unfold mirror; split_ifs <;> omega
    rw [hg2get i hi, hg1get _ hmi, getD_relabel _ f (by omega)]
    rfl
  have hne : relabel ((rot1 n)^[j - 1]) f ≠
      relabel (mirror n) (relabel ((rot1 n)^[j - 1]) f) := by
    intro heq
    have h2 := hg2m 2 (by omega) (le_refl _)
    rw [← heq] at h2
    have := getD_inj_of_nodup hg1.2.2.1 (by omega) (by omega) h2
    omega
  -- both are saved, one of them is reported
  have hs1 := mem_saved n hn _ hg1 hg10 hg11
  have hs2 := mem_saved n hn _ hg2 (hg20.trans hg10) (hg21.trans hg11)
  have hall : ∀ X ∈ sols (wheel n).1 (edge_count (wheel n).1 : Int) (n - 1) 2 (lab0 n)
      (setInsert (2 * (n : Int)) []), X.length = n + 1 := by
    intro X hX
    rw [(graceful_sols_agree _ _ _ _ _ _ X hX).1]
    simp [lab0]
  rcases mirror_pair_reported n _ hall _ _ hs1 hs2 hg20 hg21 hg2m hne with ⟨h, _⟩ | ⟨h, _⟩
  · exact ⟨_, h, j - 1, Or.inl rfl⟩
  · exact ⟨_, h, j - 1, Or.inr hcomp⟩

theorem wheel_labelings_covered_witness :
    3 ≤ 3 ∧ IsGraceful (wheel 3).1 [0, 1, 4, 6] ∧ ([0, 1, 4, 6] : List Int).getD 0 (-1) = 0 ∧
    ∃ saved reported,
      generate_graceful_labeling (wheel 3).1 ((wheel 3).2 : Int) = some (saved, reported) ∧
      ∃ g ∈ reported, ∃ r,
        g = relabel ((rot1 3)^[r]) [0, 1, 4, 6] ∨
          g = relabel ((rot1 3)^[r] ∘ mirror 3) [0, 1, 4, 6] :=
  ⟨by decide, by decide, by decide,
    wheel_labelings_covered 3 (by decide) [0, 1, 4, 6] (by decide) (by decide)⟩

end Wheel

namespace Wheel

open Graceful

/-- C13: for every `n ≥ 3`, `create_wheel_graph(G, n)` on an empty graph gives a graph with
exactly the `n + 1` vertices `0..n` and sets `number_of_edges` from 0 to `2n`; adjacency is
symmetric, vertex 0 is adjacent to exactly `1..n`, every outer vertex `i` is adjacent to
exactly the hub and its two cycle neighbours (`n` and `1` being neighbours), and no
neighbour is listed twice. -/
theorem create_wheel_graph_spec (n : Nat) (hn : 3 ≤ n) :
    (create_wheel_graph [] 0 n).1.length = n + 1 ∧
    (create_wheel_graph [] 0 n).2 = 2 * n ∧
    (∀ u v, v ∈ adj (create_wheel_graph [] 0 n).1 u → u ∈ adj (create_wheel_graph [] 0 n).1 v) ∧
    (∀ v, v ∈ adj (create_wheel_graph [] 0 n).1 0 ↔ 1 ≤ v ∧ v ≤ n) ∧
    (∀ i v, 1 ≤ i → i ≤ n →
      (v ∈ adj (create_wheel_graph [] 0 n).1 i ↔
        v = 0 ∨ v = (if i = 1 then n else i - 1) ∨ v = (if i = n then 1 else i + 1))) ∧
    ∀ u, (adj (create_wheel_graph [] 0 n).1 u).Nodup := by
  have hG := isSimple_wheel n hn
  refine ⟨length_wheel n (by omega), wheel_snd n (by omega), hG.symm, fun v => ?_,
    fun i v h1 h2 => ?_, hG.nodup⟩
  · show v ∈ adj (wheel n).1 0 ↔ _
    rw [mem_adj_wheel]
    omega
  · show v ∈ adj (wheel n).1 i ↔ _
    rw [mem_adj_wheel]
    split_ifs <;> omega

theorem create_wheel_graph_spec_witness :
    3 ≤ 4 ∧
    (create_wheel_graph [] 0 4).1.length = 4 + 1 ∧
    (create_wheel_graph [] 0 4).2 = 2 * 4 ∧
    (∀ u v, v ∈ adj (create_wheel_graph [] 0 4).1 u → u ∈ adj (create_wheel_graph [] 0 4).1 v) ∧
    (∀ v, v ∈ adj (create_wheel_graph [] 0 4).1 0 ↔ 1 ≤ v ∧ v ≤ 4) ∧
    (∀ i v, 1 ≤ i → i ≤ 4 →
      (v ∈ adj (create_wheel_graph [] 0 4).1 i ↔
        v = 0 ∨ v = (if i = 1 then 4 else i - 1) ∨ v = (if i = 4 then 1 else i + 1))) ∧
    ∀ u, (adj (create_wheel_graph [] 0 4).1 u).Nodup :=
  ⟨by decide, create_wheel_graph_spec 4 (by decide)⟩

/-- C11: for the wheel built by `create_wheel_graph(G, 4)` (8 edges),
`generate_graceful_labeling` saves `[0,8,1,5,2]`, `[0,8,2,5,1]`, `[0,8,3,7,6]`,
`[0,8,6,7,3]` in that order and reports exactly `[0,8,1,5,2]` and `[0,8,3,7,6]`
(total 2); each reported labeling is graceful for `W_4` and starts `[0,8,...]`. -/
theorem wheel_four_scenario :
    create_wheel_graph [] 0 4 = ([[1, 2, 3, 4], [2, 4, 0], [1, 3, 0], [2, 4, 0], [3, 1, 0]], 8) ∧
    generate_graceful_labeling (create_wheel_graph [] 0 4).1
        ((create_wheel_graph [] 0 4).2 : Int) =
      some ([[0, 8, 1, 5, 2], [0, 8, 2, 5, 1], [0, 8, 3, 7, 6], [0, 8, 6, 7, 3]],
        [[0, 8, 1, 5, 2], [0, 8, 3, 7, 6]]) ∧
    ([[0, 8, 1, 5, 2], [0, 8, 3, 7, 6]] : List (List Int)).length = 2 ∧
    ∀ s ∈ ([[0, 8, 1, 5, 2], [0, 8, 3, 7, 6]] : List (List Int)),
      IsGraceful (create_wheel_graph [] 0 4).1 s ∧ s.getD 0 (-1) = 0 ∧ s.getD 1 (-1) = 8 := by
  refine ⟨by decide, ?_, by decide, ?_⟩
  · set_option maxRecDepth 1000000 in decide
  · set_option maxRecDepth 1000000 in decide

/-- C17, as the code has it: the complementary test holds exactly when
`B[k] = A[n+2-k]` for every outer position `k` in `2..n` other than the middle position
`n/2 + 1` of an even `n`; for odd `n` this is the mirror reflection. -/
theorem complementary_flag_iff_mirror_off_middle (n : Nat) (A B : List Int) :
    (complementary_flag n A B = true ↔
      ∀ k, 2 ≤ k → k ≤ n → (n % 2 = 0 → k ≠ n / 2 + 1) →
        B.getD k (-1) = A.getD (n + 2 - k) (-1)) ∧
    (n % 2 = 1 →
      (complementary_flag n A B = true ↔
        ∀ k, 2 ≤ k → k ≤ n → B.getD k (-1) = A.getD (n + 2 - k) (-1))) := by
  have key : complementary_flag n A B = true ↔
      ∀ k, 2 ≤ k → k ≤ n → (n % 2 = 0 → k ≠ n / 2 + 1) →
        B.getD k (-1) = A.getD (n + 2 - k) (-1) := by
    rw [complementary_flag_iff]
    constructor
    · intro h k h1 h2 hmid
      by_cases hk : k ≤ (n + 1) / 2
      · exact (h k h1 hk).2
      · have hk' : n + 2 - k ≤ (n + 1) / 2 := by
          by_cases hpar : n % 2 = 0
          · have := hmid hpar
            omega
          · omega
        have := (h (n + 2 - k) (by omega) hk').1
        rw [show n + 2 - (n + 2 - k) = k by omega] at this
        exact this.symm
    · intro h k h1 h2
      refine ⟨?_, h k h1 (by omega) (by omega)⟩
      have := h (n + 2 - k) (by omega) (by omega) (by omega)
      rw [show n + 2 - (n + 2 - k) = k by omega] at this
      exact this.symm
  refine ⟨key, fun hodd => ?_⟩
  rw [key]
  constructor
  · intro h k h1 h2
    exact h k h1 h2 (by omega)
  · intro h k h1 h2 _
    exact h k h1 h2

/-- C17 fails as stated: among the graceful labelings of `W_8` that the wheel search
saves, `[0,16,3,11,7,2,14,15,6]` and `[0,16,6,15,14,12,7,11,3]` pass the complementary
test although they differ from each other's mirror at the middle position 5. -/
theorem complementary_flag_not_mirror :
    ∃ saved reported,
      generate_graceful_labeling (wheel 8).1 ((wheel 8).2 : Int) = some (saved, reported) ∧
      [0, 16, 3, 11, 7, 2, 14, 15, 6] ∈ saved ∧ [0, 16, 6, 15, 14, 12, 7, 11, 3] ∈ saved ∧
      complementary_flag 8 [0, 16, 3, 11, 7, 2, 14, 15, 6]
        [0, 16, 6, 15, 14, 12, 7, 11, 3] = true ∧
      ¬ ∀ k, 2 ≤ k → k ≤ 8 →
        ([0, 16, 6, 15, 14, 12, 7, 11, 3] : List Int).getD k (-1) =
          ([0, 16, 3, 11, 7, 2, 14, 15, 6] : List Int).getD (8 + 2 - k) (-1) := by
  have hA : IsGraceful (wheel 8).1 [0, 16, 3, 11, 7, 2, 14, 15, 6] := by
    set_option maxRecDepth 1000000 in decide
  have hB : IsGraceful (wheel 8).1 [0, 16, 6, 15, 14, 12, 7, 11, 3] := by
    set_option maxRecDepth 1000000 in decide
  refine ⟨_, _, wheel_generate_eq 8 (by decide), mem_saved 8 (by decide) _ hA (by decide)
    (by decide), mem_saved 8 (by decide) _ hB (by decide) (by decide), by decide, ?_⟩
  intro h
  exact absurd (h 5 (by decide) (by decide)) (by decide)

end Wheel

namespace Graceful

/-! ## The triangle -/

/-- C12 fails as stated: on the triangle the search prints `[0,1,3]`, whose labels are not
a permutation of `{0,1,2}`. -/
theorem triangle_labels_not_perm :
    ∃ out, generate_graceful_labeling triangle 3 = some out ∧
      ∃ s ∈ out, ¬ s.Perm [0, 1, 2] := by
  refine ⟨[[0, 1, 3], [0, 2, 3], [0, 3, 1], [0, 3, 2], [1, 0, 3], [1, 3, 0], [2, 0, 3],
    [2, 3, 0], [3, 0, 1], [3, 0, 2], [3, 1, 0], [3, 2, 0]], ?_, [0, 1, 3], by decide, by decide⟩
  set_option maxRecDepth 1000000 in decide

/-- C12, as the code has it: on the triangle (adjacency lists `[1,2]`, `[0,2]`, `[1,0]`,
`m = 3`) the search prints twelve labelings; each has three pairwise distinct labels within
`[0,3]`, and its induced edge differences are a permutation of `{1,2,3}`. -/
theorem triangle_scenario :
    triangle = [[1, 2], [0, 2], [1, 0]] ∧ edge_count triangle = 3 ∧
    generate_graceful_labeling triangle 3 =
      some [[0, 1, 3], [0, 2, 3], [0, 3, 1], [0, 3, 2], [1, 0, 3], [1, 3, 0], [2, 0, 3],
        [2, 3, 0], [3, 0, 1], [3, 0, 2], [3, 1, 0], [3, 2, 0]] ∧
    ∀ s ∈ ([[0, 1, 3], [0, 2, 3], [0, 3, 1], [0, 3, 2], [1, 0, 3], [1, 3, 0], [2, 0, 3],
        [2, 3, 0], [3, 0, 1], [3, 0, 2], [3, 1, 0], [3, 2, 0]] : List (List Int)),
      s.length = 3 ∧ s.Nodup ∧ (∀ x ∈ s, 0 ≤ x ∧ x ≤ 3) ∧
        ((edges triangle).map (edgeLabel s)).Perm [1, 2, 3] := by
  refine ⟨by decide, by decide, ?_, ?_⟩
  · set_option maxRecDepth 1000000 in decide
  · set_option maxRecDepth 1000000 in decide

/-! ## The log of calls -/

theorem loopT_erase (G : Graph) (index : Nat) (rec : St → Option (Bool × St))
    (recT : St × List Entry → Option (Bool × St × List Entry))
    (h : ∀ st log, (recT (st, log)).map (fun r => (r.1, r.2.1)) = rec st) :
    ∀ (cs : List Int) (st : St) (log : List Entry),
      (loopT G index recT cs (st, log)).map (fun r => (r.1, r.2.1)) = loop G index rec cs st := by
  intro cs
  induction cs with
  | nil => intro st log; simp [loopT, loop]
  | cons c cs ih =>
    intro st log
    rw [loopT, loop]
    by_cases hsafe : label_is_safe c G index st.labeling st.edgeLabels = true
    · simp only [hsafe, if_true]
      have := h ⟨st.labeling.set index c,
        insert_edge_labels (st.labeling.set index c) index (adj G index) st.edgeLabels,
        st.out⟩ log
      rw [← this]
      cases recT (⟨st.labeling.set index c,
        insert_edge_labels (st.labeling.set index c) index (adj G index) st.edgeLabels,
        st.out⟩, log) with
      | none => rfl
      | some r =>
        obtain ⟨b, st1, log1⟩ := r
        simp only [Option.map_some']
        exact ih _ _
    · simp only [hsafe]
      exact ih st log

/-- Forgetting the log of the instrumented search gives `backtrack`. -/
theorem backtrackT_erase (G : Graph) (nEdges : Int) : ∀ (fuel index : Nat) (st : St)
    (log : List Entry),
    (backtrackT G nEdges fuel index (st, log)).map (fun r => (r.1, r.2.1)) =
      backtrack G nEdges fuel index st := by
  intro fuel
  induction fuel with
  | zero => intro index st log; rfl
  | succ fuel ih =>
    intro index st log
    rw [backtrackT, backtrack]
    by_cases hsol : is_a_solution st.labeling = true
    · simp [hsol]
    · simp only [hsol]
      exact loopT_erase G index _ _ (fun st' log' => ih (index + 1) st' log') _ st _

theorem entryOK_of {G : Graph} {index : Nat} {lab E : List Int}
    (hpre : Pre G.length index lab) (hE : EInv G index lab E) : EntryOK G ⟨index, lab, E⟩ := by
  refine ⟨hpre, hE.1, fun y => ?_⟩
  rw [hE.2 y]
  constructor
  · rintro ⟨e, he, he2, rfl⟩
    have := (mem_edges.mp he).2.2
    exact ⟨e, he, hpre.2.1 _ (by omega), hpre.2.1 _ he2, rfl⟩
  · rintro ⟨e, he, _, h2, rfl⟩
    exact ⟨e, he, (labeled_iff hpre).mp h2, rfl⟩

theorem loopT_entries (G : Graph) (index : Nat)
    (recT : St × List Entry → Option (Bool × St × List Entry)) (lab E : List Int)
    (hset : ∀ l, (lab.set index l).set index (-1) = lab)
    (hundo : ∀ l, label_is_safe l G index lab E = true →
      erase_edge_labels l lab (adj G index)
        (insert_edge_labels (lab.set index l) index (adj G index) E) = E) :
    ∀ (cs : List Int),
      (∀ l ∈ cs, label_is_safe l G index lab E = true →
        ∀ out log, ∃ b out' L, recT (⟨lab.set index l,
            insert_edge_labels (lab.set index l) index (adj G index) E, out⟩, log) =
          some (b, ⟨lab.set index l,
            insert_edge_labels (lab.set index l) index (adj G index) E, out'⟩, log ++ L) ∧
          ∀ e ∈ L, EntryOK G e) →
      ∀ out log, ∃ out' L, loopT G index recT cs (⟨lab, E, out⟩, log) =
        some (false, ⟨lab, E, out'⟩, log ++ L) ∧ ∀ e ∈ L, EntryOK G e := by
  intro cs
  induction cs with
  | nil => intro _ out log; exact ⟨out, [], by simp [loopT], by simp⟩
  | cons c cs ih =>
    intro hrec out log
    have ih' := ih (fun l hl => hrec l (List.mem_cons_of_mem _ hl))
    rw [loopT]
    by_cases hsafe : label_is_safe c G index lab E = true
    · simp only [hsafe, if_true]
      obtain ⟨b, out1, L1, h1, hok1⟩ := hrec c (List.mem_cons_self _ _) hsafe out log
      rw [h1]
      simp only [hset, hundo c hsafe]
      obtain ⟨out2, L2, h2, hok2⟩ := ih' out1 (log ++ L1)
      refine ⟨out2, L1 ++ L2, by rw [h2, List.append_assoc], ?_⟩
      intro e he
      rcases List.mem_append.mp he with he | he
      · exact hok1 e he
      · exact hok2 e he
    · simp only [hsafe]
      exact ih' out log

theorem backtrackT_entries (G : Graph) (hG : IsSimple G) (nEdges : Int) :
    ∀ (fuel index : Nat) (lab E : List Int) (out : List (List Int)) (log : List Entry),
    Pre G.length index lab → EInv G index lab E → index ≤ G.length →
    G.length - index < fuel →
    ∃ b out' L, backtrackT G nEdges fuel index (⟨lab, E, out⟩, log) =
        some (b, ⟨lab, E, out'⟩, log ++ L) ∧ L ≠ [] ∧ ∀ e ∈ L, EntryOK G e := by
  intro fuel
  induction fuel with
  | zero => intro index lab E out log _ _ _ h; omega
  | succ fuel ih =>
    intro index lab E out log hpre hE hle hfuel
    rw [backtrackT]
    have hok := entryOK_of hpre hE
    by_cases hsol : is_a_solution lab = true
    · refine ⟨true, out ++ [lab], [⟨index, lab, E⟩], by simp [hsol], by simp, ?_⟩
      intro e he
      rw [List.mem_singleton] at he
      rw [he]
      exact hok
    · have hn : index < G.length := by
        by_contra hc
        exact hsol ((is_a_solution_iff hpre).mpr (by omega))
      simp only [hsol]
      obtain ⟨out', L, h, hokL⟩ := loopT_entries G index
        (backtrackT G nEdges fuel (index + 1)) lab E
        (fun l => hpre.restore hn l)
        (fun l hsafe => undo_edge_labels G index lab E l hE.1 (fun h => hG.ne h rfl)
          (by rw [hpre.1]; exact hn) ((graceful_safe_iff l G index lab E).mp hsafe).2.1)
        (candidates nEdges)
        (fun l hl _ out1 log1 => by
          obtain ⟨b, out2, L2, h2, _, hok2⟩ := ih (index + 1) (lab.set index l)
            (insert_edge_labels (lab.set index l) index (adj G index) E) out1 log1
            (hpre.set hn (candidates_ne_neg_one hl)) (hE.step_einv hG hpre hn l)
            (by omega) (by omega)
          exact ⟨b, out2, L2, h2, hok2⟩)
        out (log ++ [⟨index, lab, E⟩])
      refine ⟨false, out', ⟨index, lab, E⟩ :: L, ?_, by simp, ?_⟩
      · rw [h]; simp
      · intro e he
        rcases List.mem_cons.mp he with he | he
        · rw [he]; exact hok
        · exact hokL e he

/-- C15: for a simple undirected graph, the calls of `backtrack` that
`generate_graceful_labeling` makes (the log of the instrumented search, which computes what
`backtrack` computes) all satisfy the invariant: exactly the slots `0..index-1` of
`labeling` are set, and `edgeLabels` holds exactly the values `|labeling[u]-labeling[v]|`
over the edges whose endpoints are both labeled. -/
theorem edgeLabels_invariant (G : Graph) (hG : IsSimple G) (nEdges : Int) :
    (∀ fuel index st log,
      (backtrackT G nEdges fuel index (st, log)).map (fun r => (r.1, r.2.1)) =
        backtrack G nEdges fuel index st) ∧
    ∃ log, entries G nEdges = some log ∧ log ≠ [] ∧ ∀ e ∈ log, EntryOK G e := by
  refine ⟨backtrackT_erase G nEdges, ?_⟩
  obtain ⟨b, out', L, h, hne, hok⟩ := backtrackT_entries G hG nEdges (G.length + 1) 0
    (List.replicate G.length (-1)) [] [] [] (pre_replicate _) (EInv.init_einv G)
    (Nat.zero_le _) (by omega)
  refine ⟨L, ?_, hne, hok⟩
  unfold entries
  rw [h]
  simp

theorem edgeLabels_invariant_witness :
    IsSimple triangle ∧
    ((∀ fuel index st log,
      (backtrackT triangle 3 fuel index (st, log)).map (fun r => (r.1, r.2.1)) =
        backtrack triangle 3 fuel index st) ∧
    ∃ log, entries triangle 3 = some log ∧ log ≠ [] ∧ ∀ e ∈ log, EntryOK triangle e) :=
  ⟨by decide, edgeLabels_invariant triangle (by decide) 3⟩

/-- C16: for a simple undirected graph and a state in which exactly the slots below
`index` are set and `edgeLabels` is the set of realized differences, a call of `backtrack`
at `index` (in `graceful_labeling.cpp` and in the wheel program) returns with `labeling`
and `edgeLabels` as at entry; and for each safe candidate `l` the erase loop, run after
the slot is reset, removes exactly what the insert loop added. -/
theorem backtrack_restores_state (G : Graph) (hG : IsSimple G) (nEdges : Int) (index : Nat)
    (lab E : List Int) (out : List (List Int)) (hpre : Pre G.length index lab)
    (hE : EInv G index lab E) (hi : index ≤ G.length) :
    (∀ fuel, G.length - index < fuel →
      ∃ b out', backtrack G nEdges fuel index ⟨lab, E, out⟩ = some (b, ⟨lab, E, out'⟩) ∧
        Wheel.backtrack G nEdges fuel index ⟨lab, E, out⟩ = some (b, ⟨lab, E, out'⟩)) ∧
    ∀ l, index < G.length → label_is_safe l G index lab E = true →
      erase_edge_labels l ((lab.set index l).set index (-1)) (adj G index)
        (insert_edge_labels (lab.set index l) index (adj G index) E) = E := by
  constructor
  · intro fuel hfuel
    have := graceful_backtrack_eq G (fun v hv => hG.ne hv rfl) nEdges fuel index lab E out hpre
      hE.1 hi hfuel
    exact ⟨_, _, this, this⟩
  · intro l hn hsafe
    rw [hpre.restore hn l]
    exact undo_edge_labels G index lab E l hE.1 (fun h => hG.ne h rfl)
      (by rw [hpre.1]; exact hn) ((graceful_safe_iff l G index lab E).mp hsafe).2.1

theorem backtrack_restores_state_witness :
    IsSimple triangle ∧ Pre triangle.length 1 [2, -1, -1] ∧ EInv triangle 1 [2, -1, -1] [] ∧
    1 ≤ triangle.length ∧
    ((∀ fuel, triangle.length - 1 < fuel →
      ∃ b out', backtrack triangle 3 fuel 1 ⟨[2, -1, -1], [], []⟩ =
          some (b, ⟨[2, -1, -1], [], out'⟩) ∧
        Wheel.backtrack triangle 3 fuel 1 ⟨[2, -1, -1], [], []⟩ =
          some (b, ⟨[2, -1, -1], [], out'⟩)) ∧
    ∀ l, 1 < triangle.length → label_is_safe l triangle 1 [2, -1, -1] [] = true →
      erase_edge_labels l (([2, -1, -1] : List Int).set 1 l |>.set 1 (-1)) (adj triangle 1)
        (insert_edge_labels (([2, -1, -1] : List Int).set 1 l) 1 (adj triangle 1) []) = []) :=
  have hpre : Pre triangle.length 1 [2, -1, -1] :=
    (pre_replicate 3).set (by decide) (by decide : (2 : Int) ≠ -1)
  have hE : EInv triangle 1 [2, -1, -1] [] :=
    ⟨List.sorted_nil, fun y => ⟨fun h => absurd h (List.not_mem_nil _), fun ⟨e, he, he2, _⟩ => by
      have := (mem_edges.mp he).2.2
      omega⟩⟩
  ⟨by decide, hpre, hE, by decide,
    backtrack_restores_state triangle (by decide) 3 1 [2, -1, -1] [] [] hpre hE (by decide)⟩

end Graceful

namespace Subsets

theorem backtrack_max_faults : ∀ (fuel k : Nat) (a : List Int) (out : List (List Nat)),
    a.length = MAX → k < MAX → MAX - k ≤ fuel →
    backtrack MAX fuel k ⟨a, out⟩ = .error .outOfBounds := by
  intro fuel
  induction fuel with
  | zero => intro k a out _ hk hf; omega
  | succ fuel ih =>
    intro k a out ha hk hf
    rw [backtrack, if_neg (by omega)]
    simp only [construct_candidates, loop]
    by_cases hlast : k + 1 < MAX
    · rw [if_pos (by rw [ha]; exact hlast),
        ih (k + 1) (a.set (k + 1) 1) out (by rw [List.length_set, ha]) hlast (by omega)]
    · rw [if_neg (by rw [ha]; exact hlast)]

/-- C14 fails at `n = 50`, the largest size the file header admits: whatever the array
holds initially, `generate_subsets(50)` writes `a[50]`, outside the `MAX = 50` slots
`0..49` (the slots used are `1..n`). -/
theorem generate_subsets_out_of_bounds (a0 : List Int) (ha : a0.length = MAX) :
    generate_subsets a0 50 = .error .outOfBounds := by
  unfold generate_subsets
  rw [show (50 : Nat) = MAX from rfl,
    backtrack_max_faults (MAX + 1) 0 a0 [] ha (by decide) (by omega)]

theorem generate_subsets_out_of_bounds_witness :
    (List.replicate 50 (0 : Int)).length = MAX ∧
    generate_subsets (List.replicate 50 0) 50 = .error .outOfBounds :=
  ⟨by decide, generate_subsets_out_of_bounds (List.replicate 50 0) (by decide)⟩

end Subsets

/-! ## Lexicographic order of the output -/

theorem lex_of_agree : ∀ (i : Nat) (s t : List Int), i < s.length → i < t.length →
    (∀ j, j < i → s.getD j (-1) = t.getD j (-1)) → s.getD i (-1) < t.getD i (-1) →
    List.Lex (· < ·) s t := by
  intro i
  induction i with
  | zero =>
    intro s t hs ht _ hlt
    cases s with
    | nil => simp at hs
    | cons a s =>
      cases t with
      | nil => simp at ht
      | cons b t =>
        simp only [List.getD_cons_zero] at hlt
        exact List.Lex.rel hlt
  | succ i ih =>
    intro s t hs ht hag hlt
    cases s with
    | nil => simp at hs
    | cons a s =>
      cases t with
      | nil => simp at ht
      | cons b t =>
        have h0 := hag 0 (by omega)
        simp only [List.getD_cons_zero] at h0
        subst h0
        simp only [List.getD_cons_succ] at hlt
        simp only [List.length_cons] at hs ht
        refine List.Lex.cons (ih s t (by omega) (by omega) (fun j hj => ?_) hlt)
        have := hag (j + 1) (by omega)
        simpa only [List.getD_cons_succ] using this

theorem pairwise_candidates (bound : Int) : (candidates bound).Pairwise (· < ·) := by
  unfold candidates
  rw [List.pairwise_map]
  refine List.Pairwise.imp ?_ (List.pairwise_lt_range _)
  intro a b hab
  exact Int.ofNat_lt.mpr hab

/-- Blocks of labelings that extend the same slots below `index` and carry ascending
labels at `index` are in ascending lexicographic order. -/
theorem pairwise_flatMap_lex (index : Nat) (lab : List Int) (f : Int → List (List Int))
    (hlen : index < lab.length)
    (hf : ∀ l, ∀ s ∈ f l, s.length = lab.length ∧ s.getD index (-1) = l ∧
      ∀ v, v < index → s.getD v (-1) = lab.getD v (-1))
    (hpw : ∀ l, (f l).Pairwise (List.Lex (· < ·))) :
    ∀ (cs : List Int), cs.Pairwise (· < ·) →
      (cs.flatMap f).Pairwise (List.Lex (· < ·)) := by
  intro cs
  induction cs with
  | nil => intro _; simp
  | cons c cs ih =>
    intro hcs
    rw [List.pairwise_cons] at hcs
    rw [List.flatMap_cons, List.pairwise_append]
    refine ⟨hpw c, ih hcs.2, ?_⟩
    intro s hs t ht
    obtain ⟨c', hc', ht'⟩ := List.mem_flatMap.mp ht
    obtain ⟨s1, s2, s3⟩ := hf c s hs
    obtain ⟨t1, t2, t3⟩ := hf c' t ht'
    refine lex_of_agree index s t (by omega) (by omega) (fun j hj => ?_) ?_
    · rw [s3 j hj, t3 j hj]
    · rw [s2, t2]
      exact hcs.1 c' hc'

namespace L321

theorem l321_sols_lex (G : Graph) (maxLabel : Int) : ∀ (k index : Nat) (lab : List Int),
    index + k = lab.length → (sols G maxLabel k index lab).Pairwise (List.Lex (· < ·)) := by
  intro k
  induction k with
  | zero => intro index lab _; simp [sols]
  | succ k ih =>
    intro index lab hk
    rw [sols]
    apply pairwise_flatMap_lex index lab _ (by omega) _ _ _ (pairwise_candidates _)
    · intro l s hs
      by_cases hsafe : label_is_safe l G index lab = true
      · simp only [hsafe, if_true] at hs
        obtain ⟨h1, h2⟩ := l321_sols_agree G maxLabel k (index + 1) _ s hs
        refine ⟨by simpa using h1, ?_, fun v hv => ?_⟩
        · rw [h2 index (by omega), getD_set_self _ _ _ _ (by omega)]
        · rw [h2 v (by omega), getD_set_of_ne _ _ _ _ _ (by omega)]
      · simp [hsafe] at hs
    · intro l
      by_cases hsafe : label_is_safe l G index lab = true
      · simp only [hsafe, if_true]
        exact ih (index + 1) _ (by simp; omega)
      · simp [hsafe]

/-- C18: for a simple undirected graph, a vertex `index`, a candidate `l ≥ 0` and a
partial labeling whose slot `index` is unset, `label_is_safe` returns true exactly when
every labeled vertex `w` at graph distance `d` in `{1,2,3}` from `index` has
`|l - labeling[w]| ≥ 4 - d`. -/
theorem label_is_safe_iff_distance (G : Graph) (_hG : IsSimple G) (index : Nat) (l : Int)
    (_hl : 0 ≤ l) (labeling : List Int) (hunset : labeling.getD index (-1) = -1) :
    label_is_safe l G index labeling = true ↔
      ∀ w d, 1 ≤ d → d ≤ 3 → distIs G d index w → labeling.getD w (-1) ≠ -1 →
        4 - d ≤ (l - labeling.getD w (-1)).natAbs := by
  rw [safe_iff_walks]
  constructor
  · intro h w d hd1 hd3 hdist hw
    exact h d w hd1 hd3 hdist.1 hw
  · intro h d w hd1 hd3 hreach hw
    have hne : index ≠ w := by
      rintro rfl
      exact hw hunset
    obtain ⟨e, he1, hed, hdist⟩ := exists_dist_of_reach hd3 hne hreach
    have := h w e he1 (by omega) hdist hw
    omega

theorem label_is_safe_iff_distance_witness :
    IsSimple [[1], [0, 2], [1]] ∧ (0 : Int) ≤ 4 ∧
    ([3, -1, -1] : List Int).getD 2 (-1) = -1 ∧
    (label_is_safe 4 [[1], [0, 2], [1]] 2 [3, -1, -1] = true ↔
      ∀ w d, 1 ≤ d → d ≤ 3 → distIs [[1], [0, 2], [1]] d 2 w →
        ([3, -1, -1] : List Int).getD w (-1) ≠ -1 →
        4 - d ≤ (4 - ([3, -1, -1] : List Int).getD w (-1)).natAbs) :=
  ⟨by decide, by decide, by decide,
    label_is_safe_iff_distance [[1], [0, 2], [1]] (by decide) 2 4 (by decide) [3, -1, -1]
      (by decide)⟩

/-- C20: for a simple undirected graph with at least one vertex and a bound
`maxLabel ≥ 0`, v2's `generate_labeling` returns `false` exactly when v1's prints nothing;
when it returns `true` the one labeling it prints is the first labeling v1 prints, which is
a valid labeling and lexicographically below every other valid labeling within the bound;
when it returns `false` the labeling vector is all-unset, as at entry, and nothing is
printed. (With no vertex the vector handed to `print_solution` is empty, and the C++
function reads `labeling[labeling.size()-1]`.) -/
theorem stop_at_first_agrees (G : Graph) (hG : IsSimple G) (_hn : 0 < G.length)
    (maxLabel : Int) (_hB : 0 ≤ maxLabel) :
    ∃ out1 b st, V1.generate_labeling G maxLabel = some out1 ∧
      V2.generate_labeling G maxLabel [] = some (b, st) ∧
      (b = false ↔ out1 = []) ∧
      (b = true → ∃ s rest, out1 = s :: rest ∧ st.out = [s] ∧
        IsL321 G s ∧ LabelsIn maxLabel s ∧
        ∀ t, IsL321 G t → LabelsIn maxLabel t → t = s ∨ List.Lex (· < ·) s t) ∧
      (b = false → st.labeling = List.replicate G.length (-1) ∧ st.out = []) := by
  refine ⟨_, _, _, generate_labeling_v1_eq G maxLabel, generate_labeling_v2_eq G maxLabel [], ?_⟩
  have hlex := l321_sols_lex G maxLabel G.length 0 (List.replicate G.length (-1)) (by simp)
  have hsound := l321_sols_sound hG.symm maxLabel G.length 0 _ (by omega)
    (good_replicate G maxLabel)
  have hcount := fun t (ht : IsL321 G t) (hr : LabelsIn maxLabel t) =>
    l321_sols_count maxLabel ht hr G.length 0 _ (by omega) (pre_replicate _)
      (fun v hv => by omega)
  cases hS : sols G maxLabel G.length 0 (List.replicate G.length (-1)) with
  | nil =>
    refine ⟨⟨fun _ => rfl, fun _ => ?_⟩, fun h => ?_, fun _ => ⟨?_, ?_⟩⟩
    · simp [firstOf]
    · exact absurd h (by simp [firstOf])
    · simp [firstOf]
    · simp [firstOf]
  | cons s rest =>
    rw [hS] at hlex hsound
    refine ⟨⟨fun h => absurd h (by simp [firstOf]), fun h => absurd h (by simp)⟩,
      fun _ => ⟨s, rest, rfl, by simp [firstOf], (hsound s (List.mem_cons_self _ _)).2,
        (hsound s (List.mem_cons_self _ _)).1, fun t ht hr => ?_⟩,
      fun h => absurd h (by simp [firstOf])⟩
    have hmem : t ∈ s :: rest := by
      have := hcount t ht hr
      rw [hS] at this
      exact List.count_pos_iff.mp (by omega)
    rcases List.mem_cons.mp hmem with h | h
    · exact Or.inl h
    · exact Or.inr ((List.pairwise_cons.mp hlex).1 t h)

theorem stop_at_first_agrees_witness :
    IsSimple [[1], [0]] ∧ 0 < ([[1], [0]] : Graph).length ∧ (0 : Int) ≤ 3 ∧
    ∃ out1 b st, V1.generate_labeling [[1], [0]] 3 = some out1 ∧
      V2.generate_labeling [[1], [0]] 3 [] = some (b, st) ∧
      (b = false ↔ out1 = []) ∧
      (b = true → ∃ s rest, out1 = s :: rest ∧ st.out = [s] ∧
        IsL321 [[1], [0]] s ∧ LabelsIn 3 s ∧
        ∀ t, IsL321 [[1], [0]] t → LabelsIn 3 t → t = s ∨ List.Lex (· < ·) s t) ∧
      (b = false → st.labeling = List.replicate ([[1], [0]] : Graph).length (-1) ∧
        st.out = []) :=
  ⟨by decide, by decide, by decide,
    stop_at_first_agrees [[1], [0]] (by decide) (by decide) 3 (by decide)⟩

end L321

namespace Graceful

theorem graceful_sols_lex (G : Graph) (nEdges : Int) : ∀ (k index : Nat) (lab E : List Int),
    index + k = lab.length → (sols G nEdges k index lab E).Pairwise (List.Lex (· < ·)) := by
  intro k
  induction k with
  | zero => intro index lab E _; simp [sols]
  | succ k ih =>
    intro index lab E hk
    rw [sols]
    apply pairwise_flatMap_lex index lab _ (by omega) _ _ _ (pairwise_candidates _)
    · intro l s hs
      by_cases hsafe : label_is_safe l G index lab E = true
      · simp only [hsafe, if_true] at hs
        obtain ⟨h1, h2⟩ := graceful_sols_agree G nEdges k (index + 1) _ _ s hs
        refine ⟨by simpa using h1, ?_, fun v hv => ?_⟩
        · rw [h2 index (by omega), getD_set_self _ _ _ _ (by omega)]
        · rw [h2 v (by omega), getD_set_of_ne _ _ _ _ _ (by omega)]
      · simp [hsafe] at hs
    · intro l
      by_cases hsafe : label_is_safe l G index lab E = true
      · simp only [hsafe, if_true]
        exact ih (index + 1) _ _ (by simp; omega)
      · simp [hsafe]

end Graceful

namespace Wheel

/-- What the wheel program saves on any graph with at least two vertices. -/
theorem wheel_saved_eq (G : Graph) (hloop : ∀ v, v ∉ adj G v) (nEdges : Int)
    (hN : 2 ≤ G.length) :
    ∃ reported, generate_graceful_labeling G nEdges =
      some (Graceful.sols G nEdges (G.length - 2) 2 (lab0 (G.length - 1))
        (setInsert (2 * ((G.length - 1 : Nat) : Int)) []), reported) := by
  have hlab : ((List.replicate G.length (-1 : Int)).set 0 0).set 1
      (2 * ((G.length : Int) - 1)) = lab0 (G.length - 1) := by
    unfold lab0
    rw [show G.length - 1 + 1 = G.length by omega]
    congr 1
    omega
  have hE : setInsert (2 * ((G.length : Int) - 1)) [] =
      setInsert (2 * ((G.length - 1 : Nat) : Int)) [] := by
    congr 1
    omega
  have hpre : Pre G.length 2 (lab0 (G.length - 1)) := by
    have := pre_lab0 (G.length - 1) (by omega)
    rwa [show G.length - 1 + 1 = G.length by omega] at this
  refine ⟨discard_complementary_labelings
    (Graceful.sols G nEdges (G.length - 2) 2 (lab0 (G.length - 1))
      (setInsert (2 * ((G.length - 1 : Nat) : Int)) [])) (G.length - 1), ?_⟩
  unfold generate_graceful_labeling backtrack
  rw [hlab, hE, Graceful.graceful_backtrack_eq G hloop nEdges (G.length + 1) 2 _ _ [] hpre
    (by simp [setInsert]) hN (by omega)]
  simp

end Wheel

/-- C19: for a simple undirected graph, the labelings printed by the graceful search, those
printed by the exhaustive L(3,2,1) search (v1), and those saved by the wheel search (on a
graph with at least the two vertices it labels beforehand) each come in strictly
increasing lexicographic order of the label vectors. -/
theorem solutions_ascending (G : Graph) (hG : IsSimple G) (nEdges maxLabel : Int) :
    (∃ out, Graceful.generate_graceful_labeling G nEdges = some out ∧
      out.Pairwise (List.Lex (· < ·))) ∧
    (∃ out, L321.V1.generate_labeling G maxLabel = some out ∧
      out.Pairwise (List.Lex (· < ·))) ∧
    (2 ≤ G.length → ∃ saved reported,
      Wheel.generate_graceful_labeling G nEdges = some (saved, reported) ∧
      saved.Pairwise (List.Lex (· < ·))) := by
  refine ⟨⟨_, Graceful.graceful_generate_eq G hG nEdges,
      Graceful.graceful_sols_lex G nEdges _ _ _ _ (by simp)⟩,
    ⟨_, L321.generate_labeling_v1_eq G maxLabel, L321.l321_sols_lex G maxLabel _ _ _ (by simp)⟩,
    fun hN => ?_⟩
  obtain ⟨reported, h⟩ := Wheel.wheel_saved_eq G (fun v hv => hG.ne hv rfl) nEdges hN
  refine ⟨_, reported, h, Graceful.graceful_sols_lex G nEdges _ _ _ _ ?_⟩
  simp only [Wheel.lab0, List.length_set, List.length_replicate]
  omega

theorem solutions_ascending_witness :
    IsSimple [[1, 2], [0, 2], [1, 0]] ∧
    ((∃ out, Graceful.generate_graceful_labeling [[1, 2], [0, 2], [1, 0]] 3 = some out ∧
      out.Pairwise (List.Lex (· < ·))) ∧
    (∃ out, L321.V1.generate_labeling [[1, 2], [0, 2], [1, 0]] 7 = some out ∧
      out.Pairwise (List.Lex (· < ·))) ∧
    (2 ≤ ([[1, 2], [0, 2], [1, 0]] : Graph).length → ∃ saved reported,
      Wheel.generate_graceful_labeling [[1, 2], [0, 2], [1, 0]] 3 = some (saved, reported) ∧
      saved.Pairwise (List.Lex (· < ·)))) :=
  ⟨by decide, solutions_ascending [[1, 2], [0, 2], [1, 0]] (by decide) 3 7⟩

namespace L321

/-- Once the bound reaches `3 * (n - 1)` the enumeration is not empty. -/
theorem sols_ne_nil_of_large {G : Graph} (hs : ∀ v w, w ∈ adj G v → v ∈ adj G w) {B : Int}
    (hB : 3 * ((G.length : Int) - 1) ≤ B) :
    sols G B G.length 0 (List.replicate G.length (-1)) ≠ [] := by
  rw [sols_ne_nil_iff hs]
  exact ⟨_, (three_times_valid G).1, (three_times_valid G).2.mono hB⟩

theorem generate_labeling_v2_true {G : Graph} {B : Int}
    (h : sols G B G.length 0 (List.replicate G.length (-1)) ≠ []) (out0 : List (List Int)) :
    ∃ st, V2.generate_labeling G B out0 = some (true, st) := by
  obtain ⟨s, rest, hs⟩ := List.exists_cons_of_ne_nil h
  have := generate_labeling_v2_eq G B out0
  rw [hs] at this
  exact ⟨_, this⟩

/-- C21: for a simple undirected graph on `n ≥ 1` vertices, v2's `generate_labeling`
returns `true` for every bound from `3 * (n - 1)` on, hence for some bound
`B ≥ 2 * maximum_degree(G) + 1`; the loop of `main` stops after at most `3 * (n - 1)`
failed bounds (any larger fuel gives the same result); and every call of `backtrack` on a
vector with exactly the slots below `index` set returns, given fuel above `n - index`. -/
theorem retry_loop_terminates (G : Graph) (hG : IsSimple G) (_hn : 1 ≤ G.length) :
    (∀ B : Int, 3 * ((G.length : Int) - 1) ≤ B →
      ∀ out0, ∃ st, V2.generate_labeling G B out0 = some (true, st)) ∧
    (∃ B : Int, 2 * (V2.maximum_degree G : Int) + 1 ≤ B ∧
      ∃ st, V2.generate_labeling G B [] = some (true, st)) ∧
    (∃ j B st, j ≤ 3 * (G.length - 1) ∧ ∀ fuel, j < fuel → V2.main G fuel = some (B, st)) ∧
    ∀ (maxLabel : Int) (fuel index : Nat) (lab : List Int) (out : List (List Int)),
      Pre G.length index lab → index ≤ G.length → G.length - index < fuel →
      ∃ r, V2.backtrack G maxLabel fuel index ⟨lab, out⟩ = some r := by
  classical
  have hlarge : ∀ B : Int, 3 * ((G.length : Int) - 1) ≤ B →
      sols G B G.length 0 (List.replicate G.length (-1)) ≠ [] :=
    fun B hB => sols_ne_nil_of_large hG.symm hB
  have hex : ∃ j : Nat, sols G (2 * (V2.maximum_degree G : Int) + 1 + (j : Int)) G.length 0
      (List.replicate G.length (-1)) ≠ [] :=
    ⟨3 * (G.length - 1), hlarge _ (by omega)⟩
  refine ⟨fun B hB out0 => generate_labeling_v2_true (hlarge B hB) out0, ?_, ?_, ?_⟩
  · exact ⟨2 * (V2.maximum_degree G : Int) + 1 + (Nat.find hex : Int), by omega,
      generate_labeling_v2_true (Nat.find_spec hex) []⟩
  · obtain ⟨s, rest, hs⟩ := List.exists_cons_of_ne_nil (Nat.find_spec hex)
    refine ⟨Nat.find hex, 2 * (V2.maximum_degree G : Int) + 1 + (Nat.find hex : Int), ⟨s, [s]⟩,
      Nat.find_min' hex (hlarge _ (by omega)), fun fuel hf => ?_⟩
    have := main_loop_eq G (Nat.find hex) (2 * (V2.maximum_degree G : Int) + 1) fuel [] hf
      (fun i hi => by
        have := Nat.find_min hex hi
        simpa using this) s rest hs
    simpa [V2.main] using this
  · intro maxLabel fuel index lab out hpre hi hf
    exact ⟨_, backtrack_v2_eq G maxLabel fuel index lab out hpre hi hf⟩

theorem retry_loop_terminates_witness :
    IsSimple [[1], [0]] ∧ 1 ≤ ([[1], [0]] : Graph).length ∧
    ((∀ B : Int, 3 * ((([[1], [0]] : Graph).length : Int) - 1) ≤ B →
      ∀ out0, ∃ st, V2.generate_labeling [[1], [0]] B out0 = some (true, st)) ∧
    (∃ B : Int, 2 * (V2.maximum_degree [[1], [0]] : Int) + 1 ≤ B ∧
      ∃ st, V2.generate_labeling [[1], [0]] B [] = some (true, st)) ∧
    (∃ j B st, j ≤ 3 * (([[1], [0]] : Graph).length - 1) ∧
      ∀ fuel, j < fuel → V2.main [[1], [0]] fuel = some (B, st)) ∧
    ∀ (maxLabel : Int) (fuel index : Nat) (lab : List Int) (out : List (List Int)),
      Pre ([[1], [0]] : Graph).length index lab → index ≤ ([[1], [0]] : Graph).length →
      ([[1], [0]] : Graph).length - index < fuel →
      ∃ r, V2.backtrack [[1], [0]] maxLabel fuel index ⟨lab, out⟩ = some r) :=
  ⟨by decide, by decide, retry_loop_terminates [[1], [0]] (by decide) (by decide)⟩

end L321
